import Mathlib

/-!
# A verification development for `util/utf8reader.go` and `conf.GetGoFmt` of wide

The file embeds the buffered, UTF-8-boundary-aware `Reader` of
`src/util/utf8reader.go` and the method `GetGoFmt` of `src/conf/wide.go` in
Lean 4 and proves properties of them.

Modelling conventions.

* A Go `byte` is a natural number (below 256); a Go `[]byte` or `string` is a
  `List Nat`.
* Go `int` values (the cursors `r`, `w`, the loop variable `index`, a read
  count `n`) are `Int`.  Buffers are far smaller than `2^63`, so no wrap-around
  is modelled.
* A slice expression `s[lo:hi]` panics when its bounds are out of range; `slice`
  returns `none` there and the callers turn that into the run-time panic
  `Panic.sliceBounds`.
* `panic(...)` ends the call with the outcome `panic`, which records the
  state of the reader at that moment.
* The underlying `io.Reader` is a state machine: a state of type `σ` and a
  function `rd : σ → Nat → ReadResult × σ` which receives the length of the
  destination slice `p`.  An `io.Reader` may also be a `*Reader` itself, which
  `NewReaderSize` tests for (`IOReader.ptrReader`).
* Every call reports the list of source reads it performed (`reads`), in
  order.  The list is the only addition to what the Go code computes.
* `utf8.DecodeRune`, `utf8.DecodeLastRune` and `utf8.RuneStart` belong to the Go
  standard library (`unicode/utf8`); they are transcribed from its source.
-/

namespace Utf8Reader

/-! ## Package `unicode/utf8` of the Go standard library -/

namespace utf8

/-- The constant `RuneError = '�'`. -/
def RuneError : Nat := 0xFFFD
/-- The constant `RuneSelf = 0x80`. -/
def RuneSelf : Nat := 0x80
/-- The constant `UTFMax = 4`. -/
def UTFMax : Int := 4

/-- The constant `maskx = 0b00111111`. -/
def maskx : Nat := 0x3F
/-- The constant `mask2 = 0b00011111`. -/
def mask2 : Nat := 0x1F
/-- The constant `mask3 = 0b00001111`. -/
def mask3 : Nat := 0x0F
/-- The constant `mask4 = 0b00000111`. -/
def mask4 : Nat := 0x07
/-- The constant `locb = 0b10000000`. -/
def locb : Nat := 0x80
/-- The constant `hicb = 0b10111111`. -/
def hicb : Nat := 0xBF

/-- The constant `xx = 0xF1`: invalid, size 1. -/
def xx : Nat := 0xF1
/-- The constant `as = 0xF0`: ASCII, size 1. -/
def as : Nat := 0xF0
/-- The constant `s1 = 0x02`: accept 0, size 2. -/
def s1 : Nat := 0x02
/-- The constant `s2 = 0x13`: accept 1, size 3. -/
def s2 : Nat := 0x13
/-- The constant `s3 = 0x03`: accept 0, size 3. -/
def s3 : Nat := 0x03
/-- The constant `s4 = 0x23`: accept 2, size 3. -/
def s4 : Nat := 0x23
/-- The constant `s5 = 0x34`: accept 3, size 4. -/
def s5 : Nat := 0x34
/-- The constant `s6 = 0x04`: accept 0, size 4. -/
def s6 : Nat := 0x04
/-- The constant `s7 = 0x44`: accept 4, size 4. -/
def s7 : Nat := 0x44

/-- The table `first [256]uint8`, row by row: `0x00-0x7F` are `as`,
`0x80-0xC1` are `xx`, `0xC2-0xDF` are `s1`, `0xE0` is `s2`, `0xE1-0xEC` are
`s3`, `0xED` is `s4`, `0xEE-0xEF` are `s3`, `0xF0` is `s5`, `0xF1-0xF3` are
`s6`, `0xF4` is `s7` and `0xF5-0xFF` are `xx`. -/
def first (b : Nat) : Nat :=
  if b < 0x80 then as
  else if b < 0xC2 then xx
  else if b < 0xE0 then s1
  else if b = 0xE0 then s2
  else if b < 0xED then s3
  else if b = 0xED then s4
  else if b < 0xF0 then s3
  else if b = 0xF0 then s5
  else if b < 0xF4 then s6
  else if b = 0xF4 then s7
  else xx

/-- The table `acceptRanges [16]acceptRange` as pairs `(lo, hi)`; the entries
after the fifth are zero values. -/
def acceptRanges (i : Nat) : Nat × Nat :=
  match i with
  | 0 => (locb, hicb)
  | 1 => (0xA0, hicb)
  | 2 => (locb, 0x9F)
  | 3 => (0x90, hicb)
  | 4 => (locb, 0x8F)
  | _ => (0, 0)

/-- The function `utf8.DecodeRune`: the first rune of `p` and its width. -/
def DecodeRune (p : List Nat) : Nat × Int :=
  let n := p.length
  if n < 1 then (RuneError, 0)
  else
    let p0 := p.getD 0 0
    let x := first p0
    if x ≥ as then
      -- `mask` is all ones for `xx` and zero for `as`
      (if x % 2 = 1 then RuneError else p0, 1)
    else
      let sz := x &&& 7
      let accept := acceptRanges (x >>> 4)
      if n < sz then (RuneError, 1)
      else
        let b1 := p.getD 1 0
        if b1 < accept.1 ∨ accept.2 < b1 then (RuneError, 1)
        else if sz ≤ 2 then (((p0 &&& mask2) <<< 6) ||| (b1 &&& maskx), 2)
        else
          let b2 := p.getD 2 0
          if b2 < locb ∨ hicb < b2 then (RuneError, 1)
          else if sz ≤ 3 then
            (((p0 &&& mask3) <<< 12) ||| ((b1 &&& maskx) <<< 6) ||| (b2 &&& maskx), 3)
          else
            let b3 := p.getD 3 0
            if b3 < locb ∨ hicb < b3 then (RuneError, 1)
            else
              (((p0 &&& mask4) <<< 18) ||| ((b1 &&& maskx) <<< 12) |||
                ((b2 &&& maskx) <<< 6) ||| (b3 &&& maskx), 4)

/-- The function `utf8.RuneStart`: `b&0xC0 != 0x80`. -/
def RuneStart (b : Nat) : Bool := (b &&& 0xC0) != 0x80

/-- The loop `for start--; start >= lim; start-- { if RuneStart(p[start]) { break } }`
of `DecodeLastRune`, where `k` counts the positions `lim, ..., lim + k - 1`
still to be visited (the current `start` is `lim + k - 1`).  The result is the
value of `start` after the loop. -/
def backToStart (p : List Nat) (lim : Int) : Nat → Int
  | 0 => lim - 1
  | k + 1 => if RuneStart (p.getD (lim + k).toNat 0) then lim + k else backToStart p lim k

/-- The function `utf8.DecodeLastRune`: the last rune of `p` and its width. -/
def DecodeLastRune (p : List Nat) : Nat × Int :=
  let pend : Int := p.length
  if pend = 0 then (RuneError, 0)
  else
    let start : Int := pend - 1
    let r := p.getD start.toNat 0
    if r < RuneSelf then (r, 1)
    else
      let lim : Int := if pend - UTFMax < 0 then 0 else pend - UTFMax
      -- the loop starts at `start - 1` and runs while `start >= lim`
      let start := backToStart p lim (start - lim).toNat
      let start : Int := if start < 0 then 0 else start
      let (r, size) := DecodeRune (p.drop start.toNat)
      if start + size ≠ pend then (RuneError, 1) else (r, size)

end utf8

/-! ## The reader of `util/utf8reader.go` -/

/-- The values of Go's `error` interface that the reader distinguishes:
`io.EOF`, `io.ErrNoProgress`, and any other error of the source. -/
inductive Error where
  | EOF
  | ErrNoProgress
  | other (msg : String)
  deriving DecidableEq, Repr

/-- What one call `rd.Read(p)` of the underlying `io.Reader` answers: the count
`n`, the bytes `data` it stored at the start of `p`, and the error. -/
structure ReadResult where
  n : Int
  data : List Nat
  err : Option Error
  deriving DecidableEq, Repr

/-- An `io.Reader` value: either a `*Reader` of this package (its fields are
listed in the constructor) or a reader of any other dynamic type, in state
`s`. -/
inductive IOReader (σ : Type) : Type where
  | other (s : σ)
  | ptrReader (buf : List Nat) (rd : IOReader σ) (r w : Int) (err : Option Error)
  deriving DecidableEq

/-- The type `Reader struct { buf []byte; rd io.Reader; r, w int; err error }`. -/
structure Reader (σ : Type) where
  buf : List Nat
  rd : IOReader σ
  r : Int
  w : Int
  err : Option Error
  deriving DecidableEq

/-- The run-time panics of the package: the three `panic(...)` statements and
the bounds check of a slice expression. -/
inductive Panic where
  | fillFullBuffer
  | errNegativeRead
  | noUtf8CharFound
  | sliceBounds
  deriving DecidableEq, Repr

/-- How a call ends: it returns `val`, or it panics.  Both record the reader
afterwards and the source reads performed during the call. -/
inductive Outcome (σ : Type) (α : Type) : Type where
  | ret (val : α) (b : Reader σ) (reads : List ReadResult)
  | panic (p : Panic) (b : Reader σ) (reads : List ReadResult)
  deriving DecidableEq

/-- The constant `defaultBufSize = 4096`. -/
def defaultBufSize : Int := 4096
/-- The constant `minReadBufferSize = 16`. -/
def minReadBufferSize : Int := 16
/-- The constant `maxConsecutiveEmptyReads = 100`. -/
def maxConsecutiveEmptyReads : Nat := 100

/-- The slice expression `s[lo:hi]` (capacity equals length for the buffers of
this package); `none` when Go panics with "slice bounds out of range". -/
def slice (s : List Nat) (lo hi : Int) : Option (List Nat) :=
  if 0 ≤ lo ∧ lo ≤ hi ∧ hi ≤ s.length then some ((s.drop lo.toNat).take (hi - lo).toNat)
  else none

/-- The builtin `copy(dst, src)`: the contents of `dst` afterwards. -/
def copy (dst src : List Nat) : List Nat :=
  src.take dst.length ++ dst.drop src.length

/-- The method `Reader.Read`, whose body is a bare `return`: it answers
`(0, nil)`, stores nothing and leaves the reader unchanged. -/
def Reader.Read {σ : Type} (b : Reader σ) (_buf : Nat) : ReadResult × Reader σ :=
  (⟨0, [], none⟩, b)

/-- A call `rd.Read(p)` through the `io.Reader` interface with `len(p) = len`:
dispatches on the dynamic type. -/
def IOReader.Read {σ : Type} (rd : σ → Nat → ReadResult × σ) :
    IOReader σ → Nat → ReadResult × IOReader σ
  | .other s, len => ((rd s len).1, .other (rd s len).2)
  | .ptrReader buf src r w err, len =>
    let res := Reader.Read (⟨buf, src, r, w, err⟩ : Reader σ) len
    (res.1, .ptrReader res.2.buf res.2.rd res.2.r res.2.w res.2.err)

/-- The method `reset`. -/
def Reader.reset {σ : Type} (buf : List Nat) (r : IOReader σ) : Reader σ :=
  { buf := buf, rd := r, r := 0, w := 0, err := none }

/-- The function `NewReaderSize`. -/
def NewReaderSize {σ : Type} (rd : IOReader σ) (size : Int) : Reader σ :=
  let fresh : Reader σ :=
    let size := if size < minReadBufferSize then minReadBufferSize else size
    Reader.reset (List.replicate size.toNat 0) rd
  match rd with
  | .ptrReader buf src r w err =>
    if (buf.length : Int) ≥ size then ⟨buf, src, r, w, err⟩ else fresh
  | .other _ => fresh

/-- The function `NewReader`. -/
def NewReader {σ : Type} (rd : IOReader σ) : Reader σ :=
  NewReaderSize rd defaultBufSize

/-- Prepends a source read to the reads of an outcome. -/
def Outcome.addRead {σ α : Type} (res : ReadResult) : Outcome σ α → Outcome σ α
  | .ret v b reads => .ret v b (res :: reads)
  | .panic p b reads => .panic p b (res :: reads)

/-- The loop `for i := maxConsecutiveEmptyReads; i > 0; i--` of `fill` with `i`
iterations to go, followed by `b.err = io.ErrNoProgress`. -/
def fillLoop {σ : Type} (rd : σ → Nat → ReadResult × σ) :
    Nat → Reader σ → Outcome σ Unit
  | 0, b => .ret () { b with err := some Error.ErrNoProgress } []
  | i + 1, b =>
    match slice b.buf b.w b.buf.length with
    | none => .panic Panic.sliceBounds b []
    | some p =>
      let res := (b.rd.Read rd p.length).1
      let b1 : Reader σ :=
        { b with buf := b.buf.take b.w.toNat ++ copy p res.data, rd := (b.rd.Read rd p.length).2 }
      if res.n < 0 then .panic Panic.errNegativeRead b1 [res]
      else
        let b2 : Reader σ := { b1 with w := b1.w + res.n }
        if res.err ≠ none then .ret () { b2 with err := res.err } [res]
        else if res.n > 0 then .ret () b2 [res]
        else (fillLoop rd i b2).addRead res

/-- The method `fill`. -/
def Reader.fill {σ : Type} (rd : σ → Nat → ReadResult × σ) (b : Reader σ) : Outcome σ Unit :=
  -- Slide existing data to beginning.
  let slid : Option (Reader σ) :=
    if b.r > 0 then
      match slice b.buf b.r b.w with
      | none => none
      | some s => some { b with buf := copy b.buf s, w := b.w - b.r, r := 0 }
    else some b
  match slid with
  | none => .panic Panic.sliceBounds b []
  | some b =>
    if b.w ≥ b.buf.length then .panic Panic.fillFullBuffer b []
    else fillLoop rd maxConsecutiveEmptyReads b

/-- The method `readErr`: the latched error and the reader with the latch
cleared. -/
def Reader.readErr {σ : Type} (b : Reader σ) : Option Error × Reader σ :=
  (b.err, { b with err := none })

/-- The method `Buffered`. -/
def Reader.Buffered {σ : Type} (b : Reader σ) : Int := b.w - b.r

/-- The `for` loop of `ReadData` with `index = r + k`: the value of `index`
when the loop is left (`none` when a slice expression panics). -/
def scanBack (buf : List Nat) (r : Int) : Nat → Option Int
  | 0 =>
    match slice buf r r with
    | none => none
    | some p => if (utf8.DecodeLastRune p).1 = utf8.RuneError then some (r - 1) else some r
  | k + 1 =>
    match slice buf r (r + (k + 1 : Nat)) with
    | none => none
    | some p =>
      if (utf8.DecodeLastRune p).1 = utf8.RuneError then scanBack buf r k
      else some (r + (k + 1 : Nat))

/-- The first statement of `ReadData`:
`if n := b.Buffered(); n < len(b.buf) { b.fill() }`. -/
def Reader.topUp {σ : Type} (rd : σ → Nat → ReadResult × σ) (b : Reader σ) : Outcome σ Unit :=
  if b.Buffered < b.buf.length then b.fill rd else .ret () b []

/-- The rest of `ReadData`, after the first statement, where `reads` are the
source reads of the first statement. -/
def Reader.emit {σ : Type} (b : Reader σ) (reads : List ReadResult) :
    Outcome σ (List Nat × Option Error) :=
  if b.err ≠ none then
    match slice b.buf b.r b.w with
    | none => .panic Panic.sliceBounds b reads
    | some line =>
      let b1 : Reader σ := { b with r := b.w }
      .ret (line, b1.readErr.1) b1.readErr.2 reads
  else
    -- `index := b.w`, then the loop
    let index : Option Int := if b.w < b.r then none else scanBack b.buf b.r (b.w - b.r).toNat
    match index with
    | none => .panic Panic.sliceBounds b reads
    | some index =>
      if index > b.r then
        match slice b.buf b.r (b.r + index) with
        | none => .panic Panic.sliceBounds b reads
        | some line => .ret (line, none) { b with r := b.r + index } reads
      else .panic Panic.noUtf8CharFound b reads

/-- The method `ReadData`. -/
def Reader.ReadData {σ : Type} (rd : σ → Nat → ReadResult × σ) (b : Reader σ) :
    Outcome σ (List Nat × Option Error) :=
  match b.topUp rd with
  | .panic p b reads => .panic p b reads
  | .ret _ b reads => b.emit reads

/-! ## Auxiliary definitions for the statements -/

/-- The buffered region `buf[r:w]` as a total function (it is the slice
expression whenever that does not panic). -/
def Reader.window {σ : Type} (b : Reader σ) : List Nat :=
  (b.buf.drop b.r.toNat).take (b.w - b.r).toNat

/-- The cursor invariant `0 ≤ r ≤ w ≤ len(buf)`. -/
def Reader.WF {σ : Type} (b : Reader σ) : Prop :=
  0 ≤ b.r ∧ b.r ≤ b.w ∧ b.w ≤ b.buf.length

instance {σ : Type} (b : Reader σ) : Decidable b.WF := by
  unfold Reader.WF
  infer_instance

/-- A source keeps the contract of `io.Reader.Read`: the count `n` satisfies
`0 ≤ n ≤ len(p)`, and the bytes it stored in `p` are the `n` bytes it
reports. -/
def SourceOK {σ : Type} (rd : σ → Nat → ReadResult × σ) : Prop :=
  ∀ s len, 0 ≤ (rd s len).1.n ∧ (rd s len).1.n ≤ len ∧ ((rd s len).1.data.length : Int) = (rd s len).1.n

/-- The bytes delivered by a list of source reads, in order. -/
def delivered (reads : List ReadResult) : List Nat :=
  (reads.map (fun res => res.data)).flatten

/-- Calls `ReadData` `k` times in a row and collects what the calls return, the
final reader and the source reads; `none` when one of the calls panics. -/
def readDataN {σ : Type} (rd : σ → Nat → ReadResult × σ) :
    Nat → Reader σ → Option (List (List Nat × Option Error) × Reader σ × List ReadResult)
  | 0, b => some ([], b, [])
  | k + 1, b =>
    match b.ReadData rd with
    | .panic _ _ _ => none
    | .ret v b1 reads =>
      match readDataN rd k b1 with
      | none => none
      | some (vs, b2, reads2) => some (v :: vs, b2, reads ++ reads2)

/-- The chunks of a list of results of `ReadData`, concatenated in call order. -/
def chunksOf (rets : List (List Nat × Option Error)) : List Nat :=
  (rets.map Prod.fst).flatten

/-- `NewReaderSize(rd, size)` allocates a reader: `rd` is not a `*Reader` whose
buffer already has `size` bytes. -/
def Allocates {σ : Type} (rd : IOReader σ) (size : Int) : Prop :=
  match rd with
  | .ptrReader buf _ _ _ _ => (buf.length : Int) < size
  | .other _ => True

/-- A source for tests that delivers the chunks of a list one per read, cut to
the length of the destination when a chunk is longer, and then end-of-stream
for ever. -/
def chunkSource : List (List Nat) → Nat → ReadResult × List (List Nat)
  | [], _ => (⟨0, [], some Error.EOF⟩, [])
  | c :: rest, len =>
    (⟨(c.take len).length, c.take len, none⟩, if len < c.length then c.drop len :: rest else rest)

/-- A source for tests that answers the results of a list one per read,
whatever the destination, and then `(0, io.EOF)` for ever. -/
def scriptSource : List ReadResult → Nat → ReadResult × List ReadResult
  | [], _ => (⟨0, [], some Error.EOF⟩, [])
  | res :: rest, _ => (res, rest)

/-- The part of `utf8.DecodeRune` after the table lookups, for the size `sz`
and the accept range `lo..hi` found there (used to reason about `DecodeRune`
case by case). -/
def decodeMulti (sz lo hi : Nat) (p : List Nat) : Nat × Int :=
  if p.length < sz then (utf8.RuneError, 1)
  else
    let p0 := p.getD 0 0
    let b1 := p.getD 1 0
    if b1 < lo ∨ hi < b1 then (utf8.RuneError, 1)
    else if sz ≤ 2 then (((p0 &&& utf8.mask2) <<< 6) ||| (b1 &&& utf8.maskx), 2)
    else
      let b2 := p.getD 2 0
      if b2 < utf8.locb ∨ utf8.hicb < b2 then (utf8.RuneError, 1)
      else if sz ≤ 3 then
        (((p0 &&& utf8.mask3) <<< 12) ||| ((b1 &&& utf8.maskx) <<< 6) ||| (b2 &&& utf8.maskx), 3)
      else
        let b3 := p.getD 3 0
        if b3 < utf8.locb ∨ utf8.hicb < b3 then (utf8.RuneError, 1)
        else
          (((p0 &&& utf8.mask4) <<< 18) ||| ((b1 &&& utf8.maskx) <<< 12) |||
            ((b2 &&& utf8.maskx) <<< 6) ||| (b3 &&& utf8.maskx), 4)

/-- A continuation byte `80..BF`. -/
def IsCont (b : Nat) : Prop := 0x80 ≤ b ∧ b ≤ 0xBF

/-- A complete, validly encoded UTF-8 character: one of the well-formed byte
sequences of the Unicode Standard (table 3-7; RFC 3629, section 4). -/
def ValidUtf8Char : List Nat → Prop
  | [b0] => b0 < 0x80
  | [b0, b1] => 0xC2 ≤ b0 ∧ b0 ≤ 0xDF ∧ IsCont b1
  | [b0, b1, b2] =>
    ((b0 = 0xE0 ∧ 0xA0 ≤ b1 ∧ b1 ≤ 0xBF) ∨ (0xE1 ≤ b0 ∧ b0 ≤ 0xEC ∧ IsCont b1) ∨
      (b0 = 0xED ∧ 0x80 ≤ b1 ∧ b1 ≤ 0x9F) ∨ (0xEE ≤ b0 ∧ b0 ≤ 0xEF ∧ IsCont b1)) ∧ IsCont b2
  | [b0, b1, b2, b3] =>
    ((b0 = 0xF0 ∧ 0x90 ≤ b1 ∧ b1 ≤ 0xBF) ∨ (0xF1 ≤ b0 ∧ b0 ≤ 0xF3 ∧ IsCont b1) ∨
      (b0 = 0xF4 ∧ 0x80 ≤ b1 ∧ b1 ≤ 0x8F)) ∧ IsCont b2 ∧ IsCont b3
  | _ => False

instance (b : Nat) : Decidable (IsCont b) := by
  unfold IsCont
  infer_instance

instance : DecidablePred ValidUtf8Char := fun c => by
  unfold ValidUtf8Char
  split <;> infer_instance

/-- A byte string ends with a complete, validly encoded UTF-8 character. -/
def EndsWithValidChar (s : List Nat) : Prop :=
  ∃ pre c, s = pre ++ c ∧ ValidUtf8Char c

/-- The first step of `fill` ("slide existing data to beginning") on a state
within the cursor invariant. -/
def Reader.slid {σ : Type} (b : Reader σ) : Reader σ :=
  if b.r > 0 then { b with buf := copy b.buf b.window, w := b.w - b.r, r := 0 } else b

/-- The length of the destination `buf[w:]` that `fill` hands to the source,
once the buffered region has slid to the front. -/
def Reader.free {σ : Type} (b : Reader σ) : Nat :=
  b.buf.length - (b.w - b.r).toNat

/-- The source reads performed during a call. -/
def Outcome.reads {σ α : Type} : Outcome σ α → List ReadResult
  | .ret _ _ reads => reads
  | .panic _ _ reads => reads

/-- Prepends a list of source reads to the reads of an outcome. -/
def Outcome.addReads {σ α : Type} (pre : List ReadResult) : Outcome σ α → Outcome σ α
  | .ret v b reads => .ret v b (pre ++ reads)
  | .panic p b reads => .panic p b (pre ++ reads)

/-- From the source state `s`, the next `k` reads into a destination of length
`len` all answer a zero count with no error. -/
def ZeroReads {σ : Type} (rd : σ → Nat → ReadResult × σ) (len : Nat) :
    Nat → IOReader σ → Prop
  | 0, _ => True
  | k + 1, s =>
    (s.Read rd len).1.n = 0 ∧ (s.Read rd len).1.err = none ∧ ZeroReads rd len k (s.Read rd len).2

instance ZeroReads.decidable {σ : Type} (rd : σ → Nat → ReadResult × σ) (len : Nat) :
    ∀ (k : Nat) (s : IOReader σ), Decidable (ZeroReads rd len k s)
  | 0, _ => isTrue trivial
  | k + 1, s =>
    have := ZeroReads.decidable rd len k (s.Read rd len).2
    inferInstanceAs (Decidable ((s.Read rd len).1.n = 0 ∧ (s.Read rd len).1.err = none ∧
      ZeroReads rd len k (s.Read rd len).2))

/-- From the source state `s`, the next `k` reads into a destination of length
`len` all answer `(0, nil)` and store nothing, and lead to the source state
`t`. -/
def ZeroReadsTo {σ : Type} (rd : σ → Nat → ReadResult × σ) (len : Nat) :
    Nat → IOReader σ → IOReader σ → Prop
  | 0, s, t => s = t
  | k + 1, s, t =>
    (s.Read rd len).1 = ⟨0, [], none⟩ ∧ ZeroReadsTo rd len k (s.Read rd len).2 t

/-- The encoding `EF BF BD` of `U+FFFD`, the replacement character, whose rune
is the value `RuneError`. -/
def replacementChar : List Nat := [0xEF, 0xBF, 0xBD]

/-- A complete, validly encoded character other than `U+FFFD`. -/
def GoodChar (c : List Nat) : Prop := ValidUtf8Char c ∧ c ≠ replacementChar

instance (c : List Nat) : Decidable (GoodChar c) := by
  unfold GoodChar
  infer_instance

/-- A proper prefix (possibly empty) of a complete, validly encoded
character. -/
def IncompleteChar (h : List Nat) : Prop := ∃ suf, suf ≠ [] ∧ ValidUtf8Char (h ++ suf)

/-- A way of splitting a byte sequence into source reads in which every read
completes at least one character: `ReadsCompleteChars cap held chunks` says
that, with the bytes `held` read but not yet returned, each read of `chunks` in
turn is not empty, fits in a buffer of `cap` bytes behind the held bytes, and
makes the held bytes and the read together one or more complete characters
other than `U+FFFD` followed by a proper prefix of a character, which is held
next; after the last read nothing is held. -/
inductive ReadsCompleteChars (cap : Nat) : List Nat → List (List Nat) → Prop where
  | done : ReadsCompleteChars cap [] []
  | read (held chunk : List Nat) (rest : List (List Nat)) (chars : List (List Nat))
      (held' : List Nat) :
      chunk ≠ [] → chars ≠ [] → (∀ c ∈ chars, GoodChar c) → IncompleteChar held' →
      held ++ chunk = chars.flatten ++ held' → (held ++ chunk).length ≤ cap →
      ReadsCompleteChars cap held' rest → ReadsCompleteChars cap held (chunk :: rest)

/-- How calling `ReadData` until it returns an error ends: with the chunks
returned, the error and the final reader; with a panic; or with the calls
allowed used up. -/
inductive ReadAll (σ : Type) : Type where
  | done (chunks : List (List Nat)) (err : Error) (b : Reader σ)
  | panicked (p : Panic) (chunks : List (List Nat))
  | unfinished (chunks : List (List Nat)) (b : Reader σ)
  deriving DecidableEq

/-- Puts a chunk in front of the chunks of a run. -/
def ReadAll.prepend {σ : Type} (line : List Nat) : ReadAll σ → ReadAll σ
  | .done chunks err b => .done (line :: chunks) err b
  | .panicked p chunks => .panicked p (line :: chunks)
  | .unfinished chunks b => .unfinished (line :: chunks) b

/-- Calls `ReadData` until it returns an error, at most `k` times. -/
def readUntilErr {σ : Type} (rd : σ → Nat → ReadResult × σ) : Nat → Reader σ → ReadAll σ
  | 0, b => .unfinished [] b
  | k + 1, b =>
    match b.ReadData rd with
    | .panic p _ _ => .panicked p []
    | .ret (line, some e) b1 _ => .done [line] e b1
    | .ret (line, none) b1 _ => (readUntilErr rd k b1).prepend line

/-! ## Package `conf`: `GetGoFmt` of `conf/wide.go` -/

namespace wide

/-- The type `LatestSessionContent`. -/
structure LatestSessionContent where
  FileTree : List String
  Files : List String
  CurrentFile : String

/-- The type `Editor`. -/
structure Editor where
  FontFamily : String
  FontSize : String
  LineHeight : String
  Theme : String
  TabSize : String

/-- The type `User`; the two pointer fields are `none` when nil. -/
structure User where
  Name : String
  Password : String
  Email : String
  Gravatar : String
  Workspace : String
  Locale : String
  GoFormat : String
  FontFamily : String
  FontSize : String
  Theme : String
  Editor : Option Editor
  LatestSessionContent : Option LatestSessionContent

/-- The type `conf`.  `Users` is a `[]*User`: an entry is `none` when the
pointer is nil. -/
structure conf where
  IP : String
  Port : String
  Context : String
  Server : String
  StaticServer : String
  LogLevel : String
  Channel : String
  HTTPSessionMaxAge : Int
  StaticResourceVersion : String
  MaxProcs : Int
  RuntimeMode : String
  WD : String
  Locale : String
  Users : List (Option User)

/-- The loop `for _, user := range c.Users` of `GetGoFmt` over the remaining
users, followed by the final `return "gofmt"`.  The result is `none` when the
call panics: `user.Name` dereferences a nil pointer.  The function
`util.Go.GetExecutableInGOBIN` is a parameter, and the message written with
`logger.Errorf` in the `default` case is not part of the result. -/
def GetGoFmtLoop (GetExecutableInGOBIN : String → String) (username : String) :
    List (Option User) → Option String
  | [] => some "gofmt"
  | none :: _ => none
  | some user :: rest =>
    if user.Name = username then
      if user.GoFormat = "gofmt" then some "gofmt"
      else if user.GoFormat = "goimports" then some (GetExecutableInGOBIN "goimports")
      else some "gofmt"
    else GetGoFmtLoop GetExecutableInGOBIN username rest

/-- The method `conf.GetGoFmt`. -/
def conf.GetGoFmt (GetExecutableInGOBIN : String → String) (c : conf) (username : String) :
    Option String :=
  GetGoFmtLoop GetExecutableInGOBIN username c.Users

/-- A user for tests, with the given name and format tool. -/
def testUser (name goFormat : String) : User :=
  { Name := name, Password := "", Email := "", Gravatar := "", Workspace := "", Locale := "",
    GoFormat := goFormat, FontFamily := "", FontSize := "", Theme := "", Editor := none,
    LatestSessionContent := none }

/-- A configuration for tests, with the given users. -/
def testConf (users : List (Option User)) : conf :=
  { IP := "", Port := "", Context := "", Server := "", StaticServer := "", LogLevel := "",
    Channel := "", HTTPSessionMaxAge := 0, StaticResourceVersion := "", MaxProcs := 0,
    RuntimeMode := "", WD := "", Locale := "", Users := users }

end wide

/-- A reader for tests: a buffer of 16 bytes that holds 15 unreturned bytes
behind one returned byte, over the test source that has `"b"` to deliver. -/
def almostFull : Reader (List (List Nat)) :=
  { buf := List.replicate 16 0x61, rd := .other [[0x62]], r := 1, w := 16, err := none }

/-- Every read of a source answers a count `n` with `0 ≤ n ≤ len(p)`. -/
def CountInRange {σ : Type} (rd : σ → Nat → ReadResult × σ) : Prop :=
  ∀ s len, 0 ≤ (rd s len).1.n ∧ (rd s len).1.n ≤ len

/-! ## Lemmas on slices and `copy` -/

theorem slice_eq_some {s : List Nat} {lo hi : Int} (h0 : 0 ≤ lo) (h1 : lo ≤ hi)
    (h2 : hi ≤ s.length) : slice s lo hi = some ((s.drop lo.toNat).take (hi - lo).toNat) := by
  simp [slice, h0, h1, h2]

theorem slice_some_iff {s : List Nat} {lo hi : Int} {l : List Nat} :
    slice s lo hi = some l ↔
      (0 ≤ lo ∧ lo ≤ hi ∧ hi ≤ s.length) ∧ l = (s.drop lo.toNat).take (hi - lo).toNat := by
  unfold slice
  split
  · rename_i h
    simp [h, eq_comm]
  · rename_i h
    simp [h]

theorem slice_none_iff {s : List Nat} {lo hi : Int} :
    slice s lo hi = none ↔ ¬ (0 ≤ lo ∧ lo ≤ hi ∧ hi ≤ s.length) := by
  unfold slice
  split
  · rename_i h
    simp [h]
  · rename_i h
    simp [h]

theorem copy_length (dst src : List Nat) : (copy dst src).length = dst.length := by
  simp [copy]
  omega

theorem copy_nil (dst : List Nat) : copy dst [] = dst := by
  simp [copy]

theorem IOReader.Read_ok {σ : Type} {rd : σ → Nat → ReadResult × σ} (hrd : SourceOK rd)
    (src : IOReader σ) (len : Nat) :
    0 ≤ (src.Read rd len).1.n ∧ (src.Read rd len).1.n ≤ len ∧
      (((src.Read rd len).1.data.length : Nat) : Int) = (src.Read rd len).1.n := by
  cases src with
  | other s => exact hrd s len
  | ptrReader buf src r w err => simp [IOReader.Read, Reader.Read]

/-! ## What `fill` does -/

theorem delivered_nil : delivered [] = [] := rfl

theorem delivered_cons (res : ReadResult) (reads : List ReadResult) :
    delivered (res :: reads) = res.data ++ delivered reads := by
  simp [delivered]

theorem delivered_append (xs ys : List ReadResult) :
    delivered (xs ++ ys) = delivered xs ++ delivered ys := by
  simp [delivered]

/-- One source read into `buf[w:]` that stores `data`, for a count within range:
the prefix `buf[:w]` is kept and `data` follows it. -/
theorem take_after_read (buf data : List Nat) (w : Nat) (hw : w ≤ buf.length)
    (hd : data.length ≤ buf.length - w) :
    (buf.take w ++ copy (buf.drop w) data).take (w + data.length) = buf.take w ++ data := by
  have h1 : (buf.take w).length = w := by simp [hw]
  rw [List.take_append_eq_append_take]
  simp only [h1]
  have h2 : List.take (w + data.length) (List.take w buf) = List.take w buf := by
    rw [List.take_take]; congr 1; omega
  rw [h2]
  congr 1
  have h3 : w + data.length - w = data.length := by omega
  rw [h3]
  simp only [copy, List.length_drop]
  rw [List.take_of_length_le (l := data) (by omega)]
  simp

/-- The loop of `fill`, for a source that keeps its contract and a buffer with
free space: it returns, the bytes before `w` are kept and the bytes read
follow them. -/
theorem fillLoop_spec {σ : Type} {rd : σ → Nat → ReadResult × σ} (hrd : SourceOK rd) :
    ∀ (i : Nat) (b : Reader σ), 0 ≤ b.w → b.w < b.buf.length →
      ∃ b' reads, fillLoop rd i b = .ret () b' reads ∧ b'.r = b.r ∧
        b'.buf.length = b.buf.length ∧ b'.w ≤ b.buf.length ∧
        b'.w = b.w + (delivered reads).length ∧
        b'.buf.take b'.w.toNat = b.buf.take b.w.toNat ++ delivered reads ∧
        reads.length ≤ i := by
  intro i
  induction i with
  | zero =>
    intro b h0 h1
    refine ⟨_, _, rfl, rfl, rfl, ?_, ?_, ?_, ?_⟩
    · simp; omega
    · simp [delivered]
    · simp [delivered]
    · simp
  | succ i ih =>
    intro b h0 h1
    obtain ⟨w, hw⟩ : ∃ w : Nat, b.w = w := ⟨b.w.toNat, by omega⟩
    have hwl : w < b.buf.length := by omega
    have hs : slice b.buf b.w b.buf.length = some (b.buf.drop w) := by
      rw [slice_eq_some h0 (by omega) (le_refl _), hw]
      simp
    obtain ⟨hn0, hn1, hn2⟩ := IOReader.Read_ok hrd b.rd (b.buf.drop w).length
    simp only [List.length_drop] at hn0 hn1 hn2
    simp only [fillLoop, hs, List.length_drop]
    set res := (b.rd.Read rd (b.buf.length - w)).1 with hres
    have hdl : res.data.length ≤ b.buf.length - w := by omega
    have hlen : (b.buf.take b.w.toNat ++ copy (b.buf.drop w) res.data).length = b.buf.length := by
      simp [copy_length, hw]; omega
    have htake : (b.buf.take b.w.toNat ++ copy (b.buf.drop w) res.data).take
        (b.w + res.n).toNat = b.buf.take b.w.toNat ++ res.data := by
      have : (b.w + res.n).toNat = w + res.data.length := by omega
      rw [this, hw]
      simpa using take_after_read b.buf res.data w (by omega) hdl
    rw [if_neg (by omega)]
    by_cases herr : res.err = none
    · rw [if_neg (by simp [herr])]
      by_cases hpos : res.n > 0
      · rw [if_pos hpos]
        refine ⟨_, _, rfl, rfl, hlen, ?_, ?_, ?_, ?_⟩
        · simp only; omega
        · simp [delivered]; omega
        · simpa [delivered] using htake
        · simp
      · rw [if_neg hpos]
        have hz : res.n = 0 := by omega
        have hd0 : res.data = [] := by
          apply List.eq_nil_of_length_eq_zero; omega
        have hbuf : b.buf.take b.w.toNat ++ copy (b.buf.drop w) res.data = b.buf := by
          rw [hd0, copy_nil, hw]; simp
        obtain ⟨b', reads, he, hr, hl, hwle, hweq, htk, hcnt⟩ :=
          ih { b with buf := b.buf.take b.w.toNat ++ copy (b.buf.drop w) res.data,
                      rd := (b.rd.Read rd (b.buf.length - w)).2,
                      w := b.w + res.n } (by simp only; omega) (by simp only [hlen]; omega)
        simp only [hbuf, hz, add_zero] at hr hl hwle hweq htk
        refine ⟨b', res :: reads, ?_, hr, hl, hwle, ?_, ?_, ?_⟩
        · rw [he]; rfl
        · rw [hweq, delivered_cons, hd0]; simp
        · rw [htk, delivered_cons, hd0]; simp
        · simp; omega
    · rw [if_pos (by simpa using herr)]
      refine ⟨_, _, rfl, rfl, hlen, ?_, ?_, ?_, ?_⟩
      · simp only; omega
      · simp [delivered]; omega
      · simpa [delivered] using htake
      · simp

theorem window_eq_slice {σ : Type} {b : Reader σ} (h : b.WF) :
    slice b.buf b.r b.w = some b.window := by
  obtain ⟨h0, h1, h2⟩ := h
  rw [slice_eq_some h0 h1 h2]
  rfl

theorem window_of_r_zero {σ : Type} {b : Reader σ} (h : b.r = 0) :
    b.window = b.buf.take b.w.toNat := by
  simp [Reader.window, h]

/-- The method `fill`, for a source that keeps its contract, on a state within
the cursor invariant whose buffered region is shorter than the buffer: it
returns with `r = 0`, the buffer keeps its length, and the buffered region is
the old one followed by the bytes read. -/
theorem fill_spec {σ : Type} {rd : σ → Nat → ReadResult × σ} (hrd : SourceOK rd)
    (b : Reader σ) (hwf : b.WF) (hfree : b.w - b.r < b.buf.length) :
    ∃ b' reads, b.fill rd = .ret () b' reads ∧ b'.r = 0 ∧
      b'.buf.length = b.buf.length ∧ b'.WF ∧
      b'.w = (b.w - b.r) + (delivered reads).length ∧
      b'.window = b.window ++ delivered reads ∧
      reads.length ≤ maxConsecutiveEmptyReads := by
  obtain ⟨h0, h1, h2⟩ := hwf
  by_cases hr : b.r > 0
  · -- the buffered region slides to the front
    have hsl : slice b.buf b.r b.w = some b.window := window_eq_slice ⟨h0, h1, h2⟩
    have hwl : b.window.length = (b.w - b.r).toNat := by
      simp only [Reader.window, List.length_take, List.length_drop]
      omega
    have hcl : (copy b.buf b.window).length = b.buf.length := copy_length _ _
    have hct : (copy b.buf b.window).take (b.w - b.r).toNat = b.window := by
      simp only [copy]
      rw [List.take_of_length_le (l := b.window) (by omega)]
      rw [← hwl]
      simp
    obtain ⟨b', reads, he, hr', hl, hwle, hweq, htk, hcnt⟩ :=
      fillLoop_spec hrd maxConsecutiveEmptyReads
        { b with buf := copy b.buf b.window, w := b.w - b.r, r := 0 }
        (by simp only; omega) (by simp only [hcl]; omega)
    simp only [hcl, hct] at hr' hl hwle hweq htk
    refine ⟨b', reads, ?_, hr', hl, ⟨by omega, by omega, by omega⟩, hweq, ?_, hcnt⟩
    · simp only [Reader.fill, if_pos hr, hsl, hcl]
      rw [if_neg (by omega)]
      exact he
    · rw [window_of_r_zero hr', htk]
  · have hr0 : b.r = 0 := by omega
    obtain ⟨b', reads, he, hr', hl, hwle, hweq, htk, hcnt⟩ :=
      fillLoop_spec hrd maxConsecutiveEmptyReads b (by omega) (by omega)
    refine ⟨b', reads, ?_, by omega, hl, ⟨by omega, by omega, by omega⟩, by omega, ?_, hcnt⟩
    · simp only [Reader.fill, if_neg hr]
      rw [if_neg (by omega)]
      exact he
    · rw [window_of_r_zero (by omega : b'.r = 0), htk, window_of_r_zero hr0]

/-- The first statement of `ReadData`, for a source that keeps its contract, on
a state within the cursor invariant: it returns with `r = 0` and the buffered
region is the old one followed by the bytes read. -/
theorem topUp_spec {σ : Type} {rd : σ → Nat → ReadResult × σ} (hrd : SourceOK rd)
    (b : Reader σ) (hwf : b.WF) :
    ∃ b' reads, b.topUp rd = .ret () b' reads ∧ b'.r = 0 ∧
      b'.buf.length = b.buf.length ∧ b'.WF ∧
      b'.window = b.window ++ delivered reads := by
  by_cases hfree : b.w - b.r < b.buf.length
  · obtain ⟨b', reads, he, hr, hl, hwf', _, hwin, _⟩ := fill_spec hrd b hwf hfree
    exact ⟨b', reads, by simp [Reader.topUp, Reader.Buffered, hfree, he], hr, hl, hwf', hwin⟩
  · obtain ⟨h0, h1, h2⟩ := hwf
    exact ⟨b, [], by simp [Reader.topUp, Reader.Buffered, hfree], by omega, rfl, ⟨h0, h1, h2⟩,
      by simp [delivered]⟩

/-! ## The backward scan -/

theorem DecodeLastRune_nil : utf8.DecodeLastRune [] = (utf8.RuneError, 0) := by
  simp [utf8.DecodeLastRune]

/-- The loop of `ReadData` started at `index = r + k` inside the buffer: it
leaves `index = r - 1` when no prefix of `buf[r:r+k]` decodes, and otherwise
the end of the longest prefix whose last rune is not `RuneError`. -/
theorem scanBack_spec (buf : List Nat) (r : Nat) :
    ∀ k : Nat, r + k ≤ buf.length →
      (scanBack buf r k = some ((r : Int) - 1) ∧
          ∀ j, j ≤ k → (utf8.DecodeLastRune ((buf.drop r).take j)).1 = utf8.RuneError) ∨
      (∃ m : Nat, scanBack buf r k = some ((r : Int) + m) ∧ 0 < m ∧ m ≤ k ∧
          (utf8.DecodeLastRune ((buf.drop r).take m)).1 ≠ utf8.RuneError ∧
          ∀ j, m < j → j ≤ k → (utf8.DecodeLastRune ((buf.drop r).take j)).1 = utf8.RuneError) := by
  intro k
  induction k with
  | zero =>
    intro _
    left
    have hs : slice buf r r = some [] := by
      rw [slice_eq_some (by omega) (le_refl _) (by omega)]; simp
    refine ⟨by simp [scanBack, hs, DecodeLastRune_nil], ?_⟩
    intro j hj
    have : j = 0 := by omega
    subst this
    simp [DecodeLastRune_nil]
  | succ k ih =>
    intro hk
    have hs : slice buf r ((r : Int) + ((k + 1 : Nat) : Int)) = some ((buf.drop r).take (k + 1)) := by
      rw [slice_eq_some (by omega) (by omega) (by omega)]
      congr 2
      omega
    by_cases hd : (utf8.DecodeLastRune ((buf.drop r).take (k + 1))).1 = utf8.RuneError
    · have hstep : scanBack buf r (k + 1) = scanBack buf r k := by
        simp only [scanBack, hs, if_pos hd]
      rcases ih (by omega) with ⟨he, hall⟩ | ⟨m, he, hm0, hmk, hgood, hall⟩
      · left
        refine ⟨by rw [hstep, he], ?_⟩
        intro j hj
        by_cases hjk : j = k + 1
        · rw [hjk]; exact hd
        · exact hall j (by omega)
      · right
        refine ⟨m, by rw [hstep, he], hm0, by omega, hgood, ?_⟩
        intro j hmj hj
        by_cases hjk : j = k + 1
        · rw [hjk]; exact hd
        · exact hall j hmj (by omega)
    · right
      refine ⟨k + 1, by simp only [scanBack, hs, if_neg hd], by omega, le_refl _, hd, ?_⟩
      intro j h1 h2
      omega

/-! ## What `ReadData` does after the first statement -/

/-- With a latched error, `ReadData` returns the whole buffered region and the
error, and clears the latch. -/
theorem emit_err {σ : Type} (b : Reader σ) (hwf : b.WF) (e : Error) (he : b.err = some e)
    (reads : List ReadResult) :
    b.emit reads = .ret (b.window, some e) { b with r := b.w, err := none } reads := by
  simp [Reader.emit, he, window_eq_slice hwf, Reader.readErr]

/-- Without a latched error and with `r = 0`, `ReadData` either panics because
no prefix of the buffered region decodes, or returns the longest prefix whose
last rune is not `RuneError`. -/
theorem emit_scan {σ : Type} (b : Reader σ) (hwf : b.WF) (hr : b.r = 0) (he : b.err = none)
    (reads : List ReadResult) :
    (b.emit reads = .panic Panic.noUtf8CharFound b reads ∧
        ∀ j, j ≤ b.w.toNat → (utf8.DecodeLastRune (b.buf.take j)).1 = utf8.RuneError) ∨
    (∃ m : Nat, 0 < m ∧ (m : Int) ≤ b.w ∧
        b.emit reads = .ret (b.buf.take m, none) { b with r := m } reads ∧
        (utf8.DecodeLastRune (b.buf.take m)).1 ≠ utf8.RuneError ∧
        ∀ j, m < j → j ≤ b.w.toNat → (utf8.DecodeLastRune (b.buf.take j)).1 = utf8.RuneError) := by
  obtain ⟨h0, h1, h2⟩ := hwf
  have hk : 0 + (b.w - b.r).toNat ≤ b.buf.length := by omega
  have hwr : ¬ b.w < b.r := by omega
  have hwn : (b.w - b.r).toNat = b.w.toNat := by rw [hr]; simp
  rcases scanBack_spec b.buf 0 (b.w - b.r).toNat hk with ⟨hs, hall⟩ | ⟨m, hs, hm0, hmk, hgood, hall⟩
  · left
    simp only [Nat.cast_zero, List.drop_zero, hwn] at hs hall
    refine ⟨?_, hall⟩
    have hw0 : ¬ b.w < 0 := by omega
    simp [Reader.emit, he, hr, hs, hw0]
  · right
    simp only [Nat.cast_zero, List.drop_zero, zero_add, hwn] at hs hall hgood hmk
    have hsl : slice b.buf 0 (m : Int) = some (b.buf.take m) := by
      rw [slice_eq_some (le_refl _) (by omega) (by omega)]
      simp
    refine ⟨m, hm0, by omega, ?_, hgood, hall⟩
    have hw0 : ¬ b.w < 0 := by omega
    simp [Reader.emit, he, hr, hs, hw0, hm0, hsl]

/-- One call of `ReadData` that returns, for a source that keeps its contract,
on a state within the cursor invariant: the invariant holds afterwards, the
buffer keeps its length, and the old buffered region followed by the bytes read
is the returned chunk followed by the new buffered region. -/
theorem ReadData_ret_spec {σ : Type} {rd : σ → Nat → ReadResult × σ} (hrd : SourceOK rd)
    (b : Reader σ) (hwf : b.WF) {line : List Nat} {e : Option Error} {b' : Reader σ}
    {reads : List ReadResult} (h : b.ReadData rd = .ret (line, e) b' reads) :
    b'.WF ∧ b'.buf.length = b.buf.length ∧
      b.window ++ delivered reads = line ++ b'.window := by
  obtain ⟨b1, reads1, ht, hr, hl, hwf1, hwin⟩ := topUp_spec hrd b hwf
  simp only [Reader.ReadData, ht] at h
  obtain ⟨h0, h1, h2⟩ := hwf1
  cases he : b1.err with
  | some err =>
    rw [emit_err b1 ⟨h0, h1, h2⟩ err he] at h
    simp only [Outcome.ret.injEq, Prod.mk.injEq] at h
    obtain ⟨⟨hline, _⟩, hb, hreads⟩ := h
    subst hb hreads hline
    refine ⟨⟨by simp only; omega, le_refl _, h2⟩, hl, ?_⟩
    rw [← hwin]
    simp [Reader.window]
  | none =>
    rcases emit_scan b1 ⟨h0, h1, h2⟩ hr he reads1 with ⟨hp, _⟩ | ⟨m, hm0, hmw, hret, _, _⟩
    · rw [hp] at h
      cases h
    · rw [hret] at h
      simp only [Outcome.ret.injEq, Prod.mk.injEq] at h
      obtain ⟨⟨hline, _⟩, hb, hreads⟩ := h
      subst hb hreads hline
      refine ⟨⟨by simp only; omega, by simp only; omega, h2⟩, hl, ?_⟩
      rw [← hwin, window_of_r_zero hr]
      simp only [Reader.window, Int.toNat_ofNat]
      have hsub : (b1.w - (m : Int)).toNat = b1.w.toNat - m := by omega
      rw [hsub]
      have hle : m ≤ b1.w.toNat := by omega
      calc List.take b1.w.toNat b1.buf
          = List.take (m + (b1.w.toNat - m)) b1.buf := by rw [Nat.add_sub_cancel' hle]
        _ = List.take m b1.buf ++ List.take (b1.w.toNat - m) (List.drop m b1.buf) :=
            List.take_add _ _ _

/-! ## Sequences of calls -/

theorem NewReaderSize_alloc {σ : Type} (src : IOReader σ) (size : Int) (h : Allocates src size) :
    NewReaderSize src size =
      { buf := List.replicate (if size < minReadBufferSize then minReadBufferSize else size).toNat 0,
        rd := src, r := 0, w := 0, err := none } := by
  cases src with
  | other s => rfl
  | ptrReader buf src r w err =>
    simp only [Allocates] at h
    simp only [NewReaderSize, Reader.reset]
    rw [if_neg (by omega)]

theorem NewReaderSize_alloc_wf {σ : Type} (src : IOReader σ) (size : Int)
    (h : Allocates src size) :
    (NewReaderSize src size).WF ∧ (NewReaderSize src size).window = [] := by
  rw [NewReaderSize_alloc src size h]
  refine ⟨⟨le_refl _, le_refl _, ?_⟩, ?_⟩
  · simp
  · simp [Reader.window]

theorem chunkSource_ok : SourceOK chunkSource := by
  intro s len
  cases s with
  | nil => simp [chunkSource]
  | cons c rest => simp [chunkSource]

/-- Across any number of calls of `ReadData` that return, from a state within
the cursor invariant: what was buffered at the start followed by the bytes
read is what the calls returned followed by what is buffered at the end. -/
theorem readDataN_spec {σ : Type} {rd : σ → Nat → ReadResult × σ} (hrd : SourceOK rd) :
    ∀ (k : Nat) (b0 : Reader σ), b0.WF →
      ∀ rets b reads, readDataN rd k b0 = some (rets, b, reads) →
        b.WF ∧ b.buf.length = b0.buf.length ∧
          chunksOf rets ++ b.window = b0.window ++ delivered reads := by
  intro k
  induction k with
  | zero =>
    intro b0 hwf rets b reads h
    simp only [readDataN, Option.some.injEq, Prod.mk.injEq] at h
    obtain ⟨h1, h2, h3⟩ := h
    subst h1 h2 h3
    exact ⟨hwf, rfl, by simp [chunksOf, delivered]⟩
  | succ k ih =>
    intro b0 hwf rets b reads h
    simp only [readDataN] at h
    cases hcall : b0.ReadData rd with
    | panic p b1 reads1 => simp [hcall] at h
    | ret v b1 reads1 =>
      simp only [hcall] at h
      obtain ⟨line, e⟩ := v
      obtain ⟨hwf1, hl1, hwin1⟩ := ReadData_ret_spec hrd b0 hwf hcall
      cases hrest : readDataN rd k b1 with
      | none => simp [hrest] at h
      | some t =>
        obtain ⟨vs, b2, reads2⟩ := t
        simp only [hrest, Option.some.injEq, Prod.mk.injEq] at h
        obtain ⟨h1, h2, h3⟩ := h
        subst h1 h2 h3
        obtain ⟨hwf2, hl2, hwin2⟩ := ih b1 hwf1 vs b2 reads2 hrest
        refine ⟨hwf2, by rw [hl2, hl1], ?_⟩
        have : chunksOf ((line, e) :: vs) = line ++ chunksOf vs := by simp [chunksOf]
        rw [this, List.append_assoc, hwin2, ← List.append_assoc, ← hwin1, delivered_append,
          List.append_assoc]

/-- C1 (no data loss or duplication).  For every reader allocated by
`NewReaderSize` over a source that keeps the `Read` contract (each count `n`
satisfies `0 ≤ n ≤ len(p)` and counts the bytes stored), after any number of
calls of `ReadData` that return, the slice `buf[r:w]` is in range and the
concatenation of the returned chunks, in call order, followed by `buf[r:w]` is
exactly the concatenation of the bytes the source delivered, in order. -/
theorem C1_no_loss_no_duplication {σ : Type} (rd : σ → Nat → ReadResult × σ)
    (hrd : SourceOK rd) (src : IOReader σ) (size : Int) (halloc : Allocates src size)
    (k : Nat) (rets : List (List Nat × Option Error)) (b : Reader σ) (reads : List ReadResult)
    (h : readDataN rd k (NewReaderSize src size) = some (rets, b, reads)) :
    slice b.buf b.r b.w = some b.window ∧ chunksOf rets ++ b.window = delivered reads := by
  obtain ⟨hwf0, hwin0⟩ := NewReaderSize_alloc_wf src size halloc
  obtain ⟨hwf, _, hwin⟩ := readDataN_spec hrd k _ hwf0 rets b reads h
  refine ⟨window_eq_slice hwf, ?_⟩
  rw [hwin, hwin0]
  rfl

/-- Witness of C1: a 16-byte reader over a source that delivers `"ab"`, then
`"cé"` without the last byte of `é`, then that byte, then end-of-stream; three
calls return `"ab"`, `"c"` and `"é"`. -/
theorem C1_no_loss_no_duplication_witness :
    readDataN chunkSource 3 (NewReaderSize (.other [[0x61, 0x62], [0x63, 0xC3], [0xA9]]) 16) =
      some ([([0x61, 0x62], none), ([0x63], none), ([0xC3, 0xA9], none)],
        { buf := [0xC3, 0xA9, 0, 0, 0, 0, 0, 0, 0, 0, 0, 0, 0, 0, 0, 0], rd := .other [],
          r := 2, w := 2, err := none },
        [⟨2, [0x61, 0x62], none⟩, ⟨2, [0x63, 0xC3], none⟩, ⟨1, [0xA9], none⟩]) ∧
    chunksOf [([0x61, 0x62], none), ([0x63], none), ([0xC3, 0xA9], none)] ++ [] =
      delivered [⟨2, [0x61, 0x62], none⟩, ⟨2, [0x63, 0xC3], none⟩, ⟨1, [0xA9], none⟩] :=
  ⟨by decide,
    (C1_no_loss_no_duplication chunkSource chunkSource_ok
      (.other [[0x61, 0x62], [0x63, 0xC3], [0xA9]]) 16 trivial 3
      [([0x61, 0x62], none), ([0x63], none), ([0xC3, 0xA9], none)]
      { buf := [0xC3, 0xA9, 0, 0, 0, 0, 0, 0, 0, 0, 0, 0, 0, 0, 0, 0], rd := .other [],
        r := 2, w := 2, err := none }
      [⟨2, [0x61, 0x62], none⟩, ⟨2, [0x63, 0xC3], none⟩, ⟨1, [0xA9], none⟩] (by decide)).2⟩

/-! ## Soundness of the decoder -/

theorem first_as {b : Nat} (h : b < 0x80) : utf8.first b = utf8.as := by
  simp only [utf8.first, if_pos h]

theorem first_xx {b : Nat} (h : 0x80 ≤ b ∧ b < 0xC2 ∨ 0xF5 ≤ b) : utf8.first b = utf8.xx := by
  simp only [utf8.first]; split_ifs <;> first | rfl | omega

theorem first_s1 {b : Nat} (h : 0xC2 ≤ b ∧ b ≤ 0xDF) : utf8.first b = utf8.s1 := by
  simp only [utf8.first]; split_ifs <;> first | rfl | omega

theorem first_s2 : utf8.first 0xE0 = utf8.s2 := by decide

theorem first_s3 {b : Nat} (h : 0xE1 ≤ b ∧ b ≤ 0xEC ∨ 0xEE ≤ b ∧ b ≤ 0xEF) :
    utf8.first b = utf8.s3 := by
  simp only [utf8.first]; split_ifs <;> first | rfl | omega

theorem first_s4 : utf8.first 0xED = utf8.s4 := by decide

theorem first_s5 : utf8.first 0xF0 = utf8.s5 := by decide

theorem first_s6 {b : Nat} (h : 0xF1 ≤ b ∧ b ≤ 0xF3) : utf8.first b = utf8.s6 := by
  simp only [utf8.first]; split_ifs <;> first | rfl | omega

theorem first_s7 : utf8.first 0xF4 = utf8.s7 := by decide

theorem byte_cases (b : Nat) :
    b < 0x80 ∨ (0x80 ≤ b ∧ b < 0xC2 ∨ 0xF5 ≤ b) ∨ (0xC2 ≤ b ∧ b ≤ 0xDF) ∨ b = 0xE0 ∨
      (0xE1 ≤ b ∧ b ≤ 0xEC ∨ 0xEE ≤ b ∧ b ≤ 0xEF) ∨ b = 0xED ∨ b = 0xF0 ∨
      (0xF1 ≤ b ∧ b ≤ 0xF3) ∨ b = 0xF4 := by
  omega

theorem DecodeRune_cons (p0 : Nat) (t : List Nat) :
    utf8.DecodeRune (p0 :: t) =
      if utf8.first p0 ≥ utf8.as then (if utf8.first p0 % 2 = 1 then utf8.RuneError else p0, 1)
      else decodeMulti (utf8.first p0 &&& 7) (utf8.acceptRanges (utf8.first p0 >>> 4)).1
        (utf8.acceptRanges (utf8.first p0 >>> 4)).2 (p0 :: t) := by
  simp [utf8.DecodeRune, decodeMulti]

theorem DecodeRune_ascii {p0 : Nat} (t : List Nat) (h : p0 < 0x80) :
    utf8.DecodeRune (p0 :: t) = (p0, 1) := by
  rw [DecodeRune_cons, first_as h]
  simp [utf8.as]

theorem DecodeRune_xx {p0 : Nat} (t : List Nat) (h : 0x80 ≤ p0 ∧ p0 < 0xC2 ∨ 0xF5 ≤ p0) :
    utf8.DecodeRune (p0 :: t) = (utf8.RuneError, 1) := by
  rw [DecodeRune_cons, first_xx h]
  simp [utf8.as, utf8.xx]

theorem DecodeRune_s1 {p0 : Nat} (t : List Nat) (h : 0xC2 ≤ p0 ∧ p0 ≤ 0xDF) :
    utf8.DecodeRune (p0 :: t) = decodeMulti 2 0x80 0xBF (p0 :: t) := by
  rw [DecodeRune_cons, first_s1 h]
  rfl

theorem DecodeRune_s2 (t : List Nat) :
    utf8.DecodeRune (0xE0 :: t) = decodeMulti 3 0xA0 0xBF (0xE0 :: t) := by
  rw [DecodeRune_cons, first_s2]
  rfl

theorem DecodeRune_s3 {p0 : Nat} (t : List Nat)
    (h : 0xE1 ≤ p0 ∧ p0 ≤ 0xEC ∨ 0xEE ≤ p0 ∧ p0 ≤ 0xEF) :
    utf8.DecodeRune (p0 :: t) = decodeMulti 3 0x80 0xBF (p0 :: t) := by
  rw [DecodeRune_cons, first_s3 h]
  rfl

theorem DecodeRune_s4 (t : List Nat) :
    utf8.DecodeRune (0xED :: t) = decodeMulti 3 0x80 0x9F (0xED :: t) := by
  rw [DecodeRune_cons, first_s4]
  rfl

theorem DecodeRune_s5 (t : List Nat) :
    utf8.DecodeRune (0xF0 :: t) = decodeMulti 4 0x90 0xBF (0xF0 :: t) := by
  rw [DecodeRune_cons, first_s5]
  rfl

theorem DecodeRune_s6 {p0 : Nat} (t : List Nat) (h : 0xF1 ≤ p0 ∧ p0 ≤ 0xF3) :
    utf8.DecodeRune (p0 :: t) = decodeMulti 4 0x80 0xBF (p0 :: t) := by
  rw [DecodeRune_cons, first_s6 h]
  rfl

theorem DecodeRune_s7 (t : List Nat) :
    utf8.DecodeRune (0xF4 :: t) = decodeMulti 4 0x80 0x8F (0xF4 :: t) := by
  rw [DecodeRune_cons, first_s7]
  rfl

theorem decodeMulti_short {sz lo hi : Nat} {p : List Nat} (h : p.length < sz) :
    decodeMulti sz lo hi p = (utf8.RuneError, 1) := by
  simp [decodeMulti, h]

theorem decodeMulti_two (lo hi p0 b1 : Nat) (t : List Nat) :
    decodeMulti 2 lo hi (p0 :: b1 :: t) =
      (if b1 < lo ∨ hi < b1 then (utf8.RuneError, 1)
      else (((p0 &&& utf8.mask2) <<< 6) ||| (b1 &&& utf8.maskx), 2) : Nat × Int) := by
  simp [decodeMulti]

theorem decodeMulti_three (lo hi p0 b1 b2 : Nat) (t : List Nat) :
    decodeMulti 3 lo hi (p0 :: b1 :: b2 :: t) =
      (if b1 < lo ∨ hi < b1 then (utf8.RuneError, 1)
      else if b2 < 0x80 ∨ 0xBF < b2 then (utf8.RuneError, 1)
      else (((p0 &&& utf8.mask3) <<< 12) ||| ((b1 &&& utf8.maskx) <<< 6) |||
        (b2 &&& utf8.maskx), 3) : Nat × Int) := by
  simp [decodeMulti, utf8.locb, utf8.hicb]

theorem decodeMulti_four (lo hi p0 b1 b2 b3 : Nat) (t : List Nat) :
    decodeMulti 4 lo hi (p0 :: b1 :: b2 :: b3 :: t) =
      (if b1 < lo ∨ hi < b1 then (utf8.RuneError, 1)
      else if b2 < 0x80 ∨ 0xBF < b2 then (utf8.RuneError, 1)
      else if b3 < 0x80 ∨ 0xBF < b3 then (utf8.RuneError, 1)
      else (((p0 &&& utf8.mask4) <<< 18) ||| ((b1 &&& utf8.maskx) <<< 12) |||
        ((b2 &&& utf8.maskx) <<< 6) ||| (b3 &&& utf8.maskx), 4) : Nat × Int) := by
  simp [decodeMulti, utf8.locb, utf8.hicb]

/-- Soundness of the multi-byte part: a result other than `RuneError` covers
`sz` bytes of `p`, the second within `lo..hi` and the others continuation
bytes. -/
theorem decodeMulti_sound {sz lo hi : Nat} (hsz : sz = 2 ∨ sz = 3 ∨ sz = 4) (p : List Nat)
    (h : (decodeMulti sz lo hi p).1 ≠ utf8.RuneError) :
    (decodeMulti sz lo hi p).2 = sz ∧ sz ≤ p.length ∧
      (lo ≤ p.getD 1 0 ∧ p.getD 1 0 ≤ hi) ∧ (3 ≤ sz → IsCont (p.getD 2 0)) ∧
      (4 ≤ sz → IsCont (p.getD 3 0)) := by
  by_cases hlen : p.length < sz
  · rw [decodeMulti_short hlen] at h
    exact absurd rfl h
  · simp only [decodeMulti, if_neg hlen, utf8.locb, utf8.hicb] at h ⊢
    simp only [IsCont]
    rcases hsz with rfl | rfl | rfl
    · split_ifs at h ⊢ <;> simp_all
    · split_ifs at h ⊢ <;> simp_all
    · split_ifs at h ⊢ <;> simp_all

theorem take_two_eq {p : List Nat} (h : 2 ≤ p.length) :
    p.take 2 = [p.getD 0 0, p.getD 1 0] := by
  match p, h with
  | a :: b :: t, _ => simp

theorem take_three_eq {p : List Nat} (h : 3 ≤ p.length) :
    p.take 3 = [p.getD 0 0, p.getD 1 0, p.getD 2 0] := by
  match p, h with
  | a :: b :: c :: t, _ => simp

theorem take_four_eq {p : List Nat} (h : 4 ≤ p.length) :
    p.take 4 = [p.getD 0 0, p.getD 1 0, p.getD 2 0, p.getD 3 0] := by
  match p, h with
  | a :: b :: c :: d :: t, _ => simp

/-- Soundness of `utf8.DecodeRune`: a result other than `RuneError` has a
width between 1 and 4 within `p`, and the bytes it covers are a complete,
validly encoded character. -/
theorem DecodeRune_sound (p : List Nat) (h : (utf8.DecodeRune p).1 ≠ utf8.RuneError) :
    ∃ n : Nat, (utf8.DecodeRune p).2 = n ∧ 0 < n ∧ n ≤ p.length ∧ ValidUtf8Char (p.take n) := by
  match p with
  | [] => simp [utf8.DecodeRune] at h
  | p0 :: t =>
    rcases byte_cases p0 with hb | hb | hb | hb | hb | hb | hb | hb | hb
    · refine ⟨1, ?_, by omega, by simp, ?_⟩
      · rw [DecodeRune_ascii t hb]; rfl
      · simpa [ValidUtf8Char] using hb
    · rw [DecodeRune_xx t hb] at h
      exact absurd rfl h
    · rw [DecodeRune_s1 t hb] at h ⊢
      obtain ⟨h1, h2, h3, _, _⟩ := decodeMulti_sound (Or.inl rfl) _ h
      refine ⟨2, h1, by omega, h2, ?_⟩
      rw [take_two_eq h2]
      simp only [List.getD_cons_zero] at h3 ⊢
      exact ⟨hb.1, hb.2, h3⟩
    · subst hb
      rw [DecodeRune_s2 t] at h ⊢
      obtain ⟨h1, h2, h3, h4, _⟩ := decodeMulti_sound (Or.inr (Or.inl rfl)) _ h
      refine ⟨3, h1, by omega, h2, ?_⟩
      rw [take_three_eq h2]
      simp only [List.getD_cons_zero] at h3 ⊢
      exact ⟨Or.inl ⟨rfl, h3⟩, h4 (le_refl _)⟩
    · rw [DecodeRune_s3 t hb] at h ⊢
      obtain ⟨h1, h2, h3, h4, _⟩ := decodeMulti_sound (Or.inr (Or.inl rfl)) _ h
      refine ⟨3, h1, by omega, h2, ?_⟩
      rw [take_three_eq h2]
      simp only [List.getD_cons_zero] at h3 ⊢
      refine ⟨?_, h4 (le_refl _)⟩
      rcases hb with hb | hb
      · exact Or.inr (Or.inl ⟨hb.1, hb.2, h3⟩)
      · exact Or.inr (Or.inr (Or.inr ⟨hb.1, hb.2, h3⟩))
    · subst hb
      rw [DecodeRune_s4 t] at h ⊢
      obtain ⟨h1, h2, h3, h4, _⟩ := decodeMulti_sound (Or.inr (Or.inl rfl)) _ h
      refine ⟨3, h1, by omega, h2, ?_⟩
      rw [take_three_eq h2]
      simp only [List.getD_cons_zero] at h3 ⊢
      exact ⟨Or.inr (Or.inr (Or.inl ⟨rfl, h3⟩)), h4 (le_refl _)⟩
    · subst hb
      rw [DecodeRune_s5 t] at h ⊢
      obtain ⟨h1, h2, h3, h4, h5⟩ := decodeMulti_sound (Or.inr (Or.inr rfl)) _ h
      refine ⟨4, h1, by omega, h2, ?_⟩
      rw [take_four_eq h2]
      simp only [List.getD_cons_zero] at h3 ⊢
      exact ⟨Or.inl ⟨rfl, h3⟩, h4 (by omega), h5 (le_refl _)⟩
    · rw [DecodeRune_s6 t hb] at h ⊢
      obtain ⟨h1, h2, h3, h4, h5⟩ := decodeMulti_sound (Or.inr (Or.inr rfl)) _ h
      refine ⟨4, h1, by omega, h2, ?_⟩
      rw [take_four_eq h2]
      simp only [List.getD_cons_zero] at h3 ⊢
      exact ⟨Or.inr (Or.inl ⟨hb.1, hb.2, h3⟩), h4 (by omega), h5 (le_refl _)⟩
    · subst hb
      rw [DecodeRune_s7 t] at h ⊢
      obtain ⟨h1, h2, h3, h4, h5⟩ := decodeMulti_sound (Or.inr (Or.inr rfl)) _ h
      refine ⟨4, h1, by omega, h2, ?_⟩
      rw [take_four_eq h2]
      simp only [List.getD_cons_zero] at h3 ⊢
      exact ⟨Or.inr (Or.inr ⟨rfl, h3⟩), h4 (by omega), h5 (le_refl _)⟩

/-- Soundness of `utf8.DecodeLastRune`: when the result is not `RuneError`,
the byte string ends with a complete, validly encoded character. -/
theorem DecodeLastRune_sound (p : List Nat)
    (h : (utf8.DecodeLastRune p).1 ≠ utf8.RuneError) : p ≠ [] ∧ EndsWithValidChar p := by
  have hne : p ≠ [] := by
    rintro rfl
    exact h (by simp [DecodeLastRune_nil])
  refine ⟨hne, ?_⟩
  have hlen : 0 < p.length := List.length_pos.mpr hne
  by_cases hascii : p.getD (p.length - 1) 0 < utf8.RuneSelf
  · refine ⟨p.dropLast, [p.getD (p.length - 1) 0], ?_, ?_⟩
    · conv_lhs => rw [← List.dropLast_append_getLast hne]
      congr 2
      rw [List.getLast_eq_getElem]
      simp [List.getD_eq_getElem?_getD, List.getElem?_eq_getElem (show p.length - 1 < p.length by omega)]
    · simpa [ValidUtf8Char, utf8.RuneSelf] using hascii
  · unfold utf8.DecodeLastRune at h
    have h1 : ¬ ((p.length : Int) = 0) := by omega
    have h2 : ((p.length : Int) - 1).toNat = p.length - 1 := by omega
    simp only [h1, if_false, h2, hascii] at h
    generalize hst : (if utf8.backToStart p (if (p.length : Int) - utf8.UTFMax < 0 then 0
      else (p.length : Int) - utf8.UTFMax) ((p.length : Int) - 1 - (if (p.length : Int) - utf8.UTFMax < 0 then 0
      else (p.length : Int) - utf8.UTFMax)).toNat < 0 then (0 : Int) else _) = start at h
    have hstart : 0 ≤ start := by
      rw [← hst]; split_ifs <;> omega
    by_cases hse : start + (utf8.DecodeRune (p.drop start.toNat)).2 ≠ p.length
    · rw [if_pos hse] at h
      exact absurd rfl h
    · rw [if_neg hse] at h
      simp only [ne_eq, not_not] at hse
      obtain ⟨n, hn, hn0, hnl, hvalid⟩ := DecodeRune_sound _ h
      refine ⟨p.take start.toNat, p.drop start.toNat, (List.take_append_drop _ _).symm, ?_⟩
      rw [hn] at hse
      have : (p.drop start.toNat).take n = p.drop start.toNat := by
        apply List.take_of_length_le
        simp only [List.length_drop] at hnl ⊢
        omega
      rw [this] at hvalid
      exact hvalid

/-! ## Facts that hold for every state and every source -/

theorem addRead_ret {σ α : Type} {res : ReadResult} {o : Outcome σ α} {v : α} {b : Reader σ}
    {reads : List ReadResult} (h : o.addRead res = .ret v b reads) :
    ∃ reads0, o = .ret v b reads0 ∧ reads = res :: reads0 := by
  cases o with
  | ret v0 b0 reads0 =>
    simp only [Outcome.addRead, Outcome.ret.injEq] at h
    obtain ⟨h1, h2, h3⟩ := h
    subst h1 h2
    exact ⟨reads0, rfl, h3.symm⟩
  | panic p b0 reads0 => simp [Outcome.addRead] at h

/-- The loop of `fill` never touches the read cursor or the length of the
buffer. -/
theorem fillLoop_r {σ : Type} (rd : σ → Nat → ReadResult × σ) :
    ∀ (i : Nat) (b b' : Reader σ) (reads : List ReadResult),
      fillLoop rd i b = .ret () b' reads → b'.r = b.r ∧ b'.buf.length = b.buf.length := by
  intro i
  induction i with
  | zero =>
    intro b b' reads h
    simp only [fillLoop, Outcome.ret.injEq] at h
    obtain ⟨_, h, _⟩ := h
    subst h
    exact ⟨rfl, rfl⟩
  | succ i ih =>
    intro b b' reads h
    simp only [fillLoop] at h
    cases hs : slice b.buf b.w b.buf.length with
    | none => simp [hs] at h
    | some p =>
      simp only [hs] at h
      obtain ⟨hb, hp⟩ := slice_some_iff.mp hs
      have hlen : (b.buf.take b.w.toNat ++ copy p (b.rd.Read rd p.length).1.data).length
          = b.buf.length := by
        rw [List.length_append, copy_length, hp]
        simp only [List.length_take, List.length_drop]
        omega
      split_ifs at h with h1 h2 h3
      · simp only [Outcome.ret.injEq] at h
        obtain ⟨_, h, _⟩ := h
        subst h
        exact ⟨rfl, hlen⟩
      · simp only [Outcome.ret.injEq] at h
        obtain ⟨_, h, _⟩ := h
        subst h
        exact ⟨rfl, hlen⟩
      · obtain ⟨reads0, h0, _⟩ := addRead_ret h
        obtain ⟨hr, hl⟩ := ih _ _ _ h0
        exact ⟨hr, by rw [hl]; exact hlen⟩

/-- After `fill` has returned the read cursor is not positive. -/
theorem fill_r_le {σ : Type} (rd : σ → Nat → ReadResult × σ) (b b' : Reader σ)
    (reads : List ReadResult) (h : b.fill rd = .ret () b' reads) : b'.r ≤ 0 := by
  unfold Reader.fill at h
  by_cases hr : b.r > 0
  · simp only [if_pos hr] at h
    cases hs : slice b.buf b.r b.w with
    | none => simp [hs] at h
    | some s =>
      simp only [hs] at h
      split_ifs at h
      have := (fillLoop_r rd _ _ _ _ h).1
      simp only at this
      omega
  · simp only [if_neg hr] at h
    split_ifs at h
    have := (fillLoop_r rd _ _ _ _ h).1
    omega

/-- After the first statement of `ReadData`, a state within the cursor
invariant has `r = 0`. -/
theorem topUp_r_zero {σ : Type} (rd : σ → Nat → ReadResult × σ) (b b' : Reader σ)
    (reads : List ReadResult) (h : b.topUp rd = .ret () b' reads) (hwf : b'.WF) : b'.r = 0 := by
  obtain ⟨h0, h1, h2⟩ := hwf
  unfold Reader.topUp at h
  split_ifs at h with hfree
  · have := fill_r_le rd b b' reads h
    omega
  · simp only [Outcome.ret.injEq] at h
    obtain ⟨_, h, _⟩ := h
    subst h
    simp only [Reader.Buffered] at hfree
    omega

theorem scanBack_some_bounds {buf : List Nat} {r : Int} {k : Nat} {idx : Int}
    (h : scanBack buf r k = some idx) : 0 ≤ r ∧ r + k ≤ buf.length := by
  cases k with
  | zero =>
    simp only [scanBack] at h
    cases hs : slice buf r r with
    | none => simp [hs] at h
    | some p =>
      have := (slice_some_iff.mp hs).1
      omega
  | succ k =>
    simp only [scanBack] at h
    cases hs : slice buf r (r + ((k : Int) + 1)) with
    | none => simp [hs] at h
    | some p =>
      have := (slice_some_iff.mp hs).1
      omega

/-- When the rest of `ReadData` returns with a nil error, the state it
started from is within the cursor invariant and has no latched error. -/
theorem emit_ret_nil {σ : Type} {b b' : Reader σ} {reads reads' : List ReadResult}
    {line : List Nat} (h : b.emit reads = .ret (line, none) b' reads') :
    b.WF ∧ b.err = none := by
  unfold Reader.emit at h
  by_cases he : b.err = none
  · refine ⟨?_, he⟩
    rw [if_neg (by simp [he])] at h
    by_cases hwr : b.w < b.r
    · simp [hwr] at h
    · simp only [if_neg hwr] at h
      cases hs : scanBack b.buf b.r (b.w - b.r).toNat with
      | none => simp [hs] at h
      | some idx =>
        have := scanBack_some_bounds hs
        exact ⟨this.1, by omega, by omega⟩
  · rw [if_pos he] at h
    cases hs : slice b.buf b.r b.w with
    | none => simp [hs] at h
    | some l =>
      simp only [hs, Reader.readErr, Outcome.ret.injEq, Prod.mk.injEq] at h
      exact absurd h.1.2 he

/-- C2 (boundary safety of every ordinary chunk).  For every reader state and
every source, whenever `ReadData` returns with a nil error, the returned chunk
is not empty, decoding its last rune does not give `RuneError`, and the chunk
ends with a complete, validly encoded UTF-8 character; so `ReadData` never
returns an empty chunk with a nil error. -/
theorem C2_boundary_safety {σ : Type} (rd : σ → Nat → ReadResult × σ) (b b' : Reader σ)
    (line : List Nat) (reads : List ReadResult)
    (h : b.ReadData rd = .ret (line, none) b' reads) :
    line ≠ [] ∧ (utf8.DecodeLastRune line).1 ≠ utf8.RuneError ∧ EndsWithValidChar line := by
  unfold Reader.ReadData at h
  cases ht : b.topUp rd with
  | panic p b1 reads1 => simp [ht] at h
  | ret u b1 reads1 =>
    simp only [ht] at h
    obtain ⟨hwf, he⟩ := emit_ret_nil h
    have hr := topUp_r_zero rd b b1 reads1 ht hwf
    rcases emit_scan b1 hwf hr he reads1 with ⟨hp, _⟩ | ⟨m, hm0, hmw, hret, hgood, _⟩
    · rw [hp] at h
      cases h
    · rw [hret] at h
      simp only [Outcome.ret.injEq, Prod.mk.injEq] at h
      obtain ⟨⟨hline, _⟩, _, _⟩ := h
      subst hline
      obtain ⟨hne, hends⟩ := DecodeLastRune_sound _ hgood
      exact ⟨hne, hgood, hends⟩

/-- Witness of C2: from a fresh 16-byte reader whose source delivers `"a"`
followed by the first two bytes of `U+20AC`, `ReadData` returns `"a"`. -/
theorem C2_boundary_safety_witness :
    ([0x61] : List Nat) ≠ [] ∧ (utf8.DecodeLastRune [0x61]).1 ≠ utf8.RuneError ∧
      EndsWithValidChar [0x61] :=
  C2_boundary_safety chunkSource (NewReaderSize (.other [[0x61, 0xE2, 0x82]]) 16)
    { buf := [0x61, 0xE2, 0x82, 0, 0, 0, 0, 0, 0, 0, 0, 0, 0, 0, 0, 0], rd := .other [],
      r := 1, w := 3, err := none }
    [0x61] [⟨3, [0x61, 0xE2, 0x82], none⟩] (by decide)

/-! ## Step lemmas for `fill` -/

/-- One iteration of the loop of `fill` when `buf[w:]` is in range. -/
theorem fillLoop_succ {σ : Type} (rd : σ → Nat → ReadResult × σ) (i : Nat) (b : Reader σ)
    (h0 : 0 ≤ b.w) (h1 : b.w ≤ b.buf.length) :
    fillLoop rd (i + 1) b =
      if (b.rd.Read rd (b.buf.length - b.w.toNat)).1.n < 0 then
        .panic Panic.errNegativeRead
          { b with buf := b.buf.take b.w.toNat ++
                    copy (b.buf.drop b.w.toNat) (b.rd.Read rd (b.buf.length - b.w.toNat)).1.data,
                   rd := (b.rd.Read rd (b.buf.length - b.w.toNat)).2 }
          [(b.rd.Read rd (b.buf.length - b.w.toNat)).1]
      else if (b.rd.Read rd (b.buf.length - b.w.toNat)).1.err ≠ none then
        .ret ()
          { b with buf := b.buf.take b.w.toNat ++
                    copy (b.buf.drop b.w.toNat) (b.rd.Read rd (b.buf.length - b.w.toNat)).1.data,
                   rd := (b.rd.Read rd (b.buf.length - b.w.toNat)).2,
                   w := b.w + (b.rd.Read rd (b.buf.length - b.w.toNat)).1.n,
                   err := (b.rd.Read rd (b.buf.length - b.w.toNat)).1.err }
          [(b.rd.Read rd (b.buf.length - b.w.toNat)).1]
      else if (b.rd.Read rd (b.buf.length - b.w.toNat)).1.n > 0 then
        .ret ()
          { b with buf := b.buf.take b.w.toNat ++
                    copy (b.buf.drop b.w.toNat) (b.rd.Read rd (b.buf.length - b.w.toNat)).1.data,
                   rd := (b.rd.Read rd (b.buf.length - b.w.toNat)).2,
                   w := b.w + (b.rd.Read rd (b.buf.length - b.w.toNat)).1.n }
          [(b.rd.Read rd (b.buf.length - b.w.toNat)).1]
      else
        (fillLoop rd i
          { b with buf := b.buf.take b.w.toNat ++
                    copy (b.buf.drop b.w.toNat) (b.rd.Read rd (b.buf.length - b.w.toNat)).1.data,
                   rd := (b.rd.Read rd (b.buf.length - b.w.toNat)).2,
                   w := b.w + (b.rd.Read rd (b.buf.length - b.w.toNat)).1.n }).addRead
          (b.rd.Read rd (b.buf.length - b.w.toNat)).1 := by
  have hs : slice b.buf b.w b.buf.length = some (b.buf.drop b.w.toNat) := by
    rw [slice_eq_some h0 h1 (le_refl _)]
    congr 1
    apply List.take_of_length_le
    simp only [List.length_drop]
    omega
  simp only [fillLoop, hs, List.length_drop]

theorem slid_r {σ : Type} (b : Reader σ) (h : 0 ≤ b.r) : b.slid.r = 0 := by
  unfold Reader.slid
  split_ifs with hr
  · rfl
  · omega

theorem slid_w {σ : Type} (b : Reader σ) (h : 0 ≤ b.r) : b.slid.w = b.w - b.r := by
  unfold Reader.slid
  split_ifs with hr
  · rfl
  · have : b.r = 0 := by omega
    omega

theorem slid_length {σ : Type} (b : Reader σ) : b.slid.buf.length = b.buf.length := by
  unfold Reader.slid
  split_ifs with hr
  · exact copy_length _ _
  · rfl

theorem slid_rd {σ : Type} (b : Reader σ) : b.slid.rd = b.rd := by
  unfold Reader.slid
  split_ifs <;> rfl

theorem slid_err {σ : Type} (b : Reader σ) : b.slid.err = b.err := by
  unfold Reader.slid
  split_ifs <;> rfl

theorem window_length {σ : Type} (b : Reader σ) (hwf : b.WF) :
    b.window.length = (b.w - b.r).toNat := by
  obtain ⟨h0, h1, h2⟩ := hwf
  simp only [Reader.window, List.length_take, List.length_drop]
  omega

theorem slid_take {σ : Type} (b : Reader σ) (hwf : b.WF) :
    b.slid.buf.take (b.w - b.r).toNat = b.window := by
  have hwl := window_length b hwf
  obtain ⟨h0, h1, h2⟩ := hwf
  unfold Reader.slid
  split_ifs with hr
  · simp only [copy]
    rw [List.take_of_length_le (l := b.window) (by omega)]
    rw [← hwl]
    simp
  · have : b.r = 0 := by omega
    simp [Reader.window, this]

/-- On a state within the cursor invariant whose buffered region is shorter
than the buffer, `fill` is its loop run on the state with the data slid to the
front. -/
theorem fill_eq {σ : Type} (rd : σ → Nat → ReadResult × σ) (b : Reader σ) (hwf : b.WF)
    (hfree : b.w - b.r < b.buf.length) :
    b.fill rd = fillLoop rd maxConsecutiveEmptyReads b.slid := by
  have hsl := window_eq_slice hwf
  obtain ⟨h0, h1, h2⟩ := hwf
  unfold Reader.fill Reader.slid
  by_cases hr : b.r > 0
  · simp only [if_pos hr, hsl]
    rw [if_neg (by simp only [copy_length]; omega)]
  · simp only [if_neg hr]
    rw [if_neg (by omega)]

theorem topUp_eq {σ : Type} (rd : σ → Nat → ReadResult × σ) (b : Reader σ) (hwf : b.WF)
    (hfree : b.w - b.r < b.buf.length) :
    b.topUp rd = fillLoop rd maxConsecutiveEmptyReads b.slid := by
  rw [← fill_eq rd b hwf hfree]
  simp [Reader.topUp, Reader.Buffered, hfree]

/-! ## C5: terminal flush -/

/-- C5 (terminal flush).  For every reader state and source, if the first
statement of `ReadData` (the top-up) leaves a state within the cursor invariant
with a terminal condition `e` latched, then `ReadData` returns exactly the
whole buffered region `buf[r:w]` of that state, without any UTF-8 check,
together with `e`, and afterwards `r = w` and the latch is cleared. -/
theorem C5_terminal_flush {σ : Type} (rd : σ → Nat → ReadResult × σ) (b b1 : Reader σ)
    (reads : List ReadResult) (e : Error) (ht : b.topUp rd = .ret () b1 reads)
    (hwf : b1.WF) (he : b1.err = some e) :
    slice b1.buf b1.r b1.w = some b1.window ∧
      b.ReadData rd = .ret (b1.window, some e) { b1 with r := b1.w, err := none } reads ∧
      ({ b1 with r := b1.w, err := none } : Reader σ).window = [] := by
  refine ⟨window_eq_slice hwf, ?_, ?_⟩
  · simp only [Reader.ReadData, ht]
    exact emit_err b1 hwf e he reads
  · simp [Reader.window]

/-- Witness of C5: the buffer holds the lone lead byte `E2` and the source is
at end-of-stream; `ReadData` returns `E2` together with `io.EOF`. -/
theorem C5_terminal_flush_witness :
    slice [0xE2, 0xE2, 0, 0, 0, 0, 0, 0, 0, 0, 0, 0, 0, 0, 0, 0] 0 1 = some [0xE2] ∧
      Reader.ReadData chunkSource
        { buf := [0x61, 0xE2, 0, 0, 0, 0, 0, 0, 0, 0, 0, 0, 0, 0, 0, 0], rd := .other [],
          r := 1, w := 2, err := none } =
        .ret ([0xE2], some Error.EOF)
          { buf := [0xE2, 0xE2, 0, 0, 0, 0, 0, 0, 0, 0, 0, 0, 0, 0, 0, 0], rd := .other [],
            r := 1, w := 1, err := none } [⟨0, [], some Error.EOF⟩] ∧
      ([] : List Nat) = [] :=
  C5_terminal_flush chunkSource
    { buf := [0x61, 0xE2, 0, 0, 0, 0, 0, 0, 0, 0, 0, 0, 0, 0, 0, 0], rd := .other [],
      r := 1, w := 2, err := none }
    { buf := [0xE2, 0xE2, 0, 0, 0, 0, 0, 0, 0, 0, 0, 0, 0, 0, 0, 0], rd := .other [],
      r := 0, w := 1, err := some Error.EOF }
    [⟨0, [], some Error.EOF⟩] Error.EOF (by decide) (by decide) rfl

/-! ## A top-up that ends at its first source read -/

theorem free_eq {σ : Type} (b : Reader σ) (h0 : 0 ≤ b.r) :
    b.slid.buf.length - b.slid.w.toNat = b.free := by
  rw [slid_length, slid_w b h0]
  rfl

/-- The top-up when the first source read ends the loop of `fill` (it answers
an error or a positive count) with a count within range that counts the bytes
stored: one read is performed, `r = 0`, and the buffered region is the old one
followed by the bytes read. -/
theorem topUp_one_read {σ : Type} (rd : σ → Nat → ReadResult × σ) (b : Reader σ) (hwf : b.WF)
    (hfree : b.w - b.r < b.buf.length)
    (hn0 : 0 ≤ (b.rd.Read rd b.free).1.n) (hn1 : (b.rd.Read rd b.free).1.n ≤ b.free)
    (hd : ((b.rd.Read rd b.free).1.data.length : Int) = (b.rd.Read rd b.free).1.n)
    (hend : (b.rd.Read rd b.free).1.err ≠ none ∨ (b.rd.Read rd b.free).1.n > 0) :
    ∃ b', b.topUp rd = .ret () b' [(b.rd.Read rd b.free).1] ∧ b'.r = 0 ∧ b'.WF ∧
      b'.w = (b.w - b.r) + (b.rd.Read rd b.free).1.n ∧
      b'.buf.length = b.buf.length ∧
      b'.window = b.window ++ (b.rd.Read rd b.free).1.data ∧
      b'.rd = (b.rd.Read rd b.free).2 ∧
      b'.err = (if (b.rd.Read rd b.free).1.err ≠ none then (b.rd.Read rd b.free).1.err
        else b.err) := by
  have hst := slid_take b hwf
  have hwl := window_length b hwf
  obtain ⟨h0, h1, h2⟩ := hwf
  have hsr := slid_r b h0
  have hsw := slid_w b h0
  have hsl := slid_length b
  have hfr := free_eq b h0
  have hfree' : b.free = b.buf.length - (b.w - b.r).toNat := rfl
  rw [topUp_eq rd b ⟨h0, h1, h2⟩ hfree]
  have hstep := fillLoop_succ rd 99 b.slid (by omega) (by omega)
  rw [show (99 + 1 : Nat) = maxConsecutiveEmptyReads from rfl] at hstep
  rw [hstep]
  simp only [hfr, slid_rd]
  set res := (b.rd.Read rd b.free).1 with hres
  have hlen : (b.slid.buf.take b.slid.w.toNat ++
      copy (b.slid.buf.drop b.slid.w.toNat) res.data).length = b.buf.length := by
    simp only [List.length_append, copy_length, List.length_take, List.length_drop]
    omega
  have hwin : (b.slid.buf.take b.slid.w.toNat ++
      copy (b.slid.buf.drop b.slid.w.toNat) res.data).take (b.slid.w + res.n).toNat
        = b.window ++ res.data := by
    have e1 : (b.slid.w + res.n).toNat = b.slid.w.toNat + res.data.length := by omega
    rw [e1, take_after_read _ _ _ (by omega) (by omega), hsw, hst]
  rw [if_neg (by omega)]
  by_cases herr : res.err ≠ none
  · rw [if_pos herr]
    refine ⟨_, rfl, hsr, ⟨by simp only [hsr]; exact le_refl _, by simp only [hsr]; omega,
      by simp only [hlen]; omega⟩, by simp only [hsw], hlen, ?_, rfl, by simp only [if_pos herr]⟩
    simp only [Reader.window, hsr, Int.toNat_zero, List.drop_zero, sub_zero]
    exact hwin
  · rw [if_neg herr]
    have hpos : res.n > 0 := by
      rcases hend with h | h
      · exact absurd h herr
      · exact h
    rw [if_pos hpos]
    refine ⟨_, rfl, hsr, ⟨by simp only [hsr]; exact le_refl _, by simp only [hsr]; omega,
      by simp only [hlen]; omega⟩, by simp only [hsw], hlen, ?_, rfl,
      by simp only [if_neg herr, slid_err]⟩
    simp only [Reader.window, hsr, Int.toNat_zero, List.drop_zero, sub_zero]
    exact hwin

/-! ## C6: after a terminal condition -/

theorem emit_reads {σ : Type} (b : Reader σ) (reads : List ReadResult) :
    (b.emit reads).reads = reads := by
  unfold Reader.emit
  split_ifs with he hwr
  · cases slice b.buf b.r b.w <;> rfl
  · rfl
  · simp only
    cases scanBack b.buf b.r (b.w - b.r).toNat with
    | none => rfl
    | some index =>
      simp only
      split_ifs
      · cases slice b.buf b.r (b.r + index) <;> rfl
      · rfl

theorem ReadData_reads {σ : Type} (rd : σ → Nat → ReadResult × σ) (b : Reader σ) :
    (b.ReadData rd).reads = (b.topUp rd).reads := by
  unfold Reader.ReadData
  cases b.topUp rd with
  | panic p b1 reads1 => rfl
  | ret u b1 reads1 => exact emit_reads b1 reads1

/-- When the rest of `ReadData` returns with an error, it is the latched one,
the chunk is the whole buffered region, and afterwards `r = w` with the latch
cleared. -/
theorem emit_ret_err {σ : Type} {b b' : Reader σ} {reads reads' : List ReadResult}
    {line : List Nat} {e : Error} (h : b.emit reads = .ret (line, some e) b' reads') :
    b.WF ∧ b.err = some e ∧ b' = { b with r := b.w, err := none } ∧ line = b.window ∧
      reads' = reads := by
  by_cases he : b.err = none
  · exfalso
    unfold Reader.emit at h
    rw [if_neg (by simp [he])] at h
    cases hs : (if b.w < b.r then none else scanBack b.buf b.r (b.w - b.r).toNat) with
    | none => simp [hs] at h
    | some index =>
      simp only [hs] at h
      split_ifs at h
      cases hl : slice b.buf b.r (b.r + index) with
      | none => simp [hl] at h
      | some l => simp [hl] at h
  · unfold Reader.emit at h
    rw [if_pos he] at h
    cases hs : slice b.buf b.r b.w with
    | none => simp [hs] at h
    | some l =>
      obtain ⟨hb, hl⟩ := slice_some_iff.mp hs
      simp only [hs, Reader.readErr, Outcome.ret.injEq, Prod.mk.injEq] at h
      obtain ⟨⟨h1, h2⟩, h3, h4⟩ := h
      exact ⟨hb, h2, h3.symm, by rw [← h1, hl]; rfl, h4.symm⟩

/-- The first statement of `ReadData` keeps the length of the buffer. -/
theorem topUp_length {σ : Type} (rd : σ → Nat → ReadResult × σ) (b b' : Reader σ)
    (reads : List ReadResult) (h : b.topUp rd = .ret () b' reads) :
    b'.buf.length = b.buf.length := by
  unfold Reader.topUp at h
  split_ifs at h
  · unfold Reader.fill at h
    by_cases hr : b.r > 0
    · simp only [if_pos hr] at h
      cases hs : slice b.buf b.r b.w with
      | none => simp [hs] at h
      | some s =>
        simp only [hs] at h
        split_ifs at h
        rw [(fillLoop_r rd _ _ _ _ h).2]
        exact copy_length _ _
    · simp only [if_neg hr] at h
      split_ifs at h
      exact (fillLoop_r rd _ _ _ _ h).2
  · simp only [Outcome.ret.injEq] at h
    obtain ⟨_, h, _⟩ := h
    subst h
    rfl

/-- With an empty buffered region and a buffer of positive length, the
top-up reads the source at least once. -/
theorem topUp_reads_ne_nil {σ : Type} (rd : σ → Nat → ReadResult × σ) (b : Reader σ)
    (hwf : b.WF) (hrw : b.r = b.w) (hlen : 0 < b.buf.length) : (b.topUp rd).reads ≠ [] := by
  have h0 := hwf.1
  rw [topUp_eq rd b hwf (by omega)]
  have hstep := fillLoop_succ rd 99 b.slid (by rw [slid_w b h0]; omega)
    (by rw [slid_w b h0, slid_length]; omega)
  rw [show (99 + 1 : Nat) = maxConsecutiveEmptyReads from rfl] at hstep
  rw [hstep]
  split_ifs
  · simp [Outcome.reads]
  · simp [Outcome.reads]
  · simp [Outcome.reads]
  · cases fillLoop rd 99 _ <;> simp [Outcome.addRead, Outcome.reads]

/-- Counterexample to C6 as stated: the source answers `(0, io.EOF)` and, at
the next read, one byte.  The first `ReadData` returns the terminal condition;
the second reads the source again and returns data with no error. -/
theorem C6_counterexample :
    Reader.ReadData scriptSource
        (NewReaderSize (.other [⟨0, [], some Error.EOF⟩, ⟨1, [0x61], none⟩]) 16) =
      .ret ([], some Error.EOF)
        { buf := [0, 0, 0, 0, 0, 0, 0, 0, 0, 0, 0, 0, 0, 0, 0, 0],
          rd := .other [⟨1, [0x61], none⟩], r := 0, w := 0, err := none }
        [⟨0, [], some Error.EOF⟩] ∧
    Reader.ReadData scriptSource
        { buf := [0, 0, 0, 0, 0, 0, 0, 0, 0, 0, 0, 0, 0, 0, 0, 0],
          rd := .other [⟨1, [0x61], none⟩], r := 0, w := 0, err := none } =
      .ret ([0x61], none)
        { buf := [0x61, 0, 0, 0, 0, 0, 0, 0, 0, 0, 0, 0, 0, 0, 0, 0],
          rd := .other [], r := 1, w := 1, err := none }
        [⟨1, [0x61], none⟩] := by
  decide

/-- C6, amended.  Once a `ReadData` call on a reader with a non-empty buffer
has returned a terminal condition, the buffered region is empty (`r = w`) and
the latch is cleared; the next `ReadData` call reads the source again (at
least one source read), and if that read answers a zero count together with a
terminal condition `e'` the call returns an empty chunk with `e'` after this
one read, leaving `r = w` and the latch cleared once more. -/
theorem C6_after_terminal {σ : Type} (rd : σ → Nat → ReadResult × σ) (b b1 : Reader σ)
    (line : List Nat) (e : Error) (reads : List ReadResult) (hlen : 0 < b.buf.length)
    (h : b.ReadData rd = .ret (line, some e) b1 reads) :
    b1.r = b1.w ∧ b1.err = none ∧ b1.window = [] ∧ (b1.ReadData rd).reads ≠ [] ∧
      ∀ e', (b1.rd.Read rd b1.buf.length).1 = ⟨0, [], some e'⟩ →
        ∃ b2, b1.ReadData rd = .ret ([], some e') b2 [⟨0, [], some e'⟩] ∧
          b2.r = b2.w ∧ b2.err = none := by
  unfold Reader.ReadData at h
  cases ht : b.topUp rd with
  | panic p b' reads' => simp [ht] at h
  | ret u b' reads' =>
    simp only [ht] at h
    obtain ⟨hwf', he', hb1, _, _⟩ := emit_ret_err h
    have hl' := topUp_length rd b b' reads' ht
    obtain ⟨h0, h1, h2⟩ := hwf'
    have hwf1 : b1.WF := by
      rw [hb1]
      exact ⟨by simp only; omega, le_refl _, h2⟩
    have hrw : b1.r = b1.w := by rw [hb1]
    have hl1 : b1.buf.length = b.buf.length := by rw [hb1]; exact hl'
    have hwin1 : b1.window = [] := by simp [Reader.window, hrw]
    have hfree1 : b1.free = b1.buf.length := by simp [Reader.free, hrw]
    refine ⟨hrw, by rw [hb1], hwin1, ?_, ?_⟩
    · rw [ReadData_reads]
      exact topUp_reads_ne_nil rd b1 hwf1 hrw (by omega)
    · intro e' hres
      have hres' : (b1.rd.Read rd b1.free).1 = ⟨0, [], some e'⟩ := by rw [hfree1]; exact hres
      obtain ⟨b2, ht2, hr2, hwf2, hw2, _, hwin2, _, he2⟩ :=
        topUp_one_read rd b1 hwf1 (by omega) (by rw [hres']) (by rw [hres']; simp)
          (by rw [hres']; rfl) (Or.inl (by rw [hres']; simp))
      rw [hres'] at ht2 hwin2 he2
      simp only [ne_eq, reduceCtorEq, not_false_eq_true, if_true] at he2
      refine ⟨{ b2 with r := b2.w, err := none }, ?_, rfl, rfl⟩
      simp only [Reader.ReadData, ht2]
      rw [emit_err b2 hwf2 e' he2, hwin2, hwin1]
      rfl

/-- Witness of C6, amended: after `ReadData` has returned `io.EOF` from a
source that stays at end-of-stream, the next call reads the source again and
returns an empty chunk with `io.EOF` again. -/
theorem C6_after_terminal_witness :
    (0 : Int) = 0 ∧ (none : Option Error) = none ∧ ([] : List Nat) = [] ∧
      (Reader.ReadData chunkSource
        { buf := [0x61, 0, 0, 0, 0, 0, 0, 0, 0, 0, 0, 0, 0, 0, 0, 0], rd := .other [],
          r := 0, w := 0, err := none }).reads ≠ [] ∧
      ∀ e', (IOReader.Read chunkSource (.other []) 16).1 = ⟨0, [], some e'⟩ →
        ∃ b2, Reader.ReadData chunkSource
            { buf := [0x61, 0, 0, 0, 0, 0, 0, 0, 0, 0, 0, 0, 0, 0, 0, 0], rd := .other [],
              r := 0, w := 0, err := none } = .ret ([], some e') b2 [⟨0, [], some e'⟩] ∧
          b2.r = b2.w ∧ b2.err = none :=
  C6_after_terminal chunkSource
    { buf := [0x61, 0, 0, 0, 0, 0, 0, 0, 0, 0, 0, 0, 0, 0, 0, 0], rd := .other [],
      r := 1, w := 1, err := none }
    { buf := [0x61, 0, 0, 0, 0, 0, 0, 0, 0, 0, 0, 0, 0, 0, 0, 0], rd := .other [],
      r := 0, w := 0, err := none }
    [] Error.EOF [⟨0, [], some Error.EOF⟩] (by decide) (by decide)

/-! ## C8: stall detection -/

/-- The loop of `fill` against a source that answers a zero count and no error
to each of its `i` reads: it performs `i` reads, latches `io.ErrNoProgress`, and
keeps the cursors, the length of the buffer and the bytes before `w`. -/
theorem fillLoop_zero {σ : Type} (rd : σ → Nat → ReadResult × σ) :
    ∀ (i : Nat) (b : Reader σ), 0 ≤ b.w → b.w ≤ b.buf.length →
      ZeroReads rd (b.buf.length - b.w.toNat) i b.rd →
      ∃ b' reads, fillLoop rd i b = .ret () b' reads ∧ reads.length = i ∧
        (∀ res ∈ reads, res.n = 0 ∧ res.err = none) ∧
        b'.r = b.r ∧ b'.w = b.w ∧ b'.err = some Error.ErrNoProgress ∧
        b'.buf.length = b.buf.length ∧ b'.buf.take b.w.toNat = b.buf.take b.w.toNat := by
  intro i
  induction i with
  | zero =>
    intro b _ _ _
    exact ⟨_, _, rfl, rfl, by simp, rfl, rfl, rfl, rfl, rfl⟩
  | succ i ih =>
    intro b h0 h1 hz
    obtain ⟨hn, herr, hrest⟩ := hz
    rw [fillLoop_succ rd i b h0 h1]
    rw [if_neg (by omega), if_neg (by simp [herr]), if_neg (by omega)]
    have hlen : (b.buf.take b.w.toNat ++ copy (b.buf.drop b.w.toNat)
        (b.rd.Read rd (b.buf.length - b.w.toNat)).1.data).length = b.buf.length := by
      simp only [List.length_append, copy_length, List.length_take, List.length_drop]
      omega
    have htk : (b.buf.take b.w.toNat ++ copy (b.buf.drop b.w.toNat)
        (b.rd.Read rd (b.buf.length - b.w.toNat)).1.data).take b.w.toNat
          = b.buf.take b.w.toNat := by
      rw [List.take_append_eq_append_take]
      simp only [List.length_take]
      have e1 : min b.w.toNat b.buf.length = b.w.toNat := by omega
      rw [e1, List.take_take]
      simp
    obtain ⟨b', reads, he, hcnt, hall, hr, hw, herr', hl, ht⟩ :=
      ih { b with buf := b.buf.take b.w.toNat ++ copy (b.buf.drop b.w.toNat)
                    (b.rd.Read rd (b.buf.length - b.w.toNat)).1.data,
                  rd := (b.rd.Read rd (b.buf.length - b.w.toNat)).2,
                  w := b.w + (b.rd.Read rd (b.buf.length - b.w.toNat)).1.n }
        (by simp only; omega) (by simp only [hlen]; omega)
        (by simp only [hlen, hn, add_zero]; exact hrest)
    simp only [hn, add_zero, hlen, htk] at hr hw hl ht
    refine ⟨b', (b.rd.Read rd (b.buf.length - b.w.toNat)).1 :: reads, ?_, by simp [hcnt], ?_,
      hr, hw, herr', hl, ht⟩
    · rw [he]; rfl
    · intro res hres
      rcases List.mem_cons.mp hres with h | h
      · rw [h]; exact ⟨hn, herr⟩
      · exact hall res h

/-- C8 (stall detection).  For every state within the cursor invariant whose
buffered region is shorter than the buffer, if the source answers a zero count
and no error to `maxConsecutiveEmptyReads = 100` consecutive reads, a single
`ReadData` call returns after exactly 100 source reads, with the buffered
region `buf[r:w]` as the chunk and `io.ErrNoProgress` as the error, which is
not `io.EOF`; afterwards `r = w` and the latch is cleared. -/
theorem C8_stall_detection {σ : Type} (rd : σ → Nat → ReadResult × σ) (b : Reader σ)
    (hwf : b.WF) (hfree : b.w - b.r < b.buf.length)
    (hz : ZeroReads rd b.free maxConsecutiveEmptyReads b.rd) :
    ∃ b1 reads, b.ReadData rd = .ret (b.window, some Error.ErrNoProgress) b1 reads ∧
      reads.length = 100 ∧ (∀ res ∈ reads, res.n = 0 ∧ res.err = none) ∧
      Error.ErrNoProgress ≠ Error.EOF ∧ b1.r = b1.w ∧ b1.err = none := by
  have hst := slid_take b hwf
  have h0 := hwf.1
  have hsw := slid_w b h0
  have hsr := slid_r b h0
  have hsl := slid_length b
  obtain ⟨b', reads, he, hcnt, hall, hr, hw, herr, hl, ht⟩ :=
    fillLoop_zero rd maxConsecutiveEmptyReads b.slid (by rw [hsw]; have := hwf.2.1; omega)
      (by rw [hsw, hsl]; omega) (by rw [free_eq b h0, slid_rd]; exact hz)
  have hwf' : b'.WF := ⟨by rw [hr, hsr], by rw [hr, hsr, hw, hsw]; have := hwf.2.1; omega,
    by rw [hw, hsw, hl, hsl]; omega⟩
  refine ⟨{ b' with r := b'.w, err := none }, reads, ?_, hcnt, hall, by decide, rfl, rfl⟩
  simp only [Reader.ReadData, topUp_eq rd b hwf hfree, he]
  rw [emit_err b' hwf' _ herr]
  have : b'.window = b.window := by
    rw [window_of_r_zero (by rw [hr, hsr]), hw, ht, hsw, hst]
  rw [this]

/-- A `Reader` used as the source answers a zero count and no error to any
number of reads. -/
theorem zeroReads_ptrReader {σ : Type} (rd : σ → Nat → ReadResult × σ) (len : Nat)
    (buf : List Nat) (src : IOReader σ) (r w : Int) (err : Option Error) :
    ∀ k, ZeroReads rd len k (.ptrReader buf src r w err) := by
  intro k
  induction k with
  | zero => trivial
  | succ k ih => exact ⟨rfl, rfl, ih⟩

/-- Witness of C8: a `Reader` used as the source answers `(0, nil)` to every
read; `ReadData` on a reader that holds `"x"` returns `"x"` with
`io.ErrNoProgress`. -/
theorem C8_stall_detection_witness :
    ∃ b1 reads, Reader.ReadData chunkSource
        { buf := [0x78, 0, 0, 0, 0, 0, 0, 0, 0, 0, 0, 0, 0, 0, 0, 0],
          rd := .ptrReader [] (.other []) 0 0 none, r := 0, w := 1, err := none } =
        .ret ([0x78], some Error.ErrNoProgress) b1 reads ∧
      reads.length = 100 ∧ (∀ res ∈ reads, res.n = 0 ∧ res.err = none) ∧
      Error.ErrNoProgress ≠ Error.EOF ∧ b1.r = b1.w ∧ b1.err = none :=
  C8_stall_detection chunkSource
    { buf := [0x78, 0, 0, 0, 0, 0, 0, 0, 0, 0, 0, 0, 0, 0, 0, 0],
      rd := .ptrReader [] (.other []) 0 0 none, r := 0, w := 1, err := none }
    (by decide) (by decide) (zeroReads_ptrReader chunkSource _ [] (.other []) 0 0 none _)

/-! ## C9: zero-byte reads before data -/

theorem emit_addReads {σ : Type} (b : Reader σ) (pre reads : List ReadResult) :
    b.emit (pre ++ reads) = (b.emit reads).addReads pre := by
  unfold Reader.emit
  split_ifs with he hwr
  · cases slice b.buf b.r b.w <;> rfl
  · rfl
  · simp only
    cases scanBack b.buf b.r (b.w - b.r).toNat with
    | none => rfl
    | some index =>
      simp only
      split_ifs
      · cases slice b.buf b.r (b.r + index) <;> rfl
      · rfl

theorem addReads_nil {σ α : Type} (o : Outcome σ α) : o.addReads [] = o := by
  cases o <;> rfl

theorem addRead_addReads {σ α : Type} (res : ReadResult) (pre : List ReadResult)
    (o : Outcome σ α) : (o.addReads pre).addRead res = o.addReads (res :: pre) := by
  cases o <;> rfl

/-- Zero-count reads that store nothing are skipped by the loop of `fill`. -/
theorem fillLoop_zeroTo {σ : Type} (rd : σ → Nat → ReadResult × σ) (t : IOReader σ) (i : Nat) :
    ∀ (k : Nat) (b : Reader σ), 0 ≤ b.w → b.w ≤ b.buf.length →
      ZeroReadsTo rd (b.buf.length - b.w.toNat) k b.rd t →
      fillLoop rd (i + k) b =
        (fillLoop rd i { b with rd := t }).addReads (List.replicate k (⟨0, [], none⟩ : ReadResult)) := by
  intro k
  induction k with
  | zero =>
    intro b _ _ hz
    simp only [ZeroReadsTo] at hz
    rw [← hz]
    exact (addReads_nil _).symm
  | succ k ih =>
    intro b h0 h1 hz
    obtain ⟨hres, hrest⟩ := hz
    rw [show i + (k + 1) = (i + k) + 1 from rfl, fillLoop_succ rd (i + k) b h0 h1]
    simp only [hres]
    rw [if_neg (by decide), if_neg (by simp), if_neg (by decide)]
    have hbuf : b.buf.take b.w.toNat ++ copy (b.buf.drop b.w.toNat) [] = b.buf := by
      rw [copy_nil]; simp
    simp only [hbuf, add_zero]
    rw [ih { b with rd := (b.rd.Read rd (b.buf.length - b.w.toNat)).2 } h0 h1 hrest]
    rw [addRead_addReads]
    rfl

/-- When the first read of the loop of `fill` answers a non-zero count or an
error, the number of iterations left does not matter. -/
theorem fillLoop_first_ends {σ : Type} (rd : σ → Nat → ReadResult × σ) (i j : Nat)
    (b : Reader σ) (h0 : 0 ≤ b.w) (h1 : b.w ≤ b.buf.length)
    (hend : (b.rd.Read rd (b.buf.length - b.w.toNat)).1.n ≠ 0 ∨
      (b.rd.Read rd (b.buf.length - b.w.toNat)).1.err ≠ none) :
    fillLoop rd (i + 1) b = fillLoop rd (j + 1) b ∧
      (fillLoop rd (i + 1) b).reads = [(b.rd.Read rd (b.buf.length - b.w.toNat)).1] := by
  rw [fillLoop_succ rd i b h0 h1, fillLoop_succ rd j b h0 h1]
  split_ifs with h2 h3 h4
  · exact ⟨rfl, rfl⟩
  · exact ⟨rfl, rfl⟩
  · exact ⟨rfl, rfl⟩
  · exfalso
    rcases hend with h | h
    · omega
    · exact h3 h

theorem slid_with_rd {σ : Type} (b : Reader σ) (t : IOReader σ) :
    ({ b with rd := t } : Reader σ).slid = { b.slid with rd := t } := by
  unfold Reader.slid
  split_ifs <;> rfl

/-- Zero-byte reads in front of the read that ends the loop of `fill` change
nothing but the list of source reads: `ReadData` ends as it does from the same
state with the source already past them. -/
theorem ReadData_zeroTo {σ : Type} (rd : σ → Nat → ReadResult × σ) (b : Reader σ)
    (hwf : b.WF) (hfree : b.w - b.r < b.buf.length) (k : Nat) (hk : k < 100)
    (t : IOReader σ) (hz : ZeroReadsTo rd b.free k b.rd t)
    (hend : (t.Read rd b.free).1.n ≠ 0 ∨ (t.Read rd b.free).1.err ≠ none) :
    b.ReadData rd =
        (Reader.ReadData rd { b with rd := t }).addReads
          (List.replicate k (⟨0, [], none⟩ : ReadResult)) ∧
      (Reader.ReadData rd { b with rd := t }).reads = [(t.Read rd b.free).1] := by
  have h0 := hwf.1
  have hsw := slid_w b h0
  have hsl := slid_length b
  have hw0 : 0 ≤ b.slid.w := by rw [hsw]; have := hwf.2.1; omega
  have hw1 : b.slid.w ≤ b.slid.buf.length := by rw [hsw, hsl]; omega
  have hwf' : Reader.WF ({ b with rd := t } : Reader σ) := hwf
  have hzero := fillLoop_zeroTo rd t (99 - k + 1) k b.slid hw0 hw1
    (by rw [free_eq b h0, slid_rd]; exact hz)
  rw [show 99 - k + 1 + k = maxConsecutiveEmptyReads by
    simp only [maxConsecutiveEmptyReads]; omega] at hzero
  have hends := fillLoop_first_ends rd (99 - k) 99 { b.slid with rd := t } hw0 hw1
    (by simp only [free_eq b h0]; exact hend)
  simp only [free_eq b h0] at hends
  rw [show (99 + 1 : Nat) = maxConsecutiveEmptyReads from rfl] at hends
  have htop : b.topUp rd =
      (Reader.topUp rd { b with rd := t }).addReads
        (List.replicate k (⟨0, [], none⟩ : ReadResult)) := by
    rw [topUp_eq rd { b with rd := t } hwf' hfree, slid_with_rd b t, topUp_eq rd b hwf hfree,
      hzero, hends.1]
  have hreads : (Reader.topUp rd { b with rd := t }).reads = [(t.Read rd b.free).1] := by
    rw [topUp_eq rd { b with rd := t } hwf' hfree, slid_with_rd b t, ← hends.1]
    exact hends.2
  refine ⟨?_, by rw [ReadData_reads, hreads]⟩
  unfold Reader.ReadData
  rw [htop]
  cases Reader.topUp rd { b with rd := t } with
  | panic p b1 reads1 => rfl
  | ret u b1 reads1 => exact emit_addReads b1 _ reads1

theorem addReads_reads {σ α : Type} (pre : List ReadResult) (o : Outcome σ α) :
    (o.addReads pre).reads = pre ++ o.reads := by
  cases o <;> rfl

/-- C9 (zero-byte resilience).  For every `k < 100` and every state within the
cursor invariant whose buffered region is shorter than the buffer, if the
source answers `(0, nil)` to `k` consecutive reads and then delivers `n > 0`
bytes with no error, a single `ReadData` call performs these `k + 1` reads and
ends exactly (same chunk, same error, same final state, or same panic) as the
call does when the source delivers those bytes at its first read. -/
theorem C9_zero_byte_resilience {σ : Type} (rd : σ → Nat → ReadResult × σ) (b : Reader σ)
    (hwf : b.WF) (hfree : b.w - b.r < b.buf.length) (k : Nat) (hk : k < 100)
    (t : IOReader σ) (hz : ZeroReadsTo rd b.free k b.rd t)
    (hn : 0 < (t.Read rd b.free).1.n) (_herr : (t.Read rd b.free).1.err = none) :
    b.ReadData rd =
        (Reader.ReadData rd { b with rd := t }).addReads
          (List.replicate k (⟨0, [], none⟩ : ReadResult)) ∧
      (Reader.ReadData rd { b with rd := t }).reads = [(t.Read rd b.free).1] ∧
      (b.ReadData rd).reads.length = k + 1 := by
  obtain ⟨hmain, hreads⟩ := ReadData_zeroTo rd b hwf hfree k hk t hz (Or.inl (by omega))
  refine ⟨hmain, hreads, ?_⟩
  rw [hmain, addReads_reads, hreads]
  simp

/-- Witness of C9: the source answers `(0, nil)` three times and then delivers
`"hi"`; `ReadData` returns `"hi"` after four source reads. -/
theorem C9_zero_byte_resilience_witness :
    Reader.ReadData scriptSource
        { buf := [0, 0, 0, 0, 0, 0, 0, 0, 0, 0, 0, 0, 0, 0, 0, 0],
          rd := .other [⟨0, [], none⟩, ⟨0, [], none⟩, ⟨0, [], none⟩, ⟨2, [0x68, 0x69], none⟩],
          r := 0, w := 0, err := none } =
      .ret ([0x68, 0x69], none)
        { buf := [0x68, 0x69, 0, 0, 0, 0, 0, 0, 0, 0, 0, 0, 0, 0, 0, 0], rd := .other [],
          r := 2, w := 2, err := none }
        [⟨0, [], none⟩, ⟨0, [], none⟩, ⟨0, [], none⟩, ⟨2, [0x68, 0x69], none⟩] ∧
      (Reader.ReadData scriptSource
        { buf := [0, 0, 0, 0, 0, 0, 0, 0, 0, 0, 0, 0, 0, 0, 0, 0],
          rd := .other [⟨2, [0x68, 0x69], none⟩],
          r := 0, w := 0, err := none }).reads = [⟨2, [0x68, 0x69], none⟩] ∧
      (Reader.ReadData scriptSource
        { buf := [0, 0, 0, 0, 0, 0, 0, 0, 0, 0, 0, 0, 0, 0, 0, 0],
          rd := .other [⟨0, [], none⟩, ⟨0, [], none⟩, ⟨0, [], none⟩, ⟨2, [0x68, 0x69], none⟩],
          r := 0, w := 0, err := none }).reads.length = 3 + 1 :=
  C9_zero_byte_resilience scriptSource
    { buf := [0, 0, 0, 0, 0, 0, 0, 0, 0, 0, 0, 0, 0, 0, 0, 0],
      rd := .other [⟨0, [], none⟩, ⟨0, [], none⟩, ⟨0, [], none⟩, ⟨2, [0x68, 0x69], none⟩],
      r := 0, w := 0, err := none }
    (by decide) (by decide) 3 (by decide) (.other [⟨2, [0x68, 0x69], none⟩])
    ⟨rfl, rfl, rfl, rfl⟩ (by decide) (by decide)

/-! ## C7: data accompanied by a terminal condition -/

/-- Counterexample to C7 as stated: the first source read answers one byte
together with an error; the `ReadData` call that performed the read returns the
byte together with that error, and the next call, whose read answers one byte
and no error, reports no error at all. -/
theorem C7_counterexample :
    Reader.ReadData scriptSource
        (NewReaderSize (.other [⟨1, [0x61], some (Error.other "closed pipe")⟩,
          ⟨1, [0x62], none⟩]) 16) =
      .ret ([0x61], some (Error.other "closed pipe"))
        { buf := [0x61, 0, 0, 0, 0, 0, 0, 0, 0, 0, 0, 0, 0, 0, 0, 0],
          rd := .other [⟨1, [0x62], none⟩], r := 1, w := 1, err := none }
        [⟨1, [0x61], some (Error.other "closed pipe")⟩] ∧
    Reader.ReadData scriptSource
        { buf := [0x61, 0, 0, 0, 0, 0, 0, 0, 0, 0, 0, 0, 0, 0, 0, 0],
          rd := .other [⟨1, [0x62], none⟩], r := 1, w := 1, err := none } =
      .ret ([0x62], none)
        { buf := [0x62, 0, 0, 0, 0, 0, 0, 0, 0, 0, 0, 0, 0, 0, 0, 0],
          rd := .other [], r := 1, w := 1, err := none }
        [⟨1, [0x62], none⟩] := by
  decide

/-- C7, amended.  For every state within the cursor invariant whose buffered
region is shorter than the buffer, when a source read of a `ReadData` call (the
first one, or one that follows `k < 100` reads answered `(0, nil)`) answers
`n > 0` bytes (`n ≤ len(p)`, the bytes stored) together with a terminal
condition `e`, that same call returns the whole buffered region, the `n` new
bytes included, together with `e`; it leaves `r = w` and the latch cleared, so
the reader does not keep `e` for the next call. -/
theorem C7_data_with_terminal {σ : Type} (rd : σ → Nat → ReadResult × σ) (b : Reader σ)
    (hwf : b.WF) (hfree : b.w - b.r < b.buf.length) (k : Nat) (hk : k < 100)
    (t : IOReader σ) (hz : ZeroReadsTo rd b.free k b.rd t) (e : Error)
    (hn0 : 0 < (t.Read rd b.free).1.n) (hn1 : (t.Read rd b.free).1.n ≤ b.free)
    (hd : ((t.Read rd b.free).1.data.length : Int) = (t.Read rd b.free).1.n)
    (herr : (t.Read rd b.free).1.err = some e) :
    ∃ b1, b.ReadData rd =
        .ret (b.window ++ (t.Read rd b.free).1.data, some e) b1
          (List.replicate k (⟨0, [], none⟩ : ReadResult) ++ [(t.Read rd b.free).1]) ∧
      b1.r = b1.w ∧ b1.err = none ∧ b1.window = [] ∧ b1.rd = (t.Read rd b.free).2 := by
  obtain ⟨hmain, _⟩ := ReadData_zeroTo rd b hwf hfree k hk t hz (Or.inl (by omega))
  have hwf' : Reader.WF ({ b with rd := t } : Reader σ) := hwf
  obtain ⟨b', ht, hr, hwf1, hw, hl, hwin, hrd, he⟩ :=
    topUp_one_read rd { b with rd := t } hwf' hfree (by show 0 ≤ (t.Read rd b.free).1.n; omega)
      hn1 hd (Or.inl (by show (t.Read rd b.free).1.err ≠ none; simp [herr]))
  have hfr : ({ b with rd := t } : Reader σ).free = b.free := rfl
  have hwn : ({ b with rd := t } : Reader σ).window = b.window := rfl
  simp only [hfr, hwn] at ht hwin hrd he
  rw [if_pos (by simp [herr]), herr] at he
  refine ⟨{ b' with r := b'.w, err := none }, ?_, rfl, rfl, by simp [Reader.window], hrd⟩
  rw [hmain]
  simp only [Reader.ReadData, ht]
  rw [emit_err b' hwf1 e he, hwin]
  rfl

/-- Witness of C7, amended: the buffer holds `"x"` unreturned and the source
answers `(0, nil)` and then `"a"` together with `io.EOF`; `ReadData` returns
`"xa"` and `io.EOF`. -/
theorem C7_data_with_terminal_witness :
    ∃ b1, Reader.ReadData scriptSource
        { buf := [0x78, 0x78, 0, 0, 0, 0, 0, 0, 0, 0, 0, 0, 0, 0, 0, 0],
          rd := .other [⟨0, [], none⟩, ⟨1, [0x61], some Error.EOF⟩], r := 1, w := 2,
          err := none } =
        .ret ([0x78, 0x61], some Error.EOF) b1 [⟨0, [], none⟩, ⟨1, [0x61], some Error.EOF⟩] ∧
      b1.r = b1.w ∧ b1.err = none ∧ b1.window = [] ∧ b1.rd = .other [] :=
  C7_data_with_terminal scriptSource
    { buf := [0x78, 0x78, 0, 0, 0, 0, 0, 0, 0, 0, 0, 0, 0, 0, 0, 0],
      rd := .other [⟨0, [], none⟩, ⟨1, [0x61], some Error.EOF⟩], r := 1, w := 2, err := none }
    (by decide) (by decide) 1 (by decide) (.other [⟨1, [0x61], some Error.EOF⟩]) ⟨rfl, rfl⟩
    Error.EOF (by decide) (by decide) (by decide) (by decide)

/-! ## C10: ASCII then end-of-stream -/

theorem DecodeLastRune_ascii (pre : List Nat) (c : Nat) (hc : c < 0x80) :
    utf8.DecodeLastRune (pre ++ [c]) = (c, 1) := by
  unfold utf8.DecodeLastRune
  have h1 : ¬ (((pre ++ [c]).length : Int) = 0) := by simp; omega
  have h2 : (((pre ++ [c]).length : Int) - 1).toNat = pre.length := by simp
  have h3 : (pre ++ [c]).getD pre.length 0 = c := by
    simp [List.getD_eq_getElem?_getD]
  simp only [h1, if_false, h2, h3, utf8.RuneSelf, if_pos hc]

/-- Without a latched error, with `r = 0`, when the whole buffered region
decodes at its end, `ReadData` returns all of it. -/
theorem emit_all {σ : Type} (b : Reader σ) (hwf : b.WF) (hr : b.r = 0) (he : b.err = none)
    (reads : List ReadResult)
    (hgood : (utf8.DecodeLastRune b.window).1 ≠ utf8.RuneError) :
    b.emit reads = .ret (b.window, none) { b with r := b.w } reads := by
  have hw := window_of_r_zero hr
  rw [hw] at hgood ⊢
  rcases emit_scan b hwf hr he reads with ⟨_, hall⟩ | ⟨m, hm0, hmw, hret, _, hall⟩
  · exact absurd (hall b.w.toNat (le_refl _)) hgood
  · by_cases hm : m = b.w.toNat
    · rw [hret, hm]
      have : ((b.w.toNat : Nat) : Int) = b.w := by omega
      rw [this]
    · exact absurd (hall b.w.toNat (by omega) (le_refl _)) hgood

/-- C10 (ASCII then end-of-stream).  For every requested size and every
non-empty pure-ASCII byte string `str` no longer than the buffer, if the source
delivers `str` in one read with no error and answers `(0, io.EOF)` to the next
read, then on the reader made by `NewReaderSize` the first `ReadData` returns
`(str, nil)` and the second returns `("", io.EOF)`. -/
theorem C10_ascii_then_eof {σ : Type} (rd : σ → Nat → ReadResult × σ) (size : Int)
    (s0 s1 s2 : σ) (str : List Nat) (hne : str ≠ []) (hascii : ∀ c ∈ str, c < 0x80)
    (hlen : str.length ≤ (if size < minReadBufferSize then minReadBufferSize else size).toNat)
    (h1 : rd s0 (if size < minReadBufferSize then minReadBufferSize else size).toNat =
      (⟨str.length, str, none⟩, s1))
    (h2 : rd s1 (if size < minReadBufferSize then minReadBufferSize else size).toNat =
      (⟨0, [], some Error.EOF⟩, s2)) :
    ∃ b1 b2, (NewReaderSize (.other s0) size).ReadData rd =
        .ret (str, none) b1 [⟨str.length, str, none⟩] ∧
      b1.ReadData rd = .ret ([], some Error.EOF) b2 [⟨0, [], some Error.EOF⟩] := by
  obtain ⟨hwf0, hwin0⟩ := NewReaderSize_alloc_wf (.other s0) size trivial
  have hb0 := NewReaderSize_alloc (.other s0) size trivial
  set cap := (if size < minReadBufferSize then minReadBufferSize else size).toNat with hcap
  have hcap16 : 16 ≤ cap := by
    rw [hcap]; simp only [minReadBufferSize]; split_ifs <;> omega
  set b0 : Reader σ := NewReaderSize (.other s0) size with hb0def
  have hl0 : b0.buf.length = cap := by rw [hb0]; simp
  have hr0 : b0.r = 0 := by rw [hb0]
  have hw0 : b0.w = 0 := by rw [hb0]
  have hrd0 : b0.rd = .other s0 := by rw [hb0]
  have he0 : b0.err = none := by rw [hb0]
  have hf0 : b0.free = cap := by simp [Reader.free, hl0, hr0, hw0]
  have hread0 : b0.rd.Read rd b0.free = (⟨str.length, str, none⟩, .other s1) := by
    rw [hrd0, hf0]
    simp only [IOReader.Read, h1]
  have hpos : 0 < str.length := List.length_pos.mpr hne
  obtain ⟨b', ht, hr', hwf', hw', hl', hwin', hrd', he'⟩ :=
    topUp_one_read rd b0 hwf0 (by rw [hr0, hw0, hl0]; omega) (by rw [hread0]; simp)
      (by rw [hread0, hf0]; simp only; omega) (by rw [hread0])
      (Or.inr (by rw [hread0]; simp only; omega))
  rw [hread0] at ht hw' hwin' hrd' he'
  simp only [hwin0, List.nil_append, hr0, hw0, sub_zero, zero_add, he0, ne_eq,
    not_true_eq_false, if_false] at hw' hwin' hrd' he'
  -- the region ends with an ASCII byte
  have hgood : (utf8.DecodeLastRune b'.window).1 ≠ utf8.RuneError := by
    rw [hwin', ← List.dropLast_append_getLast hne,
      DecodeLastRune_ascii _ _ (hascii _ (List.getLast_mem hne))]
    have := hascii _ (List.getLast_mem hne)
    simp only [utf8.RuneError]
    omega
  have hemit := emit_all b' hwf' hr' he' [⟨str.length, str, none⟩] hgood
  rw [hwin'] at hemit
  have hcall1 : b0.ReadData rd = .ret (str, none) { b' with r := b'.w }
      [⟨str.length, str, none⟩] := by
    simp only [Reader.ReadData, ht]
    exact hemit
  -- the second call
  set b1 : Reader σ := { b' with r := b'.w } with hb1
  have hwf1 : b1.WF := ⟨by rw [hb1]; simp only; omega, le_refl _, hwf'.2.2⟩
  have hf1 : b1.free = cap := by simp [Reader.free, hb1, hl', hl0]
  have hread1 : b1.rd.Read rd b1.free = (⟨0, [], some Error.EOF⟩, .other s2) := by
    rw [hf1]
    simp only [hb1, hrd', IOReader.Read, h2]
  have hwin1 : b1.window = [] := by simp [Reader.window, hb1]
  obtain ⟨b'', ht2, hr2, hwf2, hw2, hl2, hwin2, hrd2, he2⟩ :=
    topUp_one_read rd b1 hwf1 (by simp only [hb1, hl', hl0]; omega) (by rw [hread1])
      (by rw [hread1]; simp) (by rw [hread1]; rfl) (Or.inl (by rw [hread1]; simp))
  rw [hread1] at ht2 hwin2 he2
  simp only [hwin1, List.append_nil, ne_eq, reduceCtorEq, not_false_eq_true, if_true] at hwin2 he2
  refine ⟨b1, { b'' with r := b''.w, err := none }, hcall1, ?_⟩
  simp only [Reader.ReadData, ht2]
  rw [emit_err b'' hwf2 Error.EOF he2, hwin2]

/-- Witness of C10: requested capacity 8 and `"abcdefgh"`. -/
theorem C10_ascii_then_eof_witness :
    ∃ b1 b2, (NewReaderSize (.other [[0x61, 0x62, 0x63, 0x64, 0x65, 0x66, 0x67, 0x68]]) 8).ReadData
          chunkSource =
        .ret ([0x61, 0x62, 0x63, 0x64, 0x65, 0x66, 0x67, 0x68], none) b1
          [⟨8, [0x61, 0x62, 0x63, 0x64, 0x65, 0x66, 0x67, 0x68], none⟩] ∧
      b1.ReadData chunkSource = .ret ([], some Error.EOF) b2 [⟨0, [], some Error.EOF⟩] :=
  C10_ascii_then_eof chunkSource 8 [[0x61, 0x62, 0x63, 0x64, 0x65, 0x66, 0x67, 0x68]] [] []
    [0x61, 0x62, 0x63, 0x64, 0x65, 0x66, 0x67, 0x68] (by decide) (by decide) (by decide)
    (by decide) (by decide)

/-! ## Completeness of the decoder on valid characters -/

theorem and_maskx (b : Nat) : b &&& utf8.maskx = b % 64 := Nat.and_pow_two_sub_one_eq_mod b 6

theorem and_mask2 (b : Nat) : b &&& utf8.mask2 = b % 32 := Nat.and_pow_two_sub_one_eq_mod b 5

theorem and_mask3 (b : Nat) : b &&& utf8.mask3 = b % 16 := Nat.and_pow_two_sub_one_eq_mod b 4

theorem and_mask4 (b : Nat) : b &&& utf8.mask4 = b % 8 := Nat.and_pow_two_sub_one_eq_mod b 3

theorem shl_or (a b i : Nat) (h : b < 2 ^ i) : (a <<< i) ||| b = a * 2 ^ i + b := by
  rw [Nat.shiftLeft_eq, Nat.mul_comm, ← Nat.mul_add_lt_is_or h]

/-- The rune of a two-byte sequence, in arithmetic. -/
theorem rune_two (p0 b1 : Nat) :
    ((p0 &&& utf8.mask2) <<< 6) ||| (b1 &&& utf8.maskx) = (p0 % 32) * 64 + b1 % 64 := by
  rw [and_maskx, and_mask2, shl_or _ _ 6 (by omega)]
  omega

/-- The rune of a three-byte sequence, in arithmetic. -/
theorem rune_three (p0 b1 b2 : Nat) :
    ((p0 &&& utf8.mask3) <<< 12) ||| ((b1 &&& utf8.maskx) <<< 6) ||| (b2 &&& utf8.maskx)
      = (p0 % 16) * 4096 + (b1 % 64) * 64 + b2 % 64 := by
  rw [and_maskx, and_maskx, and_mask3, Nat.or_assoc, shl_or (b1 % 64) _ 6 (by omega),
    shl_or _ _ 12 (by omega)]
  omega

/-- The rune of a four-byte sequence, in arithmetic. -/
theorem rune_four (p0 b1 b2 b3 : Nat) :
    ((p0 &&& utf8.mask4) <<< 18) ||| ((b1 &&& utf8.maskx) <<< 12) |||
        ((b2 &&& utf8.maskx) <<< 6) ||| (b3 &&& utf8.maskx)
      = (p0 % 8) * 262144 + (b1 % 64) * 4096 + (b2 % 64) * 64 + b3 % 64 := by
  rw [and_maskx, and_maskx, and_maskx, and_mask4, Nat.or_assoc, Nat.or_assoc,
    shl_or (b2 % 64) _ 6 (by omega), shl_or (b1 % 64) _ 12 (by omega), shl_or _ _ 18 (by omega)]
  omega

/-- Completeness of `utf8.DecodeRune`: in front of any bytes, a complete,
validly encoded character other than `U+FFFD` decodes to a rune other than
`RuneError`, with the length of the character as the width. -/
theorem DecodeRune_valid (v rest : List Nat) (hv : ValidUtf8Char v)
    (hne : v ≠ [0xEF, 0xBF, 0xBD]) :
    ∃ r, r ≠ utf8.RuneError ∧ utf8.DecodeRune (v ++ rest) = (r, (v.length : Int)) := by
  match v, hv, hne with
  | [b0], hv, _ =>
    simp only [ValidUtf8Char] at hv
    refine ⟨b0, by simp only [utf8.RuneError]; omega, ?_⟩
    simpa using DecodeRune_ascii rest hv
  | [b0, b1], hv, _ =>
    simp only [ValidUtf8Char, IsCont] at hv
    refine ⟨(b0 % 32) * 64 + b1 % 64, by simp only [utf8.RuneError]; omega, ?_⟩
    simp only [List.cons_append, List.nil_append]
    rw [DecodeRune_s1 _ ⟨hv.1, hv.2.1⟩, decodeMulti_two, if_neg (by omega), rune_two]
    rfl
  | [b0, b1, b2], hv, hne =>
    simp only [ValidUtf8Char, IsCont] at hv
    have hne' : ¬ (b0 = 0xEF ∧ b1 = 0xBF ∧ b2 = 0xBD) := by
      rintro ⟨rfl, rfl, rfl⟩
      exact hne rfl
    refine ⟨(b0 % 16) * 4096 + (b1 % 64) * 64 + b2 % 64,
      by simp only [utf8.RuneError]; omega, ?_⟩
    simp only [List.cons_append, List.nil_append]
    obtain ⟨h1, h2⟩ := hv
    rcases h1 with ⟨rfl, h⟩ | ⟨ha, hb, h⟩ | ⟨rfl, h⟩ | ⟨ha, hb, h⟩
    · rw [DecodeRune_s2, decodeMulti_three, if_neg (by omega), if_neg (by omega), rune_three]
      rfl
    · rw [DecodeRune_s3 _ (Or.inl ⟨ha, hb⟩), decodeMulti_three, if_neg (by omega),
        if_neg (by omega), rune_three]
      rfl
    · rw [DecodeRune_s4, decodeMulti_three, if_neg (by omega), if_neg (by omega), rune_three]
      rfl
    · rw [DecodeRune_s3 _ (Or.inr ⟨ha, hb⟩), decodeMulti_three, if_neg (by omega),
        if_neg (by omega), rune_three]
      rfl
  | [b0, b1, b2, b3], hv, _ =>
    simp only [ValidUtf8Char, IsCont] at hv
    refine ⟨(b0 % 8) * 262144 + (b1 % 64) * 4096 + (b2 % 64) * 64 + b3 % 64,
      by simp only [utf8.RuneError]; omega, ?_⟩
    simp only [List.cons_append, List.nil_append]
    obtain ⟨h1, h2, h3⟩ := hv
    rcases h1 with ⟨rfl, h⟩ | ⟨ha, hb, h⟩ | ⟨rfl, h⟩
    · rw [DecodeRune_s5, decodeMulti_four, if_neg (by omega), if_neg (by omega),
        if_neg (by omega), rune_four]
      rfl
    · rw [DecodeRune_s6 _ ⟨ha, hb⟩, decodeMulti_four, if_neg (by omega), if_neg (by omega),
        if_neg (by omega), rune_four]
      rfl
    · rw [DecodeRune_s7, decodeMulti_four, if_neg (by omega), if_neg (by omega),
        if_neg (by omega), rune_four]
      rfl
  | [], hv, _ => simp [ValidUtf8Char] at hv
  | _ :: _ :: _ :: _ :: _ :: _, hv, _ => simp [ValidUtf8Char] at hv

theorem runeStart_cont {b : Nat} (h : IsCont b) : utf8.RuneStart b = false := by
  obtain ⟨h1, h2⟩ := h
  have h3 : b ≤ 0xBF := h2
  simp only [utf8.RuneStart]
  interval_cases b <;> rfl

theorem runeStart_lead {b : Nat} (h1 : 0xC0 ≤ b) (h2 : b ≤ 0xFF) : utf8.RuneStart b = true := by
  simp only [utf8.RuneStart]
  interval_cases b <;> rfl

/-- The backward loop of `DecodeLastRune` stops at the last position that
holds a rune start. -/
theorem backToStart_found (p : List Nat) (lim : Nat) :
    ∀ (k j : Nat), j < k → utf8.RuneStart (p.getD (lim + j) 0) = true →
      (∀ i, j < i → i < k → utf8.RuneStart (p.getD (lim + i) 0) = false) →
      utf8.backToStart p (lim : Int) k = ((lim + j : Nat) : Int) := by
  intro k
  induction k with
  | zero => intro j hj; omega
  | succ k ih =>
    intro j hj hstart hrest
    have e : ((lim : Int) + (k : Int)).toNat = lim + k := by omega
    simp only [utf8.backToStart, e]
    by_cases hjk : j = k
    · subst hjk
      rw [if_pos hstart]
      omega
    · rw [if_neg (by rw [hrest k (by omega) (by omega)]; simp)]
      exact ih j (by omega) hstart (fun i h1 h2 => hrest i h1 (by omega))

/-- The function `DecodeLastRune` on a string whose last byte is not ASCII,
given where its backward loop stops. -/
theorem DecodeLastRune_of_start (p : List Nat) (s : Nat) (hne : p ≠ [])
    (hlast : ¬ p.getD (p.length - 1) 0 < 0x80)
    (hs : utf8.backToStart p ((p.length - 4 : Nat) : Int) (p.length - 1 - (p.length - 4))
      = (s : Int)) :
    utf8.DecodeLastRune p =
      if (s : Int) + (utf8.DecodeRune (p.drop s)).2 ≠ p.length then (utf8.RuneError, 1)
      else utf8.DecodeRune (p.drop s) := by
  have hlen : 0 < p.length := List.length_pos.mpr hne
  unfold utf8.DecodeLastRune
  have h1 : ¬ ((p.length : Int) = 0) := by omega
  have h2 : ((p.length : Int) - 1).toNat = p.length - 1 := by omega
  have h3 : (if (p.length : Int) - utf8.UTFMax < 0 then (0 : Int)
      else (p.length : Int) - utf8.UTFMax) = ((p.length - 4 : Nat) : Int) := by
    simp only [utf8.UTFMax]
    split_ifs <;> omega
  have h4 : ((p.length : Int) - 1 - ((p.length - 4 : Nat) : Int)).toNat
      = p.length - 1 - (p.length - 4) := by omega
  simp only [h1, if_false, h2, utf8.RuneSelf, hlast, h3, h4, hs]
  have h5 : ¬ ((s : Int) < 0) := by omega
  simp only [h5, if_false, Int.toNat_ofNat]

/-- Completeness of `utf8.DecodeLastRune`: behind any bytes, a complete,
validly encoded character other than `U+FFFD` decodes to a rune other than
`RuneError`. -/
theorem DecodeLastRune_valid (X v : List Nat) (hv : ValidUtf8Char v)
    (hne : v ≠ [0xEF, 0xBF, 0xBD]) :
    (utf8.DecodeLastRune (X ++ v)).1 ≠ utf8.RuneError := by
  obtain ⟨r, hr, hdec⟩ := DecodeRune_valid v [] hv hne
  rw [List.append_nil] at hdec
  have key : ∀ (lead : Nat) (conts : List Nat), v = lead :: conts → conts ≠ [] →
      conts.length ≤ 3 → 0xC0 ≤ lead → lead ≤ 0xFF → (∀ c ∈ conts, IsCont c) →
      (utf8.DecodeLastRune (X ++ v)).1 ≠ utf8.RuneError := by
    intro lead conts hvl hcne hcl hl1 hl2 hconts
    have hcpos : 0 < conts.length := List.length_pos.mpr hcne
    have hplen : (X ++ v).length = X.length + conts.length + 1 := by
      rw [hvl]; simp; omega
    have hget : ∀ t, (X ++ v).getD (X.length + t) 0 = v.getD t 0 := by
      intro t
      simp [List.getD_eq_getElem?_getD, List.getElem?_append_right]
    have hs : utf8.backToStart (X ++ v) (((X ++ v).length - 4 : Nat) : Int)
        ((X ++ v).length - 1 - ((X ++ v).length - 4)) = (X.length : Int) := by
      have := backToStart_found (X ++ v) ((X ++ v).length - 4)
        ((X ++ v).length - 1 - ((X ++ v).length - 4)) (X.length - ((X ++ v).length - 4))
        (by omega) ?_ ?_
      · rw [this]
        congr 1
        omega
      · have e : (X ++ v).length - 4 + (X.length - ((X ++ v).length - 4)) = X.length + 0 := by
          omega
        rw [e, hget 0, hvl]
        exact runeStart_lead hl1 hl2
      · intro i hi1 hi2
        have e : (X ++ v).length - 4 + i = X.length + (i - (X.length - ((X ++ v).length - 4))) := by
          omega
        obtain ⟨t, ht⟩ : ∃ t, i - (X.length - ((X ++ v).length - 4)) = t + 1 :=
          ⟨i - (X.length - ((X ++ v).length - 4)) - 1, by omega⟩
        rw [e, hget, ht, hvl]
        simp only [List.getD_eq_getElem?_getD, List.getElem?_cons_succ]
        have htl : t < conts.length := by omega
        rw [List.getElem?_eq_getElem htl]
        exact runeStart_cont (hconts _ (List.getElem_mem _))
    have hlast : ¬ (X ++ v).getD ((X ++ v).length - 1) 0 < 0x80 := by
      have e : (X ++ v).length - 1 = X.length + ((conts.length - 1) + 1) := by omega
      rw [e, hget, hvl]
      simp only [List.getD_eq_getElem?_getD, List.getElem?_cons_succ]
      rw [List.getElem?_eq_getElem (by omega)]
      have := hconts _ (List.getElem_mem (l := conts) (n := conts.length - 1) (by omega))
      simp only [IsCont] at this
      simp only [Option.getD_some]
      omega
    rw [DecodeLastRune_of_start (X ++ v) X.length (by rw [hvl]; simp) hlast hs]
    simp only [List.drop_left, hdec]
    rw [if_neg (by simp)]
    exact hr
  match v, hv with
  | [b0], hv =>
    simp only [ValidUtf8Char] at hv
    rw [DecodeLastRune_ascii X b0 hv]
    simp only [utf8.RuneError]
    omega
  | [b0, b1], hv =>
    simp only [ValidUtf8Char] at hv
    exact key b0 [b1] rfl (by simp) (by simp) (by omega) (by omega) (by simpa using hv.2.2)
  | [b0, b1, b2], hv =>
    simp only [ValidUtf8Char] at hv
    refine key b0 [b1, b2] rfl (by simp) (by simp) ?_ ?_ ?_
    · rcases hv.1 with h | h | h | h <;> omega
    · rcases hv.1 with h | h | h | h <;> omega
    · intro c hc
      simp only [List.mem_cons, List.mem_singleton, List.not_mem_nil, or_false] at hc
      rcases hc with rfl | rfl
      · rcases hv.1 with h | h | h | h
        · exact ⟨by omega, by omega⟩
        · exact h.2.2
        · exact ⟨by omega, by omega⟩
        · exact h.2.2
      · exact hv.2
  | [b0, b1, b2, b3], hv =>
    simp only [ValidUtf8Char] at hv
    refine key b0 [b1, b2, b3] rfl (by simp) (by simp) ?_ ?_ ?_
    · rcases hv.1 with h | h | h <;> omega
    · rcases hv.1 with h | h | h <;> omega
    · intro c hc
      simp only [List.mem_cons, List.mem_singleton, List.not_mem_nil, or_false] at hc
      rcases hc with rfl | rfl | rfl
      · rcases hv.1 with h | h | h
        · exact ⟨by omega, by omega⟩
        · exact h.2.2
        · exact ⟨by omega, by omega⟩
      · exact hv.2.1
      · exact hv.2.2
  | [], hv => simp [ValidUtf8Char] at hv
  | _ :: _ :: _ :: _ :: _ :: _, hv => simp [ValidUtf8Char] at hv

/-! ## An incomplete character at the end never decodes -/

theorem valid_length {c : List Nat} (h : ValidUtf8Char c) : 1 ≤ c.length ∧ c.length ≤ 4 := by
  match c, h with
  | [_], _ => simp
  | [_, _], _ => simp
  | [_, _, _], _ => simp
  | [_, _, _, _], _ => simp
  | [], h => simp [ValidUtf8Char] at h
  | _ :: _ :: _ :: _ :: _ :: _, h => simp [ValidUtf8Char] at h

/-- No byte string ends both with a complete character and with a non-empty
proper prefix of a complete character. -/
theorem valid_suffix_conflict (X Y pre suf v : List Nat) (hpre : pre ≠ []) (hsuf : suf ≠ [])
    (hc : ValidUtf8Char (pre ++ suf)) (hv : ValidUtf8Char v) (heq : X ++ pre = Y ++ v) :
    False := by
  have hrev := congrArg List.reverse heq
  have hlen := (valid_length hc).2
  rcases pre with _ | ⟨a, _ | ⟨b, _ | ⟨c, _ | ⟨d, pt⟩⟩⟩⟩
  · exact hpre rfl
  all_goals
    rcases suf with _ | ⟨e, _ | ⟨f, _ | ⟨g, _ | ⟨h, st⟩⟩⟩⟩
    · exact hsuf rfl
    all_goals
      simp only [List.length_append, List.length_cons, List.length_nil] at hlen
      first
      | omega
      | (rcases v with _ | ⟨x, _ | ⟨y, _ | ⟨z, _ | ⟨u, _ | ⟨u', vt⟩⟩⟩⟩⟩
         all_goals
           simp only [ValidUtf8Char, IsCont, List.cons_append, List.nil_append,
             List.reverse_append, List.reverse_cons, List.reverse_nil, List.append_assoc,
             List.singleton_append, List.cons.injEq] at hc hv hrev
         all_goals omega)

/-- A byte string that ends with a non-empty proper prefix of a complete
character does not decode at its end. -/
theorem DecodeLastRune_incomplete (X pre suf : List Nat) (hpre : pre ≠ []) (hsuf : suf ≠ [])
    (hc : ValidUtf8Char (pre ++ suf)) :
    (utf8.DecodeLastRune (X ++ pre)).1 = utf8.RuneError := by
  by_contra h
  obtain ⟨_, Y, v, heq, hv⟩ := DecodeLastRune_sound _ h
  exact valid_suffix_conflict X Y pre suf v hpre hsuf hc hv heq

/-! ## C3: round trip -/

/-- Without a latched error and with `r = 0`, when the buffered region is one
or more complete characters other than `U+FFFD` followed by a proper prefix of
a character, `ReadData` returns the complete characters and keeps the
prefix. -/
theorem emit_good {σ : Type} (b : Reader σ) (hwf : b.WF) (hr : b.r = 0) (he : b.err = none)
    (reads : List ReadResult) (chars : List (List Nat)) (held : List Nat) (hne : chars ≠ [])
    (hgood : ∀ c ∈ chars, GoodChar c) (hinc : IncompleteChar held)
    (hwin : b.window = chars.flatten ++ held) :
    b.emit reads = .ret (chars.flatten, none) { b with r := chars.flatten.length } reads ∧
      ({ b with r := chars.flatten.length } : Reader σ).window = held := by
  have hw := window_of_r_zero hr
  rw [hw] at hwin
  obtain ⟨h0, h1, h2⟩ := hwf
  have hlen : b.w.toNat = chars.flatten.length + held.length := by
    have := congrArg List.length hwin
    simp only [List.length_take, List.length_append] at this
    omega
  have htake : ∀ j, j ≤ b.w.toNat → b.buf.take j = (chars.flatten ++ held).take j := by
    intro j hj
    rw [← hwin, List.take_take]
    congr 1
    omega
  -- the complete characters decode at their end
  have hL : (utf8.DecodeLastRune (b.buf.take chars.flatten.length)).1 ≠ utf8.RuneError := by
    rw [htake _ (by omega), List.take_left]
    have hsplit : chars.flatten = chars.dropLast.flatten ++ chars.getLast hne := by
      conv_lhs => rw [← List.dropLast_append_getLast hne]
      simp
    rw [hsplit]
    have hg := hgood _ (List.getLast_mem hne)
    exact DecodeLastRune_valid _ _ hg.1 hg.2
  -- nothing longer does
  have hbad : ∀ j, chars.flatten.length < j → j ≤ b.w.toNat →
      (utf8.DecodeLastRune (b.buf.take j)).1 = utf8.RuneError := by
    intro j hj1 hj2
    obtain ⟨suf, hsuf, hv⟩ := hinc
    rw [htake j hj2, List.take_append_eq_append_take,
      List.take_of_length_le (by omega : chars.flatten.length ≤ j)]
    refine DecodeLastRune_incomplete _ _ (held.drop (j - chars.flatten.length) ++ suf) ?_ ?_ ?_
    · intro hnil
      have := congrArg List.length hnil
      simp only [List.length_take, List.length_nil] at this
      omega
    · simp [hsuf]
    · rw [← List.append_assoc, List.take_append_drop]
      exact hv
  rcases emit_scan b ⟨h0, h1, h2⟩ hr he reads with ⟨_, hall⟩ | ⟨m, hm0, hmw, hret, hmgood, hall⟩
  · exact absurd (hall _ (by omega)) hL
  · have hm : m = chars.flatten.length := by
      by_contra hne'
      rcases Nat.lt_or_gt_of_ne hne' with hlt | hgt
      · exact hL (hall _ hlt (by omega))
      · exact hmgood (hbad m hgt (by omega))
    subst hm
    refine ⟨by rw [hret, htake _ (by omega), List.take_left], ?_⟩
    simp only [Reader.window, Int.toNat_ofNat]
    have e : (b.w - (chars.flatten.length : Int)).toNat = b.w.toNat - chars.flatten.length := by
      omega
    rw [e, ← List.drop_take, hwin, List.drop_left]

theorem readUntilErr_ret_nil {σ : Type} (rd : σ → Nat → ReadResult × σ) (k : Nat)
    (b b1 : Reader σ) (line : List Nat) (reads : List ReadResult)
    (h : b.ReadData rd = .ret (line, none) b1 reads) :
    readUntilErr rd (k + 1) b = (readUntilErr rd k b1).prepend line := by
  simp only [readUntilErr, h]

theorem readUntilErr_ret_err {σ : Type} (rd : σ → Nat → ReadResult × σ) (k : Nat)
    (b b1 : Reader σ) (line : List Nat) (e : Error) (reads : List ReadResult)
    (h : b.ReadData rd = .ret (line, some e) b1 reads) :
    readUntilErr rd (k + 1) b = .done [line] e b1 := by
  simp only [readUntilErr, h]

/-- From a state that holds `held` unreturned with no latched error, over the
test source with the reads `chunks` left, when every read completes at least
one character: calling `ReadData` until it returns an error takes one call per
read and one more, ends with `io.EOF`, and returns `held` followed by all the
bytes of `chunks`. -/
theorem readUntilErr_good (cap : Nat) (hcap : 0 < cap) :
    ∀ (held : List Nat) (chunks : List (List Nat)), ReadsCompleteChars cap held chunks →
      ∀ b : Reader (List (List Nat)), b.WF → b.err = none → b.window = held →
        b.buf.length = cap → b.rd = .other chunks →
        ∃ rets b', readUntilErr chunkSource (chunks.length + 1) b = .done rets Error.EOF b' ∧
          rets.flatten = held ++ chunks.flatten ∧ rets.length = chunks.length + 1 := by
  intro held chunks h
  induction h with
  | done =>
    intro b hwf he hwin hl hrd
    have hwl := window_length b hwf
    rw [hwin] at hwl
    simp only [List.length_nil] at hwl
    have hfr : b.free = cap := by
      simp only [Reader.free, hl]; omega
    have hread : b.rd.Read chunkSource b.free = (⟨0, [], some Error.EOF⟩, .other []) := by
      rw [hrd]; rfl
    obtain ⟨b1, ht, hr1, hwf1, _, _, hwin1, _, he1⟩ :=
      topUp_one_read chunkSource b hwf (by have := hwf.2.1; omega) (by rw [hread])
        (by rw [hread]; simp) (by rw [hread]; rfl) (Or.inl (by rw [hread]; simp))
    rw [hread] at ht hwin1 he1
    simp only [hwin, List.append_nil, ne_eq, reduceCtorEq, not_false_eq_true, if_true]
      at hwin1 he1
    refine ⟨[[]], { b1 with r := b1.w, err := none }, ?_, by simp, by simp⟩
    apply readUntilErr_ret_err chunkSource _ b _ [] Error.EOF [⟨0, [], some Error.EOF⟩]
    simp only [Reader.ReadData, ht]
    rw [emit_err b1 hwf1 Error.EOF he1, hwin1]
  | read held chunk rest chars held' hchunk hchars hgood hinc hsplit hfit _ ih =>
    intro b hwf he hwin hl hrd
    have hwl := window_length b hwf
    rw [hwin] at hwl
    have hcpos : 0 < chunk.length := List.length_pos.mpr hchunk
    simp only [List.length_append] at hfit
    have hfr : b.free = cap - held.length := by
      simp only [Reader.free, hl, hwl]
    have hread : b.rd.Read chunkSource b.free = (⟨chunk.length, chunk, none⟩, .other rest) := by
      rw [hrd]
      simp only [IOReader.Read, chunkSource]
      have e1 : chunk.take b.free = chunk := List.take_of_length_le (by omega)
      have e2 : ¬ b.free < chunk.length := by omega
      rw [e1, if_neg e2]
    obtain ⟨b1, ht, hr1, hwf1, hw1, hl1, hwin1, hrd1, he1⟩ :=
      topUp_one_read chunkSource b hwf (by rw [hl]; omega) (by rw [hread]; simp)
        (by rw [hread]; simp only; omega) (by rw [hread])
        (Or.inr (by rw [hread]; simp only; omega))
    rw [hread] at ht hwin1 hrd1 he1
    simp only [hwin, hsplit, ne_eq, not_true_eq_false, if_false, he] at hwin1 hrd1 he1
    dsimp only at ht
    obtain ⟨hemit, hwin2⟩ :=
      emit_good b1 hwf1 hr1 he1 [⟨chunk.length, chunk, none⟩] chars held' hchars hgood hinc hwin1
    have hwf2 : Reader.WF ({ b1 with r := chars.flatten.length } : Reader (List (List Nat))) := by
      have hwl1 := window_length b1 hwf1
      rw [hwin1, hr1] at hwl1
      simp only [List.length_append, sub_zero] at hwl1
      have g1 := hwf1.2.1
      exact ⟨by simp only; omega, by simp only; omega, hwf1.2.2⟩
    obtain ⟨rets, b', hrun, hflat, hcnt⟩ :=
      ih { b1 with r := chars.flatten.length } hwf2 he1 hwin2 (by rw [← hl, ← hl1]) hrd1
    refine ⟨chars.flatten :: rets, b', ?_, ?_, by simp [hcnt]⟩
    · have hcall : b.ReadData chunkSource = .ret (chars.flatten, none)
          { b1 with r := chars.flatten.length } [⟨chunk.length, chunk, none⟩] := by
        simp only [Reader.ReadData, ht, hemit]
      rw [List.length_cons, readUntilErr_ret_nil chunkSource _ b _ _ _ hcall, hrun]
      rfl
    · simp only [List.flatten_cons, hflat, ← List.append_assoc, hsplit]

/-- Counterexample to C3 as stated: `U+1F600` (bytes `F0 9F 98 80`, valid
UTF-8) delivered as two reads of two bytes to a fresh reader of capacity 16,
followed by end-of-stream.  The first call of `ReadData` panics with "no utf8
char found", so calling `ReadData` until it returns an error does not return
normally and the four bytes are never emitted. -/
theorem C3_counterexample :
    ValidUtf8Char [0xF0, 0x9F, 0x98, 0x80] ∧
    Reader.ReadData chunkSource (NewReaderSize (.other [[0xF0, 0x9F], [0x98, 0x80]]) 16) =
      .panic Panic.noUtf8CharFound
        { buf := [0xF0, 0x9F, 0, 0, 0, 0, 0, 0, 0, 0, 0, 0, 0, 0, 0, 0],
          rd := .other [[0x98, 0x80]], r := 0, w := 2, err := none }
        [⟨2, [0xF0, 0x9F], none⟩] ∧
    readUntilErr chunkSource 3 (NewReaderSize (.other [[0xF0, 0x9F], [0x98, 0x80]]) 16) =
      .panicked Panic.noUtf8CharFound [] := by
  refine ⟨?_, by decide, by decide⟩
  simp [ValidUtf8Char, IsCont]

/-- C3, amended.  For every requested size and every splitting of a byte
sequence into non-empty source reads, followed by end-of-stream, in which the
sequence is made of complete, validly encoded characters other than `U+FFFD`
and every read, together with the bytes held back before it, holds at least
one complete character and fits in the buffer: calling `ReadData` on the fresh
reader until it returns an error returns normally (no panic) after one call
per read and one more, ends with `io.EOF`, and the concatenation of the
returned chunks is the original sequence.  For `U+1F600` delivered as two
reads of two bytes with capacity 16, the first `ReadData` emits no chunk: it
panics with "no utf8 char found"; delivered in one read, the four bytes are
emitted together. -/
theorem C3_round_trip (size : Int) (chunks : List (List Nat))
    (h : ReadsCompleteChars
      (if size < minReadBufferSize then minReadBufferSize else size).toNat [] chunks) :
    (∃ rets b, readUntilErr chunkSource (chunks.length + 1) (NewReaderSize (.other chunks) size)
        = .done rets Error.EOF b ∧ rets.flatten = chunks.flatten ∧
        rets.length = chunks.length + 1) ∧
    Reader.ReadData chunkSource (NewReaderSize (.other [[0xF0, 0x9F], [0x98, 0x80]]) 16) =
      .panic Panic.noUtf8CharFound
        { buf := [0xF0, 0x9F, 0, 0, 0, 0, 0, 0, 0, 0, 0, 0, 0, 0, 0, 0],
          rd := .other [[0x98, 0x80]], r := 0, w := 2, err := none }
        [⟨2, [0xF0, 0x9F], none⟩] ∧
    Reader.ReadData chunkSource (NewReaderSize (.other [[0xF0, 0x9F, 0x98, 0x80]]) 16) =
      .ret ([0xF0, 0x9F, 0x98, 0x80], none)
        { buf := [0xF0, 0x9F, 0x98, 0x80, 0, 0, 0, 0, 0, 0, 0, 0, 0, 0, 0, 0],
          rd := .other [], r := 4, w := 4, err := none }
        [⟨4, [0xF0, 0x9F, 0x98, 0x80], none⟩] := by
  refine ⟨?_, by decide, by decide⟩
  obtain ⟨hwf0, hwin0⟩ := NewReaderSize_alloc_wf (.other chunks) size trivial
  have hb0 := NewReaderSize_alloc (.other chunks) size trivial
  have hcap : 0 < (if size < minReadBufferSize then minReadBufferSize else size).toNat := by
    simp only [minReadBufferSize]; split_ifs <;> omega
  obtain ⟨rets, b', hrun, hflat, hcnt⟩ :=
    readUntilErr_good _ hcap [] chunks h (NewReaderSize (.other chunks) size) hwf0
      (by rw [hb0]) hwin0 (by rw [hb0]; simp) (by rw [hb0])
  exact ⟨rets, b', hrun, by simpa using hflat, hcnt⟩

/-- Witness of C3, amended: `"a😀b"` delivered as the reads `61 F0 9F` and
`98 80 62` to a fresh reader of capacity 16; the calls return `"a"`, `"😀b"` and
then the empty chunk with `io.EOF`. -/
theorem C3_round_trip_witness :
    (∃ rets b, readUntilErr chunkSource ([[0x61, 0xF0, 0x9F], [0x98, 0x80, 0x62]].length + 1)
        (NewReaderSize (.other [[0x61, 0xF0, 0x9F], [0x98, 0x80, 0x62]]) 16)
        = .done rets Error.EOF b ∧
        rets.flatten = [[0x61, 0xF0, 0x9F], [0x98, 0x80, 0x62]].flatten ∧
        rets.length = [[0x61, 0xF0, 0x9F], [0x98, 0x80, 0x62]].length + 1) ∧
    Reader.ReadData chunkSource (NewReaderSize (.other [[0xF0, 0x9F], [0x98, 0x80]]) 16) =
      .panic Panic.noUtf8CharFound
        { buf := [0xF0, 0x9F, 0, 0, 0, 0, 0, 0, 0, 0, 0, 0, 0, 0, 0, 0],
          rd := .other [[0x98, 0x80]], r := 0, w := 2, err := none }
        [⟨2, [0xF0, 0x9F], none⟩] ∧
    Reader.ReadData chunkSource (NewReaderSize (.other [[0xF0, 0x9F, 0x98, 0x80]]) 16) =
      .ret ([0xF0, 0x9F, 0x98, 0x80], none)
        { buf := [0xF0, 0x9F, 0x98, 0x80, 0, 0, 0, 0, 0, 0, 0, 0, 0, 0, 0, 0],
          rd := .other [], r := 4, w := 4, err := none }
        [⟨4, [0xF0, 0x9F, 0x98, 0x80], none⟩] :=
  C3_round_trip 16 [[0x61, 0xF0, 0x9F], [0x98, 0x80, 0x62]]
    (.read [] [0x61, 0xF0, 0x9F] [[0x98, 0x80, 0x62]] [[0x61]] [0xF0, 0x9F]
      (by decide) (by decide) (by decide) ⟨[0x98, 0x80], by decide, by decide⟩ rfl (by decide)
      (.read [0xF0, 0x9F] [0x98, 0x80, 0x62] [] [[0xF0, 0x9F, 0x98, 0x80], [0x62]] []
        (by decide) (by decide) (by decide) ⟨[0x61], by decide, by decide⟩ rfl (by decide)
        .done))

/-! ## C4: the largest safe cut and `U+FFFD` -/

/-- C4 at the failing input.  A fresh reader of capacity 16 whose source
delivers `"a"` followed by `U+FFFD` (bytes `61 EF BF BD`) in one read, with no
error: the whole buffered region ends with the complete, validly encoded
character `EF BF BD`, yet `ReadData` cuts before it and returns only `"a"`
(`r = 1`, `w = 4`); and when the source delivers `EF BF BD` alone, `ReadData`
panics with "no utf8 char found". -/
theorem C4_replacement_char_cut :
    ValidUtf8Char [0xEF, 0xBF, 0xBD] ∧
    utf8.DecodeLastRune [0x61, 0xEF, 0xBF, 0xBD] = (utf8.RuneError, 3) ∧
    Reader.ReadData chunkSource (NewReaderSize (.other [[0x61, 0xEF, 0xBF, 0xBD]]) 16) =
      .ret ([0x61], none)
        { buf := [0x61, 0xEF, 0xBF, 0xBD, 0, 0, 0, 0, 0, 0, 0, 0, 0, 0, 0, 0],
          rd := .other [], r := 1, w := 4, err := none }
        [⟨4, [0x61, 0xEF, 0xBF, 0xBD], none⟩] ∧
    Reader.ReadData chunkSource (NewReaderSize (.other [[0xEF, 0xBF, 0xBD]]) 16) =
      .panic Panic.noUtf8CharFound
        { buf := [0xEF, 0xBF, 0xBD, 0, 0, 0, 0, 0, 0, 0, 0, 0, 0, 0, 0, 0],
          rd := .other [], r := 0, w := 3, err := none }
        [⟨3, [0xEF, 0xBF, 0xBD], none⟩] := by
  decide

/-! ## C11: the cursor invariant -/

theorem IOReader.Read_le {σ : Type} {rd : σ → Nat → ReadResult × σ} (hrd : CountInRange rd)
    (src : IOReader σ) (len : Nat) : (src.Read rd len).1.n ≤ len := by
  cases src with
  | other s => exact (hrd s len).2
  | ptrReader buf src r w err => simp [IOReader.Read, Reader.Read]

/-- The loop of `fill`, for counts within range: when it returns, `w` has not
moved back and is within the buffer. -/
theorem fillLoop_w {σ : Type} {rd : σ → Nat → ReadResult × σ} (hrd : CountInRange rd) :
    ∀ (i : Nat) (b b' : Reader σ) (reads : List ReadResult), 0 ≤ b.w → b.w ≤ b.buf.length →
      fillLoop rd i b = .ret () b' reads → b.w ≤ b'.w ∧ b'.w ≤ b.buf.length := by
  intro i
  induction i with
  | zero =>
    intro b b' reads h0 h1 h
    simp only [fillLoop, Outcome.ret.injEq] at h
    obtain ⟨_, h, _⟩ := h
    subst h
    exact ⟨le_refl _, h1⟩
  | succ i ih =>
    intro b b' reads h0 h1 h
    have hle := IOReader.Read_le hrd b.rd (b.buf.length - b.w.toNat)
    rw [fillLoop_succ rd i b h0 h1] at h
    have hlen : (b.buf.take b.w.toNat ++ copy (b.buf.drop b.w.toNat)
        (b.rd.Read rd (b.buf.length - b.w.toNat)).1.data).length = b.buf.length := by
      simp only [List.length_append, copy_length, List.length_take, List.length_drop]
      omega
    split_ifs at h with h2 h3 h4
    · simp only [Outcome.ret.injEq] at h
      obtain ⟨_, h, _⟩ := h
      subst h
      exact ⟨by simp only; omega, by simp only; omega⟩
    · simp only [Outcome.ret.injEq] at h
      obtain ⟨_, h, _⟩ := h
      subst h
      exact ⟨by simp only; omega, by simp only; omega⟩
    · obtain ⟨reads0, h0', _⟩ := addRead_ret h
      have := ih _ _ _ (by simp only; omega) (by simp only [hlen]; omega) h0'
      simp only [hlen] at this
      omega

/-- The method `fill`, for counts within range, on a state within the cursor
invariant: when it returns, the state is within the invariant with `r = 0`
and the buffer has kept its length. -/
theorem fill_wf {σ : Type} {rd : σ → Nat → ReadResult × σ} (hrd : CountInRange rd)
    (b b' : Reader σ) (reads : List ReadResult) (hwf : b.WF) (h : b.fill rd = .ret () b' reads) :
    b'.WF ∧ b'.r = 0 ∧ b'.buf.length = b.buf.length := by
  have h0 := hwf.1
  have h1 := hwf.2.1
  have h2 := hwf.2.2
  by_cases hfree : b.w - b.r < b.buf.length
  · rw [fill_eq rd b hwf hfree] at h
    have hsw := slid_w b h0
    have hsl := slid_length b
    have hsr := slid_r b h0
    obtain ⟨hr, hl⟩ := fillLoop_r rd _ _ _ _ h
    obtain ⟨hw1, hw2⟩ := fillLoop_w hrd _ _ _ _ (by rw [hsw]; omega) (by rw [hsw, hsl]; omega) h
    rw [hsr] at hr
    rw [hsl] at hl hw2
    exact ⟨⟨by omega, by omega, by omega⟩, hr, hl⟩
  · exfalso
    have hr0 : ¬ b.r > 0 := by omega
    unfold Reader.fill at h
    simp only [if_neg hr0] at h
    rw [if_pos (by omega)] at h
    cases h

/-- The first statement of `ReadData`, for counts within range, on a state
within the cursor invariant: when it returns, the state is within the
invariant with `r = 0`. -/
theorem topUp_wf {σ : Type} {rd : σ → Nat → ReadResult × σ} (hrd : CountInRange rd)
    (b b' : Reader σ) (reads : List ReadResult) (hwf : b.WF)
    (h : b.topUp rd = .ret () b' reads) : b'.WF ∧ b'.r = 0 := by
  unfold Reader.topUp at h
  split_ifs at h with hfree
  · obtain ⟨h1, h2, _⟩ := fill_wf hrd b b' reads hwf h
    exact ⟨h1, h2⟩
  · simp only [Outcome.ret.injEq] at h
    obtain ⟨_, h, _⟩ := h
    subst h
    simp only [Reader.Buffered] at hfree
    have := hwf.1
    have := hwf.2.1
    have := hwf.2.2
    exact ⟨hwf, by omega⟩

/-- Whenever `ReadData` returns, for any source and from any state, the state
afterwards is within the cursor invariant and the buffer has kept its
length. -/
theorem ReadData_ret_wf {σ : Type} (rd : σ → Nat → ReadResult × σ) (b b' : Reader σ)
    (v : List Nat × Option Error) (reads : List ReadResult)
    (h : b.ReadData rd = .ret v b' reads) : b'.WF ∧ b'.buf.length = b.buf.length := by
  unfold Reader.ReadData at h
  cases ht : b.topUp rd with
  | panic p b1 reads1 => simp [ht] at h
  | ret u b1 reads1 =>
    simp only [ht] at h
    have hl := topUp_length rd b b1 reads1 ht
    obtain ⟨line, e⟩ := v
    cases e with
    | some e =>
      obtain ⟨hwf1, _, hb', _, _⟩ := emit_ret_err h
      have := hwf1.1
      have := hwf1.2.1
      have := hwf1.2.2
      rw [hb']
      exact ⟨⟨by simp only; omega, le_refl _, by simp only; omega⟩, hl⟩
    | none =>
      obtain ⟨hwf1, he⟩ := emit_ret_nil h
      have hr := topUp_r_zero rd b b1 reads1 ht hwf1
      rcases emit_scan b1 hwf1 hr he reads1 with ⟨hp, _⟩ | ⟨m, hm0, hmw, hret, _, _⟩
      · rw [hp] at h
        cases h
      · rw [hret] at h
        simp only [Outcome.ret.injEq] at h
        obtain ⟨_, hb', _⟩ := h
        rw [← hb']
        exact ⟨⟨by simp only; omega, by simp only; omega, hwf1.2.2⟩, hl⟩

/-- Any number of calls of `ReadData` that return, for any source and from any
state: after at least one call the state is within the cursor invariant, and
the buffer keeps its length throughout. -/
theorem readDataN_wf {σ : Type} (rd : σ → Nat → ReadResult × σ) :
    ∀ (k : Nat) (b0 : Reader σ), b0.WF →
      ∀ rets b reads, readDataN rd k b0 = some (rets, b, reads) →
        b.WF ∧ b.buf.length = b0.buf.length := by
  intro k
  induction k with
  | zero =>
    intro b0 hwf rets b reads h
    simp only [readDataN, Option.some.injEq, Prod.mk.injEq] at h
    obtain ⟨_, h2, _⟩ := h
    subst h2
    exact ⟨hwf, rfl⟩
  | succ k ih =>
    intro b0 hwf rets b reads h
    simp only [readDataN] at h
    cases hcall : b0.ReadData rd with
    | panic p b1 reads1 => simp [hcall] at h
    | ret v b1 reads1 =>
      simp only [hcall] at h
      obtain ⟨hwf1, hl1⟩ := ReadData_ret_wf rd b0 b1 v reads1 hcall
      cases hrest : readDataN rd k b1 with
      | none => simp [hrest] at h
      | some t =>
        obtain ⟨vs, b2, reads2⟩ := t
        simp only [hrest, Option.some.injEq, Prod.mk.injEq] at h
        obtain ⟨_, h2, _⟩ := h
        subst h2
        obtain ⟨hwf2, hl2⟩ := ih b1 hwf1 vs b2 reads2 hrest
        exact ⟨hwf2, by rw [hl2, hl1]⟩

/-- C11 (cursor invariant).  For every reader allocated by `NewReaderSize` and
every source whose reads answer a count `n` with `0 ≤ n ≤ len(p)`: the state
satisfies `0 ≤ r ≤ w ≤ len(buf)` after construction, after every `ReadData`
call that returns, and after every `fill` that returns from such a state; and
`len(buf)` stays what it was at construction. -/
theorem C11_cursor_invariant {σ : Type} (rd : σ → Nat → ReadResult × σ)
    (hrd : CountInRange rd) (src : IOReader σ) (size : Int) (halloc : Allocates src size) :
    (NewReaderSize src size).WF ∧
      ∀ (k : Nat) (rets : List (List Nat × Option Error)) (b : Reader σ)
        (reads : List ReadResult),
        readDataN rd k (NewReaderSize src size) = some (rets, b, reads) →
        b.WF ∧ b.buf.length = (NewReaderSize src size).buf.length ∧
          ∀ (b' : Reader σ) (reads' : List ReadResult), b.fill rd = .ret () b' reads' →
            b'.WF ∧ b'.buf.length = (NewReaderSize src size).buf.length := by
  obtain ⟨hwf0, _⟩ := NewReaderSize_alloc_wf src size halloc
  refine ⟨hwf0, ?_⟩
  intro k rets b reads h
  obtain ⟨hwf, hl⟩ := readDataN_wf rd k _ hwf0 rets b reads h
  refine ⟨hwf, hl, ?_⟩
  intro b' reads' hf
  obtain ⟨hwf', _, hl'⟩ := fill_wf hrd b b' reads' hwf hf
  exact ⟨hwf', by rw [hl', hl]⟩

theorem chunkSource_count : CountInRange chunkSource := by
  intro s len
  exact ⟨(chunkSource_ok s len).1, (chunkSource_ok s len).2.1⟩

/-- Witness of C11: a reader of 16 bytes over a source that delivers `"ab"` and
then end-of-stream, after construction and after two calls of `ReadData`. -/
theorem C11_cursor_invariant_witness :
    (NewReaderSize (.other [[0x61, 0x62]]) 16 : Reader (List (List Nat))).WF ∧
      Reader.WF
        ({ buf := [0x61, 0x62, 0, 0, 0, 0, 0, 0, 0, 0, 0, 0, 0, 0, 0, 0], rd := .other [],
           r := 0, w := 0, err := none } : Reader (List (List Nat))) ∧
      ([0x61, 0x62, 0, 0, 0, 0, 0, 0, 0, 0, 0, 0, 0, 0, 0, 0] : List Nat).length =
        (NewReaderSize (.other [[0x61, 0x62]]) 16 : Reader (List (List Nat))).buf.length :=
  ⟨(C11_cursor_invariant chunkSource chunkSource_count (.other [[0x61, 0x62]]) 16 trivial).1,
    ((C11_cursor_invariant chunkSource chunkSource_count (.other [[0x61, 0x62]]) 16 trivial).2 2
      [([0x61, 0x62], none), ([], some Error.EOF)]
      { buf := [0x61, 0x62, 0, 0, 0, 0, 0, 0, 0, 0, 0, 0, 0, 0, 0, 0], rd := .other [],
        r := 0, w := 0, err := none }
      [⟨2, [0x61, 0x62], none⟩, ⟨0, [], some Error.EOF⟩] (by decide)).1,
    ((C11_cursor_invariant chunkSource chunkSource_count (.other [[0x61, 0x62]]) 16 trivial).2 2
      [([0x61, 0x62], none), ([], some Error.EOF)]
      { buf := [0x61, 0x62, 0, 0, 0, 0, 0, 0, 0, 0, 0, 0, 0, 0, 0, 0], rd := .other [],
        r := 0, w := 0, err := none }
      [⟨2, [0x61, 0x62], none⟩, ⟨0, [], some Error.EOF⟩] (by decide)).2.1⟩

/-! ## C12: construction -/

/-- Counterexample to C12 as stated: the source is itself a `*Reader` with a
buffer of 32 bytes, cursors `r = 1`, `w = 2` and `io.EOF` latched, and the
requested capacity is 20.  `NewReaderSize` returns that very reader: its buffer
has 32 bytes, not `max(20, 16) = 20`; `r` and `w` are not 0; an error is
pending; and it reads from the source of the inner reader, not from the reader
it was given. -/
theorem C12_counterexample :
    (NewReaderSize (.ptrReader (List.replicate 32 0) (.other ()) 1 2 (some Error.EOF)) 20
        : Reader Unit) =
      { buf := List.replicate 32 0, rd := .other (), r := 1, w := 2, err := some Error.EOF } ∧
    (NewReaderSize (.ptrReader (List.replicate 32 0) (.other ()) 1 2 (some Error.EOF)) 20
        : Reader Unit).buf.length = 32 ∧
    (if (20 : Int) < minReadBufferSize then minReadBufferSize else 20).toNat = 20 := by
  decide

/-- C12, amended.  For every requested capacity and every source that is not a
`*Reader` whose buffer already has that many bytes, `NewReaderSize` yields a
reader whose buffer has `max(capacity, 16)` bytes, with `r = w = 0` and no
pending error, that reads from the given source, left in the state it was in
(constructing performs no read).  When the source is a `*Reader` whose buffer
has at least `capacity` bytes, `NewReaderSize` returns that reader itself, as
it is. -/
theorem C12_construction {σ : Type} (src : IOReader σ) (size : Int) :
    (Allocates src size →
      (NewReaderSize src size).buf.length = (max size 16).toNat ∧
      (NewReaderSize src size).r = 0 ∧ (NewReaderSize src size).w = 0 ∧
      (NewReaderSize src size).err = none ∧ (NewReaderSize src size).rd = src) ∧
    (∀ (buf : List Nat) (rd : IOReader σ) (r w : Int) (err : Option Error),
      src = .ptrReader buf rd r w err → (buf.length : Int) ≥ size →
      NewReaderSize src size = { buf := buf, rd := rd, r := r, w := w, err := err }) := by
  refine ⟨?_, ?_⟩
  · intro halloc
    rw [NewReaderSize_alloc src size halloc]
    refine ⟨?_, rfl, rfl, rfl, rfl⟩
    simp only [List.length_replicate, minReadBufferSize]
    congr 1
    split_ifs <;> omega
  · intro buf rd r w err hsrc hge
    subst hsrc
    simp only [NewReaderSize]
    rw [if_pos hge]

/-- Witness of C12, amended: requested capacity 8 over a source that is not a
`*Reader`, and requested capacity 20 over a `*Reader` with 32 bytes. -/
theorem C12_construction_witness :
    ((NewReaderSize (.other ()) 8 : Reader Unit).buf.length = (max (8 : Int) 16).toNat ∧
      (NewReaderSize (.other ()) 8 : Reader Unit).r = 0 ∧
      (NewReaderSize (.other ()) 8 : Reader Unit).w = 0 ∧
      (NewReaderSize (.other ()) 8 : Reader Unit).err = none ∧
      (NewReaderSize (.other ()) 8 : Reader Unit).rd = .other ()) ∧
    (NewReaderSize (.ptrReader (List.replicate 32 0) (.other ()) 1 2 (some Error.EOF)) 20
        : Reader Unit) =
      { buf := List.replicate 32 0, rd := .other (), r := 1, w := 2, err := some Error.EOF } :=
  ⟨(C12_construction (.other ()) 8).1 trivial,
    (C12_construction (.ptrReader (List.replicate 32 0) (.other ()) 1 2 (some Error.EOF)) 20).2
      _ _ _ _ _ rfl (by decide)⟩

/-! ## C13: negative read counts -/

theorem addRead_panic {σ α : Type} {res : ReadResult} {o : Outcome σ α} {p : Panic}
    {b : Reader σ} {reads : List ReadResult} (h : o.addRead res = .panic p b reads) :
    ∃ reads0, o = .panic p b reads0 ∧ reads = res :: reads0 := by
  cases o with
  | ret v0 b0 reads0 => simp [Outcome.addRead] at h
  | panic p0 b0 reads0 =>
    simp only [Outcome.addRead, Outcome.panic.injEq] at h
    obtain ⟨h1, h2, h3⟩ := h
    subst h1 h2
    exact ⟨reads0, rfl, h3.symm⟩

/-- The loop of `fill` panics with `errNegativeRead` only after a read that
answered a negative count, and never with "tried to fill full buffer" or "no
utf8 char found". -/
theorem fillLoop_panic {σ : Type} (rd : σ → Nat → ReadResult × σ) :
    ∀ (i : Nat) (b b' : Reader σ) (p : Panic) (reads : List ReadResult),
      fillLoop rd i b = .panic p b' reads →
      p = Panic.sliceBounds ∨ (p = Panic.errNegativeRead ∧ ∃ res ∈ reads, res.n < 0) := by
  intro i
  induction i with
  | zero =>
    intro b b' p reads h
    simp [fillLoop] at h
  | succ i ih =>
    intro b b' p reads h
    simp only [fillLoop] at h
    cases hs : slice b.buf b.w b.buf.length with
    | none =>
      simp only [hs, Outcome.panic.injEq] at h
      exact Or.inl h.1.symm
    | some q =>
      simp only [hs] at h
      split_ifs at h with h1 h2 h3
      · simp only [Outcome.panic.injEq] at h
        obtain ⟨hp, _, hr⟩ := h
        right
        refine ⟨hp.symm, _, ?_, h1⟩
        rw [← hr]
        exact List.mem_singleton.mpr rfl
      · obtain ⟨reads0, h0, hr⟩ := addRead_panic h
        rcases ih _ _ _ _ h0 with hp | ⟨hp, res, hmem, hneg⟩
        · exact Or.inl hp
        · exact Or.inr ⟨hp, res, by rw [hr]; exact List.mem_cons_of_mem _ hmem, hneg⟩

/-- The method `fill` panics with `errNegativeRead` only after a read that
answered a negative count. -/
theorem fill_panic_negative {σ : Type} (rd : σ → Nat → ReadResult × σ) (b b' : Reader σ)
    (reads : List ReadResult) (h : b.fill rd = .panic Panic.errNegativeRead b' reads) :
    ∃ res ∈ reads, res.n < 0 := by
  have key : ∀ b0 : Reader σ,
      (if b0.w ≥ (b0.buf.length : Int) then (.panic Panic.fillFullBuffer b0 [] : Outcome σ Unit)
        else fillLoop rd maxConsecutiveEmptyReads b0) = .panic Panic.errNegativeRead b' reads →
      ∃ res ∈ reads, res.n < 0 := by
    intro b0 h0
    split_ifs at h0
    · simp at h0
    · rcases fillLoop_panic rd _ _ _ _ _ h0 with hp | ⟨_, hres⟩
      · cases hp
      · exact hres
  unfold Reader.fill at h
  by_cases hr : b.r > 0
  · simp only [if_pos hr] at h
    cases hs : slice b.buf b.r b.w with
    | none => simp [hs] at h
    | some s =>
      simp only [hs] at h
      exact key { b with buf := copy b.buf s, w := b.w - b.r, r := 0 } h
  · simp only [if_neg hr] at h
    exact key b h

/-- C13 (negative read counts are fatal).  For every state within the cursor
invariant whose buffered region is shorter than the buffer: if a source read
performed by `fill` (the first one, or one that follows `k < 100` reads
answered `(0, nil)`) answers a negative count, `fill` does not return but
panics with `errNegativeRead`; it latches no error, whatever error came with
the count, and `w` stays where the slide to the front put it (`w - r`).  And
for every state, `fill` panics with `errNegativeRead` only when one of its
reads answered a negative count. -/
theorem C13_negative_read {σ : Type} (rd : σ → Nat → ReadResult × σ) (b : Reader σ)
    (hwf : b.WF) (hfree : b.w - b.r < b.buf.length) (k : Nat) (hk : k < 100)
    (t : IOReader σ) (hz : ZeroReadsTo rd b.free k b.rd t)
    (hneg : (t.Read rd b.free).1.n < 0) :
    (∃ b', b.fill rd = .panic Panic.errNegativeRead b'
        (List.replicate k (⟨0, [], none⟩ : ReadResult) ++ [(t.Read rd b.free).1]) ∧
      b'.w = b.w - b.r ∧ b'.r = 0 ∧ b'.err = b.err ∧ b'.buf.length = b.buf.length) ∧
    (∀ (b0 b1 : Reader σ) (reads : List ReadResult),
      b0.fill rd = .panic Panic.errNegativeRead b1 reads → ∃ res ∈ reads, res.n < 0) := by
  refine ⟨?_, fun b0 b1 reads h => fill_panic_negative rd b0 b1 reads h⟩
  have h0 := hwf.1
  have hsw := slid_w b h0
  have hsl := slid_length b
  have hsr := slid_r b h0
  have hw0 : 0 ≤ b.slid.w := by rw [hsw]; have := hwf.2.1; omega
  have hw1 : b.slid.w ≤ b.slid.buf.length := by rw [hsw, hsl]; omega
  have hzero := fillLoop_zeroTo rd t (99 - k + 1) k b.slid hw0 hw1
    (by rw [free_eq b h0, slid_rd]; exact hz)
  rw [show 99 - k + 1 + k = maxConsecutiveEmptyReads by
    simp only [maxConsecutiveEmptyReads]; omega] at hzero
  have hstep := fillLoop_succ rd (99 - k) { b.slid with rd := t } hw0 hw1
  simp only [free_eq b h0] at hstep
  rw [if_pos hneg] at hstep
  rw [fill_eq rd b hwf hfree, hzero, hstep]
  refine ⟨_, rfl, hsw, hsr, slid_err b, ?_⟩
  simp only [List.length_append, copy_length, List.length_take, List.length_drop]
  omega

/-- Witness of C13: the buffer holds `"x"` unreturned behind one returned byte,
and the source answers `(0, nil)` and then the count `-1` together with
`io.EOF`. -/
theorem C13_negative_read_witness :
    (∃ b', Reader.fill scriptSource
        { buf := [0x78, 0x78, 0, 0, 0, 0, 0, 0, 0, 0, 0, 0, 0, 0, 0, 0],
          rd := .other [⟨0, [], none⟩, ⟨-1, [], some Error.EOF⟩], r := 1, w := 2,
          err := none } =
        .panic Panic.errNegativeRead b' [⟨0, [], none⟩, ⟨-1, [], some Error.EOF⟩] ∧
      b'.w = 2 - 1 ∧ b'.r = 0 ∧ b'.err = none ∧
      b'.buf.length = ([0x78, 0x78, 0, 0, 0, 0, 0, 0, 0, 0, 0, 0, 0, 0, 0, 0] : List Nat).length) ∧
    (∀ (b0 b1 : Reader (List ReadResult)) (reads : List ReadResult),
      b0.fill scriptSource = .panic Panic.errNegativeRead b1 reads → ∃ res ∈ reads, res.n < 0) :=
  C13_negative_read scriptSource
    { buf := [0x78, 0x78, 0, 0, 0, 0, 0, 0, 0, 0, 0, 0, 0, 0, 0, 0],
      rd := .other [⟨0, [], none⟩, ⟨-1, [], some Error.EOF⟩], r := 1, w := 2, err := none }
    (by decide) (by decide) 1 (by decide) (.other [⟨-1, [], some Error.EOF⟩]) ⟨rfl, rfl⟩
    (by decide)

/-! ## C14: `GetGoFmt` -/

theorem GetGoFmtLoop_skip (gx : String → String) (username : String) (pre : List wide.User)
    (rest : List (Option wide.User)) (hpre : ∀ v ∈ pre, v.Name ≠ username) :
    wide.GetGoFmtLoop gx username (pre.map some ++ rest) = wide.GetGoFmtLoop gx username rest := by
  induction pre with
  | nil => rfl
  | cons v pre ih =>
    simp only [List.map_cons, List.cons_append, wide.GetGoFmtLoop]
    rw [if_neg (hpre v (List.mem_cons_self _ _))]
    exact ih (fun u hu => hpre u (List.mem_cons_of_mem _ hu))

/-- Counterexample to C14 as stated: a configuration whose `Users` holds a nil
pointer.  `GetGoFmt` does not return `"gofmt"`: evaluating `user.Name` panics,
also when a user of that name follows the nil entry. -/
theorem C14_counterexample :
    (wide.testConf [none]).GetGoFmt (fun s => s) "alice" = none ∧
    (wide.testConf [none, some (wide.testUser "alice" "goimports")]).GetGoFmt (fun s => s) "alice"
      = none := by
  exact ⟨rfl, rfl⟩

/-- C14, amended.  For every configuration and username: when the entries of
`Users` up to the first user whose `Name` equals the username are non-nil,
`GetGoFmt` returns the GOBIN executable path of `goimports` if that user has
`GoFormat` equal to `"goimports"`, and `"gofmt"` otherwise (also for any
unsupported value); and when all entries are non-nil and no user has that
name, it returns `"gofmt"`. -/
theorem C14_GetGoFmt (gx : String → String) (c : wide.conf) (username : String) :
    (∀ (pre : List wide.User) (u : wide.User) (post : List (Option wide.User)),
      c.Users = pre.map some ++ some u :: post → (∀ v ∈ pre, v.Name ≠ username) →
      u.Name = username →
      c.GetGoFmt gx username =
        some (if u.GoFormat = "goimports" then gx "goimports" else "gofmt")) ∧
    (∀ users : List wide.User, c.Users = users.map some → (∀ v ∈ users, v.Name ≠ username) →
      c.GetGoFmt gx username = some "gofmt") := by
  refine ⟨?_, ?_⟩
  · intro pre u post hc hpre hu
    simp only [wide.conf.GetGoFmt, hc]
    rw [GetGoFmtLoop_skip gx username pre _ hpre]
    simp only [wide.GetGoFmtLoop, if_pos hu]
    by_cases h1 : u.GoFormat = "gofmt"
    · rw [if_pos h1, if_neg (by rw [h1]; decide)]
    · rw [if_neg h1]
      by_cases h2 : u.GoFormat = "goimports"
      · rw [if_pos h2, if_pos h2]
      · rw [if_neg h2, if_neg h2]
  · intro users hc hall
    simp only [wide.conf.GetGoFmt, hc]
    have := GetGoFmtLoop_skip gx username users [] hall
    rw [List.append_nil] at this
    rw [this]
    rfl

/-- Witness of C14, amended: users `bob` (gofmt), `alice` (goimports) and
another `alice` (gofmt); the first `alice` decides.  And a configuration without
`carol`. -/
theorem C14_GetGoFmt_witness :
    (wide.testConf [some (wide.testUser "bob" "gofmt"), some (wide.testUser "alice" "goimports"),
        some (wide.testUser "alice" "gofmt")]).GetGoFmt (fun s => s) "alice" =
      some (if (wide.testUser "alice" "goimports").GoFormat = "goimports"
        then (fun s => s) "goimports" else "gofmt") ∧
    (wide.testConf [some (wide.testUser "bob" "gofmt")]).GetGoFmt (fun s => s) "carol" =
      some "gofmt" :=
  ⟨(C14_GetGoFmt (fun s => s)
      (wide.testConf [some (wide.testUser "bob" "gofmt"),
        some (wide.testUser "alice" "goimports"), some (wide.testUser "alice" "gofmt")])
      "alice").1 [wide.testUser "bob" "gofmt"] (wide.testUser "alice" "goimports")
      [some (wide.testUser "alice" "gofmt")] rfl (by decide) rfl,
    (C14_GetGoFmt (fun s => s) (wide.testConf [some (wide.testUser "bob" "gofmt")])
      "carol").2 [wide.testUser "bob" "gofmt"] rfl (by decide)⟩

/-! ## C15: the postcondition of `fill` -/

/-- C15 (`fill` postcondition).  For every state with `0 ≤ r ≤ w ≤ len(buf)` and
`w - r < len(buf)` and every source that keeps the `Read` contract, `fill`
returns with `r = 0`; `buf[0 : w_old - r_old]` is the old `buf[r_old : w_old]`;
the new `w` is `w_old - r_old` plus the number of bytes the source delivered
during this `fill`; `buf[w_old - r_old : w]` holds exactly those bytes, in
order; and the buffer has the length it had. -/
theorem C15_fill_postcondition {σ : Type} (rd : σ → Nat → ReadResult × σ) (hrd : SourceOK rd)
    (b : Reader σ) (hwf : b.WF) (hfree : b.w - b.r < b.buf.length) :
    ∃ b' reads, b.fill rd = .ret () b' reads ∧ b'.r = 0 ∧
      slice b.buf b.r b.w = some b.window ∧
      slice b'.buf 0 (b.w - b.r) = some b.window ∧
      b'.w = (b.w - b.r) + (delivered reads).length ∧
      slice b'.buf (b.w - b.r) b'.w = some (delivered reads) ∧
      b'.buf.length = b.buf.length := by
  obtain ⟨b', reads, hf, hr, hl, hwf', hw, hwin, _⟩ := fill_spec hrd b hwf hfree
  have hwl := window_length b hwf
  have h0 := hwf.1
  have h1 := hwf.2.1
  have h2' := hwf'.2.2
  rw [window_of_r_zero hr] at hwin
  refine ⟨b', reads, hf, hr, window_eq_slice hwf, ?_, hw, ?_, hl⟩
  · rw [slice_eq_some (le_refl _) (by omega) (by omega)]
    congr 1
    simp only [Int.toNat_zero, List.drop_zero, sub_zero]
    have e : (b.w - b.r).toNat = min (b.w - b.r).toNat b'.w.toNat := by omega
    rw [e, ← List.take_take, hwin, ← hwl, List.take_left]
  · rw [slice_eq_some (by omega) (by omega) h2']
    congr 1
    have e : (b'.w - (b.w - b.r)).toNat = b'.w.toNat - (b.w - b.r).toNat := by omega
    rw [e, ← List.drop_take, hwin, ← hwl, List.drop_left]

/-- Witness of C15: the buffer holds `"xy"` unreturned behind one returned byte
and the source delivers `"ab"`. -/
theorem C15_fill_postcondition_witness :
    ∃ b' reads, Reader.fill chunkSource
        { buf := [0x77, 0x78, 0x79, 0, 0, 0, 0, 0, 0, 0, 0, 0, 0, 0, 0, 0],
          rd := .other [[0x61, 0x62]], r := 1, w := 3, err := none } = .ret () b' reads ∧
      b'.r = 0 ∧
      slice [0x77, 0x78, 0x79, 0, 0, 0, 0, 0, 0, 0, 0, 0, 0, 0, 0, 0] 1 3 = some [0x78, 0x79] ∧
      slice b'.buf 0 (3 - 1) = some [0x78, 0x79] ∧
      b'.w = (3 - 1) + (delivered reads).length ∧
      slice b'.buf (3 - 1) b'.w = some (delivered reads) ∧
      b'.buf.length =
        ([0x77, 0x78, 0x79, 0, 0, 0, 0, 0, 0, 0, 0, 0, 0, 0, 0, 0] : List Nat).length :=
  C15_fill_postcondition chunkSource chunkSource_ok
    { buf := [0x77, 0x78, 0x79, 0, 0, 0, 0, 0, 0, 0, 0, 0, 0, 0, 0, 0],
      rd := .other [[0x61, 0x62]], r := 1, w := 3, err := none }
    (by decide) (by decide)

/-! ## C16: how far the backward scan goes -/

theorem incomplete_length {h : List Nat} (hinc : IncompleteChar h) : h.length ≤ 3 := by
  obtain ⟨suf, hsuf, hv⟩ := hinc
  have := (valid_length hv).2
  have hpos : 0 < suf.length := List.length_pos.mpr hsuf
  simp only [List.length_append] at this
  omega

/-- Counterexample to C16 as stated: the source delivers `"a"` followed by five
continuation bytes `80` in one read.  The scan moves the cut back five
positions, from `w = 6` to 1, and `ReadData` returns `"a"` with a nil error
leaving `w - r = 5` bytes unreturned.  And on a region that is the single byte
`80` the scan ends with `index = r - 1`, below `r`. -/
theorem C16_counterexample :
    Reader.ReadData chunkSource
        (NewReaderSize (.other [[0x61, 0x80, 0x80, 0x80, 0x80, 0x80]]) 16) =
      .ret ([0x61], none)
        { buf := [0x61, 0x80, 0x80, 0x80, 0x80, 0x80, 0, 0, 0, 0, 0, 0, 0, 0, 0, 0],
          rd := .other [], r := 1, w := 6, err := none }
        [⟨6, [0x61, 0x80, 0x80, 0x80, 0x80, 0x80], none⟩] ∧
    scanBack [0x61, 0x80, 0x80, 0x80, 0x80, 0x80, 0, 0, 0, 0, 0, 0, 0, 0, 0, 0] 0 6 = some 1 ∧
    ¬ ((6 : Int) - 1 ≤ 4) ∧
    scanBack [0x80, 0, 0, 0, 0, 0, 0, 0, 0, 0, 0, 0, 0, 0, 0, 0] 0 1 = some (-1) := by
  decide

/-- C16, amended.  The backward scan has no bound of its own: it moves the cut
back from `w` past every prefix whose last rune decodes to `RuneError`.  For
every reader state and source, a `ReadData` call that returns with a nil error
has stopped the cut above `r` (the chunk is not empty), at the longest prefix
of the buffered region that decodes at its end: `r` afterwards is the length of
the chunk, `r ≤ w`, and no longer prefix of `buf[0:w]` decodes.  When the
buffered region is made of complete, validly encoded characters other than
`U+FFFD` followed by a proper prefix of a character, exactly that prefix stays
buffered, so at most 3 bytes are left unreturned. -/
theorem C16_backward_scan {σ : Type} (rd : σ → Nat → ReadResult × σ) (b b' : Reader σ)
    (line : List Nat) (reads : List ReadResult)
    (h : b.ReadData rd = .ret (line, none) b' reads) :
    line ≠ [] ∧ b'.r = line.length ∧ b'.r ≤ b'.w ∧ line = b'.buf.take b'.r.toNat ∧
      (∀ j, b'.r.toNat < j → j ≤ b'.w.toNat →
        (utf8.DecodeLastRune (b'.buf.take j)).1 = utf8.RuneError) ∧
      (∀ (chars : List (List Nat)) (held : List Nat), chars ≠ [] →
        (∀ c ∈ chars, GoodChar c) → IncompleteChar held →
        line ++ b'.window = chars.flatten ++ held →
        line = chars.flatten ∧ b'.window = held ∧ b'.w - b'.r ≤ 3) := by
  unfold Reader.ReadData at h
  cases ht : b.topUp rd with
  | panic p b1 reads1 => simp [ht] at h
  | ret u b1 reads1 =>
    simp only [ht] at h
    obtain ⟨hwf, he⟩ := emit_ret_nil h
    have hr := topUp_r_zero rd b b1 reads1 ht hwf
    have h0 := hwf.1
    have h1 := hwf.2.1
    have h2 := hwf.2.2
    rcases emit_scan b1 hwf hr he reads1 with ⟨hp, _⟩ | ⟨m, hm0, hmw, hret, hgood, hall⟩
    · rw [hp] at h
      cases h
    · have hret' := hret
      rw [h] at hret'
      simp only [Outcome.ret.injEq, Prod.mk.injEq] at hret'
      obtain ⟨⟨hline, _⟩, hb', _⟩ := hret'
      have hlen : line.length = m := by
        rw [hline, List.length_take]
        omega
      have hsplit : b1.window = line ++ b'.window := by
        rw [window_of_r_zero hr, hb', hline]
        simp only [Reader.window, Int.toNat_ofNat]
        have e : (b1.w - (m : Int)).toNat = b1.w.toNat - m := by omega
        rw [e]
        have hle : m ≤ b1.w.toNat := by omega
        calc List.take b1.w.toNat b1.buf
            = List.take (m + (b1.w.toNat - m)) b1.buf := by rw [Nat.add_sub_cancel' hle]
          _ = List.take m b1.buf ++ List.take (b1.w.toNat - m) (List.drop m b1.buf) :=
              List.take_add _ _ _
      refine ⟨?_, ?_, ?_, ?_, ?_, ?_⟩
      · intro hnil
        rw [hnil] at hlen
        simp only [List.length_nil] at hlen
        omega
      · rw [hb', hlen]
      · rw [hb']
        exact hmw
      · rw [hb', hline]
        simp
      · intro j hj1 hj2
        rw [hb'] at hj1 hj2 ⊢
        simp only [Int.toNat_ofNat] at hj1
        exact hall j hj1 hj2
      · intro chars held hne hgc hinc heq
        obtain ⟨hemit, hwin2⟩ :=
          emit_good b1 hwf hr he reads1 chars held hne hgc hinc (by rw [hsplit, heq])
        rw [h] at hemit
        simp only [Outcome.ret.injEq, Prod.mk.injEq] at hemit
        obtain ⟨⟨hl2, _⟩, hb2, _⟩ := hemit
        rw [hb2]
        refine ⟨hl2, hwin2, ?_⟩
        have hwl := window_length b1 hwf
        rw [hsplit, heq, ← hl2, hr] at hwl
        have h3 := incomplete_length hinc
        simp only [List.length_append, sub_zero] at hwl
        simp only
        rw [← hl2]
        omega

/-- Witness of C16, amended: `"a"` followed by the first three bytes of
`U+1F600`; `ReadData` returns `"a"` and keeps the three bytes. -/
theorem C16_backward_scan_witness :
    ([0x61] : List Nat) ≠ [] ∧ (1 : Int) = ([0x61] : List Nat).length ∧ (1 : Int) ≤ 4 ∧
      ([0x61] : List Nat) =
        ([0x61, 0xF0, 0x9F, 0x98, 0, 0, 0, 0, 0, 0, 0, 0, 0, 0, 0, 0] : List Nat).take 1 ∧
      (∀ j, 1 < j → j ≤ 4 →
        (utf8.DecodeLastRune
          (([0x61, 0xF0, 0x9F, 0x98, 0, 0, 0, 0, 0, 0, 0, 0, 0, 0, 0, 0] : List Nat).take j)).1
            = utf8.RuneError) ∧
      (∀ (chars : List (List Nat)) (held : List Nat), chars ≠ [] →
        (∀ c ∈ chars, GoodChar c) → IncompleteChar held →
        [0x61] ++ [0xF0, 0x9F, 0x98] = chars.flatten ++ held →
        [0x61] = chars.flatten ∧ [0xF0, 0x9F, 0x98] = held ∧ (4 : Int) - 1 ≤ 3) :=
  C16_backward_scan chunkSource (NewReaderSize (.other [[0x61, 0xF0, 0x9F, 0x98]]) 16)
    { buf := [0x61, 0xF0, 0x9F, 0x98, 0, 0, 0, 0, 0, 0, 0, 0, 0, 0, 0, 0], rd := .other [],
      r := 1, w := 4, err := none }
    [0x61] [⟨4, [0x61, 0xF0, 0x9F, 0x98], none⟩] (by decide)

/-! ## C17: `fill` is invoked with free space only -/

theorem IOReader.Read_congr {σ : Type} {rd rd' : σ → Nat → ReadResult × σ} {len : Nat}
    (h : ∀ s, rd s len = rd' s len) (src : IOReader σ) : src.Read rd len = src.Read rd' len := by
  cases src with
  | other s => simp only [IOReader.Read, h s]
  | ptrReader buf src r w err => rfl

/-- The loop of `fill` consults the source only with destinations of the
length `len(buf) - w`: two sources that agree on that length give the same
outcome. -/
theorem fillLoop_congr {σ : Type} {rd rd' : σ → Nat → ReadResult × σ} (len : Nat)
    (h : ∀ s, rd s len = rd' s len) :
    ∀ (i : Nat) (b : Reader σ), 0 ≤ b.w → b.w ≤ b.buf.length →
      b.buf.length - b.w.toNat = len → fillLoop rd i b = fillLoop rd' i b := by
  intro i
  induction i with
  | zero => intro b _ _ _; rfl
  | succ i ih =>
    intro b h0 h1 hlen
    rw [fillLoop_succ rd i b h0 h1, fillLoop_succ rd' i b h0 h1, hlen,
      IOReader.Read_congr h b.rd]
    split_ifs with h2 h3 h4
    · rfl
    · rfl
    · rfl
    · have hz : (b.rd.Read rd' len).1.n = 0 := by omega
      have hl : (b.buf.take b.w.toNat ++ copy (b.buf.drop b.w.toNat)
          (b.rd.Read rd' len).1.data).length = b.buf.length := by
        simp only [List.length_append, copy_length, List.length_take, List.length_drop]
        omega
      rw [ih _ (by simp only; omega) (by simp only [hl]; omega)
        (by simp only [hl, hz, add_zero]; exact hlen)]

/-- The rest of `ReadData` panics only with the bounds check of a slice or
with "no utf8 char found". -/
theorem emit_panic {σ : Type} {b b' : Reader σ} {reads reads' : List ReadResult} {p : Panic}
    (h : b.emit reads = .panic p b' reads') :
    p = Panic.sliceBounds ∨ p = Panic.noUtf8CharFound := by
  unfold Reader.emit at h
  split_ifs at h with he hwr
  · cases hs : slice b.buf b.r b.w with
    | none =>
      simp only [hs, Outcome.panic.injEq] at h
      exact Or.inl h.1.symm
    | some l => simp [hs] at h
  · simp only [Outcome.panic.injEq] at h
    exact Or.inl h.1.symm
  · simp only at h
    cases hs : scanBack b.buf b.r (b.w - b.r).toNat with
    | none =>
      simp only [hs, Outcome.panic.injEq] at h
      exact Or.inl h.1.symm
    | some index =>
      simp only [hs] at h
      split_ifs at h
      · cases hl : slice b.buf b.r (b.r + index) with
        | none =>
          simp only [hl, Outcome.panic.injEq] at h
          exact Or.inl h.1.symm
        | some l => simp [hl] at h
      · simp only [Outcome.panic.injEq] at h
        exact Or.inr h.1.symm

/-- C17 (`fill` is invoked with free space only).  For every state with
`0 ≤ r ≤ w ≤ len(buf)` and every source: when `ReadData` invokes `fill`
(`Buffered() < len(buf)`), `w < len(buf)` holds after the slide to the front,
so `fill` goes on to its loop; `ReadData` never ends with the panic "bufio:
tried to fill full buffer"; and every source read of the call is given a
destination of the length `len(buf) - (w - r)`, which is positive: the outcome
of `ReadData` depends on the source only through its answers for that
length. -/
theorem C17_fill_free_space {σ : Type} (rd : σ → Nat → ReadResult × σ) (b : Reader σ)
    (hwf : b.WF) :
    (b.Buffered < b.buf.length →
      b.slid.w < b.slid.buf.length ∧ 0 < b.free ∧
      b.topUp rd = fillLoop rd maxConsecutiveEmptyReads b.slid) ∧
    (∀ (b' : Reader σ) (reads : List ReadResult),
      b.ReadData rd ≠ .panic Panic.fillFullBuffer b' reads) ∧
    (∀ rd' : σ → Nat → ReadResult × σ, (∀ s, rd s b.free = rd' s b.free) →
      b.ReadData rd = b.ReadData rd') := by
  have h0 := hwf.1
  have h1 := hwf.2.1
  have h2 := hwf.2.2
  have hsw := slid_w b h0
  have hsl := slid_length b
  refine ⟨?_, ?_, ?_⟩
  · intro hfree
    simp only [Reader.Buffered] at hfree
    refine ⟨by rw [hsw, hsl]; exact hfree, ?_, topUp_eq rd b hwf hfree⟩
    simp only [Reader.free]
    omega
  · intro b' reads h
    unfold Reader.ReadData at h
    cases ht : b.topUp rd with
    | panic p b1 reads1 =>
      simp only [ht, Outcome.panic.injEq] at h
      obtain ⟨hp, _, _⟩ := h
      subst hp
      by_cases hfree : b.w - b.r < b.buf.length
      · rw [topUp_eq rd b hwf hfree] at ht
        rcases fillLoop_panic rd _ _ _ _ _ ht with hp | ⟨hp, _⟩
        · cases hp
        · cases hp
      · simp [Reader.topUp, Reader.Buffered, hfree] at ht
    | ret u b1 reads1 =>
      simp only [ht] at h
      rcases emit_panic h with hp | hp
      · cases hp
      · cases hp
  · intro rd' hagree
    have htop : b.topUp rd = b.topUp rd' := by
      by_cases hfree : b.w - b.r < b.buf.length
      · rw [topUp_eq rd b hwf hfree, topUp_eq rd' b hwf hfree]
        exact fillLoop_congr b.free hagree _ b.slid (by rw [hsw]; omega)
          (by rw [hsw, hsl]; omega) (free_eq b h0)
      · simp [Reader.topUp, Reader.Buffered, hfree]
    unfold Reader.ReadData
    rw [htop]

/-- Witness of C17: a buffer of 16 bytes that holds 15 unreturned bytes behind
one returned byte; `fill` is invoked and the destination has one byte. -/
theorem C17_fill_free_space_witness :
    (almostFull.Buffered < almostFull.buf.length →
      almostFull.slid.w < almostFull.slid.buf.length ∧ 0 < almostFull.free ∧
      almostFull.topUp chunkSource =
        fillLoop chunkSource maxConsecutiveEmptyReads almostFull.slid) ∧
    (∀ (b' : Reader (List (List Nat))) (reads : List ReadResult),
      almostFull.ReadData chunkSource ≠ .panic Panic.fillFullBuffer b' reads) ∧
    (∀ rd' : List (List Nat) → Nat → ReadResult × List (List Nat),
      (∀ s, chunkSource s almostFull.free = rd' s almostFull.free) →
      almostFull.ReadData chunkSource = almostFull.ReadData rd') :=
  C17_fill_free_space chunkSource almostFull (by decide)

/-! ## C18: the read cursor at the backward scan -/

/-- C18 (read cursor is zero at the boundary scan).  For every state with
`0 ≤ r ≤ w ≤ len(buf)` and every source whose counts are within range, when
the top-up of `ReadData` leaves no latched error, so that the backward scan is
reached, `r = 0` there.  The scan then either finds no cut and `ReadData`
panics with "no utf8 char found", or ends with an `index > 0` for which
`r + index = index ≤ w`: the slice `buf[r : r+index]` is the slice
`buf[r : index]`, it is in range, and `ReadData` returns it and sets
`r = index`. -/
theorem C18_read_cursor_zero {σ : Type} (rd : σ → Nat → ReadResult × σ)
    (hrd : CountInRange rd) (b b1 : Reader σ) (reads : List ReadResult) (hwf : b.WF)
    (ht : b.topUp rd = .ret () b1 reads) (he : b1.err = none) :
    b1.r = 0 ∧
      (b.ReadData rd = .panic Panic.noUtf8CharFound b1 reads ∨
        ∃ (index : Int) (line : List Nat), 0 < index ∧ b1.r + index = index ∧
          b1.r + index ≤ b1.w ∧
          slice b1.buf b1.r (b1.r + index) = slice b1.buf b1.r index ∧
          slice b1.buf b1.r (b1.r + index) = some line ∧
          b.ReadData rd = .ret (line, none) { b1 with r := b1.r + index } reads ∧
          ({ b1 with r := b1.r + index } : Reader σ) = { b1 with r := index }) := by
  obtain ⟨hwf1, hr⟩ := topUp_wf hrd b b1 reads hwf ht
  refine ⟨hr, ?_⟩
  have h2 := hwf1.2.2
  rcases emit_scan b1 hwf1 hr he reads with ⟨hp, _⟩ | ⟨m, hm0, hmw, hret, _, _⟩
  · left
    simp only [Reader.ReadData, ht]
    exact hp
  · right
    have hsl : slice b1.buf 0 (m : Int) = some (b1.buf.take m) := by
      rw [slice_eq_some (le_refl _) (by omega) (by omega)]
      simp
    refine ⟨m, b1.buf.take m, by omega, by rw [hr]; simp, by rw [hr]; simpa using hmw,
      by rw [hr]; simp, by rw [hr]; simpa using hsl, ?_, by rw [hr]; simp⟩
    simp only [Reader.ReadData, ht, hr, zero_add]
    exact hret

/-- Witness of C18: the second call on a reader that had returned `"ab"`; the
slide to the front puts `r` back to 0 before `"cd"` is scanned. -/
theorem C18_read_cursor_zero_witness :
    (0 : Int) = 0 ∧
      (Reader.ReadData chunkSource
          { buf := [0x61, 0x62, 0, 0, 0, 0, 0, 0, 0, 0, 0, 0, 0, 0, 0, 0],
            rd := .other [[0x63, 0x64]], r := 2, w := 2, err := none } =
          .panic Panic.noUtf8CharFound
            { buf := [0x63, 0x64, 0, 0, 0, 0, 0, 0, 0, 0, 0, 0, 0, 0, 0, 0], rd := .other [],
              r := 0, w := 2, err := none } [⟨2, [0x63, 0x64], none⟩] ∨
        ∃ (index : Int) (line : List Nat), 0 < index ∧ (0 : Int) + index = index ∧
          (0 : Int) + index ≤ 2 ∧
          slice [0x63, 0x64, 0, 0, 0, 0, 0, 0, 0, 0, 0, 0, 0, 0, 0, 0] 0 (0 + index) =
            slice [0x63, 0x64, 0, 0, 0, 0, 0, 0, 0, 0, 0, 0, 0, 0, 0, 0] 0 index ∧
          slice [0x63, 0x64, 0, 0, 0, 0, 0, 0, 0, 0, 0, 0, 0, 0, 0, 0] 0 (0 + index) =
            some line ∧
          Reader.ReadData chunkSource
              { buf := [0x61, 0x62, 0, 0, 0, 0, 0, 0, 0, 0, 0, 0, 0, 0, 0, 0],
                rd := .other [[0x63, 0x64]], r := 2, w := 2, err := none } =
            .ret (line, none)
              { buf := [0x63, 0x64, 0, 0, 0, 0, 0, 0, 0, 0, 0, 0, 0, 0, 0, 0], rd := .other [],
                r := 0 + index, w := 2, err := none } [⟨2, [0x63, 0x64], none⟩] ∧
          ({ buf := [0x63, 0x64, 0, 0, 0, 0, 0, 0, 0, 0, 0, 0, 0, 0, 0, 0], rd := .other [],
             r := 0 + index, w := 2, err := none } : Reader (List (List Nat))) =
            { buf := [0x63, 0x64, 0, 0, 0, 0, 0, 0, 0, 0, 0, 0, 0, 0, 0, 0], rd := .other [],
              r := index, w := 2, err := none }) :=
  C18_read_cursor_zero chunkSource chunkSource_count
    { buf := [0x61, 0x62, 0, 0, 0, 0, 0, 0, 0, 0, 0, 0, 0, 0, 0, 0],
      rd := .other [[0x63, 0x64]], r := 2, w := 2, err := none }
    { buf := [0x63, 0x64, 0, 0, 0, 0, 0, 0, 0, 0, 0, 0, 0, 0, 0, 0], rd := .other [],
      r := 0, w := 2, err := none }
    [⟨2, [0x63, 0x64], none⟩] (by decide) (by decide) rfl

/-! ## C19: a `Reader` used as a source -/

/-- While the source is a `*Reader`, the loop of `fill` leaves it as it is. -/
theorem fillLoop_rd_ptr {σ : Type} (rd : σ → Nat → ReadResult × σ) (ibuf : List Nat)
    (isrc : IOReader σ) (ir iw : Int) (ierr : Option Error) :
    ∀ (i : Nat) (b b' : Reader σ) (reads : List ReadResult),
      b.rd = .ptrReader ibuf isrc ir iw ierr → fillLoop rd i b = .ret () b' reads →
      b'.rd = .ptrReader ibuf isrc ir iw ierr := by
  intro i
  induction i with
  | zero =>
    intro b b' reads hrd h
    simp only [fillLoop, Outcome.ret.injEq] at h
    obtain ⟨_, h, _⟩ := h
    subst h
    exact hrd
  | succ i ih =>
    intro b b' reads hrd h
    simp only [fillLoop] at h
    cases hs : slice b.buf b.w b.buf.length with
    | none => simp [hs] at h
    | some p =>
      simp only [hs, hrd] at h
      have hnext : ((IOReader.ptrReader ibuf isrc ir iw ierr : IOReader σ).Read rd p.length).2
          = .ptrReader ibuf isrc ir iw ierr := rfl
      split_ifs at h with h1 h2 h3
      · simp only [Outcome.ret.injEq] at h
        obtain ⟨_, h, _⟩ := h
        subst h
        exact hnext
      · simp only [Outcome.ret.injEq] at h
        obtain ⟨_, h, _⟩ := h
        subst h
        exact hnext
      · obtain ⟨reads0, h0, _⟩ := addRead_ret h
        exact ih _ _ _ hnext h0

/-- One call of `ReadData` on a reader whose source is a `*Reader`, with an
empty buffered region and a buffer of positive length: after 100 source reads
it returns an empty chunk with `io.ErrNoProgress`, and the reader is again in
such a state. -/
theorem ReadData_ptr {σ : Type} (rd : σ → Nat → ReadResult × σ) (ibuf : List Nat)
    (isrc : IOReader σ) (ir iw : Int) (ierr : Option Error) (b : Reader σ) (hwf : b.WF)
    (hrw : b.r = b.w) (hlen : 0 < b.buf.length)
    (hsrc : b.rd = .ptrReader ibuf isrc ir iw ierr) :
    ∃ b1 reads, b.ReadData rd = .ret ([], some Error.ErrNoProgress) b1 reads ∧
      reads.length = 100 ∧ b1.WF ∧ b1.r = b1.w ∧ b1.buf.length = b.buf.length ∧
      b1.rd = .ptrReader ibuf isrc ir iw ierr := by
  have h0 := hwf.1
  have h2 := hwf.2.2
  have hsw := slid_w b h0
  have hsr := slid_r b h0
  have hsl := slid_length b
  have hfree : b.w - b.r < b.buf.length := by omega
  obtain ⟨b', reads, he, hcnt, _, hr, hw, herr, hl, _⟩ :=
    fillLoop_zero rd maxConsecutiveEmptyReads b.slid (by rw [hsw]; omega)
      (by rw [hsw, hsl]; omega)
      (by rw [slid_rd, hsrc]; exact zeroReads_ptrReader rd _ ibuf isrc ir iw ierr _)
  have hrd' := fillLoop_rd_ptr rd ibuf isrc ir iw ierr _ _ _ _ (by rw [slid_rd, hsrc]) he
  have hwf' : b'.WF := ⟨by rw [hr, hsr], by rw [hr, hsr, hw, hsw]; omega,
    by rw [hw, hsw, hl, hsl]; omega⟩
  have hwin : b'.window = [] := by
    simp only [Reader.window, hr, hsr, hw, hsw, hrw]
    simp
  refine ⟨{ b' with r := b'.w, err := none }, reads, ?_, hcnt,
    ⟨by simp only; rw [hw, hsw]; omega, le_refl _, hwf'.2.2⟩, rfl, by rw [← hsl, ← hl], hrd'⟩
  simp only [Reader.ReadData, topUp_eq rd b hwf hfree, he]
  rw [emit_err b' hwf' _ herr, hwin]

/-- Every call of `ReadData` on such a reader returns an empty chunk with
`io.ErrNoProgress`. -/
theorem readDataN_ptr {σ : Type} (rd : σ → Nat → ReadResult × σ) (ibuf : List Nat)
    (isrc : IOReader σ) (ir iw : Int) (ierr : Option Error) :
    ∀ (k : Nat) (b : Reader σ), b.WF → b.r = b.w → 0 < b.buf.length →
      b.rd = .ptrReader ibuf isrc ir iw ierr →
      ∃ bk reads, readDataN rd k b =
          some (List.replicate k ([], some Error.ErrNoProgress), bk, reads) ∧
        reads.length = 100 * k := by
  intro k
  induction k with
  | zero =>
    intro b _ _ _ _
    exact ⟨b, [], rfl, rfl⟩
  | succ k ih =>
    intro b hwf hrw hlen hsrc
    obtain ⟨b1, reads1, hcall, hcnt, hwf1, hrw1, hl1, hsrc1⟩ :=
      ReadData_ptr rd ibuf isrc ir iw ierr b hwf hrw hlen hsrc
    obtain ⟨bk, reads, hrest, hcnt'⟩ := ih b1 hwf1 hrw1 (by omega) hsrc1
    refine ⟨bk, reads1 ++ reads, ?_, ?_⟩
    · simp only [readDataN, hcall, hrest]
      rfl
    · rw [List.length_append, hcnt, hcnt']
      omega

/-- C19 (a `Reader` used as a source never yields data).  For every `Reader`
state and destination slice, `Reader.Read` returns `(0, nil)`, stores nothing
and leaves the state unchanged.  Consequently, for every inner `Reader`, whatever
its source, cursors and buffered bytes, and every size greater than the length
of its buffer, every `ReadData` call on `NewReaderSize(inner, size)` returns an
empty chunk with `io.ErrNoProgress`, each after 100 source reads. -/
theorem C19_reader_as_source {σ : Type} (rd : σ → Nat → ReadResult × σ) :
    (∀ (inner : Reader σ) (len : Nat), inner.Read len = (⟨0, [], none⟩, inner)) ∧
    (∀ (ibuf : List Nat) (isrc : IOReader σ) (ir iw : Int) (ierr : Option Error) (size : Int),
      (ibuf.length : Int) < size → ∀ k : Nat,
        ∃ bk reads, readDataN rd k (NewReaderSize (.ptrReader ibuf isrc ir iw ierr) size) =
            some (List.replicate k ([], some Error.ErrNoProgress), bk, reads) ∧
          reads.length = 100 * k) := by
  refine ⟨fun _ _ => rfl, ?_⟩
  intro ibuf isrc ir iw ierr size hsize k
  have halloc : Allocates (.ptrReader ibuf isrc ir iw ierr : IOReader σ) size := hsize
  obtain ⟨hwf0, _⟩ := NewReaderSize_alloc_wf _ size halloc
  have hb0 := NewReaderSize_alloc (.ptrReader ibuf isrc ir iw ierr : IOReader σ) size halloc
  refine readDataN_ptr rd ibuf isrc ir iw ierr k _ hwf0 (by rw [hb0]) ?_ (by rw [hb0])
  rw [hb0]
  simp only [List.length_replicate, minReadBufferSize]
  split_ifs <;> omega

/-- Witness of C19: an inner reader with a 16-byte buffer that holds `"hi"`
unreturned, over a source that has `"more"` to deliver, wrapped with size 32;
three calls of `ReadData` return three empty chunks with
`io.ErrNoProgress`. -/
theorem C19_reader_as_source_witness :
    ∃ bk reads, readDataN chunkSource 3
        (NewReaderSize (.ptrReader [0x68, 0x69, 0, 0, 0, 0, 0, 0, 0, 0, 0, 0, 0, 0, 0, 0]
          (.other [[0x6D, 0x6F, 0x72, 0x65]]) 0 2 none) 32) =
        some (List.replicate 3 ([], some Error.ErrNoProgress), bk, reads) ∧
      reads.length = 100 * 3 :=
  (C19_reader_as_source chunkSource).2 [0x68, 0x69, 0, 0, 0, 0, 0, 0, 0, 0, 0, 0, 0, 0, 0, 0]
    (.other [[0x6D, 0x6F, 0x72, 0x65]]) 0 2 none 32 (by decide) 3

end Utf8Reader
